import Mathlib

/-!
Seismic Unix trace output (`fputtr.c`) and the zero-phase Butterworth adapters (`subfilt.c`).

A shallow embedding of

* `src/seispy/su/su_lib/fputtr.c` : `searchlist`, `datawrite`, `fputtr_internal`, `fputtr`,
  `fvputtr`, once for the build without XDR (namespace `NoXDR`) and once for the build with
  `SUXDR` defined (namespace `SUXDR`);
* `src/seispy/su/main/filters/subfilt.c` : `bfhighpass_trace`, `bflowpass_trace`.

Conventions of the embedding.

* A `FILE *` is a natural number, `0` being `NULL`.  What has been written to a stream is kept
  in `files : Nat → List Nat`, a list of bytes per stream.
* The linked list `outsegylist` is a Lean list of nodes.  A pointer to a node (`infoptr`) is
  the index of the node, `none` being `NULL`.  A pointer to a link (`oldinfoptr`) is the index
  of the link: link `0` is `&outsegylist`, link `k+1` is `&node k->nextinfo`.
* `err(...)` ends the operation: the result is `Res.err` with the state at that point.
* Undefined behaviour of the C program (dereferencing `NULL`, reading past the end of an
  object) is the result `Res.fault`.
* All the machine integers involved are unsigned and at most 32 bits wide; the products
  `bytesper * ns` are below `2^19` for a 16 bit `ns` and `bytesper ≤ 4`, so no reduction modulo
  `2^32` is written.  The trace counter `itr` (`off_t`) is a natural number.
* Constants and helpers declared in headers that are not part of the sources (`SU_NFLTS`,
  `HDRBYTES`, `CHARPACK`, `SHORTPACK`, `efwrite`, `filestat`, `getparint`, the XDR routines)
  are fields of the environment `Env`.
-/

namespace SU

/-- The `NULL` file pointer. -/
def NULL : Nat := 0

/-- The `FileType` enumeration returned by `filestat`. -/
inductive FileType where
  | BADFILETYPE
  | TTY
  | DISK
  | DIRECTORY
  | TAPE
  | PIPE
  | FIFO
  | SOCKET
  | SYMLINK
  deriving DecidableEq, Repr

/-- The trace record `segy`.  The fields read by `fputtr.c` are kept as numbers; `hdr` is the
memory image of the first `HDRBYTES` bytes of the structure and `data` is the memory image of the
array `float data[SU_NFLTS]`. -/
structure segy where
  ns : Nat
  dt : Nat
  trid : Int
  hdr : List Nat
  data : List Nat
  deriving DecidableEq, Repr

/-- The calls of `err` in `fputtr.c`, one constructor per message, with the arguments of the
message. -/
inductive SuErr where
  | outputIsDirectory
  | outputIsTty
  | tooManySamples (nsfirst nflts : Nat)
  | nsDiffers (trace ns nsfirst : Nat)
  | shortWrite (trace databytes nwritten : Nat)
  | hdrWrite (trace : Nat)
  deriving DecidableEq, Repr

/-- The four error kinds of the specification. -/
inductive ErrorKind where
  | ConfigurationError
  | CapacityExceeded
  | SchemaViolation
  | WriteIntegrityError
  deriving DecidableEq, Repr

/-- The error kind of each message. -/
def SuErr.kind : SuErr → ErrorKind
  | .outputIsDirectory => .ConfigurationError
  | .outputIsTty => .ConfigurationError
  | .tooManySamples _ _ => .CapacityExceeded
  | .nsDiffers _ _ _ => .SchemaViolation
  | .shortWrite _ _ _ => .WriteIntegrityError
  | .hdrWrite _ => .WriteIntegrityError

/-- The result of an operation on a state of type `σ`: normal return, a call of `err`, or
undefined behaviour. -/
inductive Res (σ : Type) where
  | ok (s : σ)
  | err (e : SuErr) (s : σ)
  | fault (s : σ)

/-- The state in which the operation ended. -/
def Res.state {σ : Type} : Res σ → σ
  | .ok s => s
  | .err _ s => s
  | .fault s => s

/-- The error with which the operation ended, if it ended in `err`. -/
def Res.error? {σ : Type} : Res σ → Option SuErr
  | .ok _ => none
  | .err e _ => some e
  | .fault _ => none

/-- The operation returned normally. -/
def Res.isOk {σ : Type} : Res σ → Bool
  | .ok _ => true
  | _ => false

/-- Constants and collaborators that `fputtr.c` takes from headers and libraries. -/
structure Env where
  /-- Maximal number of samples of a trace, the length of `segy.data`. -/
  SU_NFLTS : Nat
  /-- Number of bytes of the trace header. -/
  HDRBYTES : Nat
  /-- The `trid` of byte samples. -/
  CHARPACK : Int
  /-- The `trid` of two-byte samples. -/
  SHORTPACK : Int
  /-- Size of an XDR unit. -/
  BYTES_PER_XDR_UNIT : Nat
  /-- The stream under `efwrite`: `fwriteCount fp len n` is the number of bytes the stream `fp`,
  holding `len` bytes, takes when `n` bytes are offered. -/
  fwriteCount : Nat → Nat → Nat → Nat
  /-- The destination classifier `filestat(fileno(fp))`. -/
  filestat : Nat → FileType
  /-- The value found by `getparint("lheader", ...)`, if the parameter is given. -/
  getparint_lheader : Option Int
  /-- Memory image of a zeroed `bhed` with `format = 5`, `hns` and `hdt` set. -/
  bhedImage : Nat → Nat → List Nat
  /-- The probe `ctest[0]` of `int itest = 1`: true on a host storing the low byte first. -/
  ctest0 : Bool
  /-- The header encoder `xdrhdrsub`: the bytes it puts in the buffer, or `none` for `FALSE`. -/
  xdrhdrsub : segy → Option (List Nat)
  /-- The encoder of `xdr_vector(xdr, data, n, sizeof(float), xdr_float)`: the bytes it puts in
  the buffer for the first `n` floats of `data`, or `none` for `FALSE`. -/
  xdr_vector : List Nat → Nat → Option (List Nat)

/-- Size of a `float`. -/
def sizeof_float : Nat := 4

/-- A trace record as the C type describes it: 16 bit `ns`, a header of `HDRBYTES` bytes and a
data array of `SU_NFLTS` floats. -/
def segy.wf (E : Env) (tp : segy) : Prop :=
  tp.ns < 65536 ∧ tp.hdr.length = E.HDRBYTES ∧ tp.data.length = sizeof_float * E.SU_NFLTS

/-- The stream takes every byte offered. -/
def Env.acceptsAll (E : Env) : Prop :=
  ∀ fp len n, E.fwriteCount fp len n = n

/-- The object `src` holds at least `n` bytes, so that `n` bytes can be read from it (or written
to it); the same as `n ≤ src.length`, computed without walking past the first `n` bytes. -/
def readable (src : List Nat) (n : Nat) : Bool :=
  (src.take n).length == n

/-- Memory image of the `int` value `v` on a host: the low byte first when `littleEndian`, the
high byte first otherwise. -/
def intImage (littleEndian : Bool) (v : Nat) : List Nat :=
  if littleEndian then [v % 256, v / 256 % 256, v / 65536 % 256, v / 16777216 % 256]
  else [v / 16777216 % 256, v / 65536 % 256, v / 256 % 256, v % 256]

/-- The probe of the XDR `datawrite`, `int itest = 1; char *ctest = (char *) (&itest);` and the
test `ctest[0]`, on a host of the given byte order. -/
def hostProbe (littleEndian : Bool) : Bool :=
  (intImage littleEndian 1).headD 0 != 0

/-- The environment `E` on a host of the given byte order: the probe `ctest[0]` is the one of
that host. -/
def Env.onHost (E : Env) (littleEndian : Bool) : Env :=
  { E with ctest0 := hostProbe littleEndian }

/-- Memory image of an array of 16 bit samples on a host of the given byte order. -/
def shortsImage (littleEndian : Bool) : List Nat → List Nat
  | [] => []
  | v :: vs =>
    (if littleEndian then [v % 256, v / 256 % 256] else [v / 256 % 256, v % 256])
      ++ shortsImage littleEndian vs

/-- Bytes of a string, for the text header. -/
def bytesOf (s : String) : List Nat :=
  s.toList.map Char.toNat

/-- The effect of `sprintf(hdr_str, "%-80s", s)`: `s` padded with blanks to 80 characters. -/
def pad80 (s : String) : List Nat :=
  bytesOf s ++ List.replicate (80 - s.length) 32

/-- The text header built by the 40 calls of `strncat` into the zeroed `su_text_hdr`. -/
def defaultTextHdr : List Nat :=
  pad80 "C 1 CLIENT CWP/SU default text header " ++ (List.replicate 39 (pad80 "C")).flatten

/-- One call of `fputtr` (`fixed_length = true`) or `fvputtr` (`fixed_length = false`). -/
structure Call where
  fp : Nat
  tp : segy
  fixed_length : Bool

/-- The sample count of the first trace that the calls `cs` write to the stream `fp`. -/
def firstNs (cs : List Call) (fp : Nat) : Option Nat :=
  (cs.find? (fun c => decide (c.fp = fp))).map (fun c => c.tp.ns)

/-- The number of calls among `cs` that name the stream `fp`. -/
def countTo (cs : List Call) (fp : Nat) : Nat :=
  cs.countP (fun c => decide (c.fp = fp))

namespace NoXDR

/-- The node `struct outsegyinfo` of the build without XDR (`ftype` is never assigned there). -/
structure outsegyinfo where
  outfp : Nat
  itr : Nat
  nsfirst : Nat
  bytesper : Nat
  deriving DecidableEq, Repr

/-- The static and external variables of `fputtr.c`, and the contents of the streams. -/
structure Globals where
  outsegylist : List outsegyinfo
  lastfp : Nat
  infoptr : Option Nat
  oldinfoptr : Option Nat
  out_line_hdr : Int
  in_line_hdr : Int
  su_text_hdr : List Nat
  su_binary_hdr : List Nat
  files : Nat → List Nat

/-- The state at program start: empty list, `lastfp`, `infoptr` and `oldinfoptr` all `NULL`. -/
def Globals.init : Globals :=
  { outsegylist := []
    lastfp := NULL
    infoptr := none
    oldinfoptr := none
    out_line_hdr := 0
    in_line_hdr := 0
    su_text_hdr := List.replicate 3200 0
    su_binary_hdr := []
    files := fun _ => [] }

/-- The loop of `searchlist` from node `k` on: the index of the first node with `outfp = fp`
(or `none`), and the link last assigned to `oldinfoptr`. -/
def searchFrom (fp : Nat) : List outsegyinfo → Nat → Option Nat × Nat
  | [], k => (none, k)
  | n :: rest, k => if fp = n.outfp then (some k, k) else searchFrom fp rest (k + 1)

/-- The function `searchlist`. -/
def searchlist (g : Globals) (fp : Nat) : Globals :=
  { g with
    infoptr := (searchFrom fp g.outsegylist 0).1
    oldinfoptr := some (searchFrom fp g.outsegylist 0).2 }

/-- The call `efwrite(src, 1, n, fp)`: appends to the stream the bytes it takes and returns
their number; `none` when `n` bytes cannot be read from the object `src`. -/
def efwrite (E : Env) (g : Globals) (src : List Nat) (n : Nat) (fp : Nat) : Option (Globals × Nat) :=
  if readable src n then
    let k := min n (E.fwriteCount fp (g.files fp).length n)
    some ({ g with files := fun x => if x = fp then g.files fp ++ src.take k else g.files x }, k)
  else none

/-- Assignment to the fields of the node `i`. -/
def setNode (g : Globals) (i : Nat) (f : outsegyinfo → outsegyinfo) : Globals :=
  { g with outsegylist := g.outsegylist.modify f i }

/-- The function `datawrite`; `i` is `iptr`.  The trace number of the message is read through
the global `infoptr`, as in the source. -/
def datawrite (E : Env) (g : Globals) (tp : segy) (i : Nat) (fixed_length : Bool) : Res Globals :=
  match g.outsegylist[i]? with
  | none => .fault g
  | some iptr =>
    let nstobewritten := if fixed_length then iptr.nsfirst else tp.ns
    let databytes := iptr.bytesper * nstobewritten
    match efwrite E g tp.data databytes iptr.outfp with
    | none => .fault g
    | some (g1, nwritten) =>
      if nwritten ≠ databytes then
        match g1.infoptr.bind (fun j => g1.outsegylist[j]?) with
        | none => .fault g1
        | some cur => .err (.shortWrite (cur.itr + 1) databytes nwritten) g1
      else .ok g1

/-- The part of `fputtr_internal` that writes the line header when `out_line_hdr` is set. -/
def writeLineHdr (E : Env) (g : Globals) (tp : segy) (outfp : Nat) : Res Globals :=
  let g1 : Globals :=
    if g.in_line_hdr ≠ 0 then g else { g with su_text_hdr := defaultTextHdr }
  match efwrite E g1 g1.su_text_hdr 3200 outfp with
  | none => .fault g1
  | some (g2, _) =>
    let g3 : Globals := { g2 with su_binary_hdr := E.bhedImage tp.ns tp.dt }
    match efwrite E g3 g3.su_binary_hdr g3.su_binary_hdr.length outfp with
    | none => .fault g3
    | some (g4, _) => .ok g4

/-- The `switch(tp->trid)` of the initialisation block: the value given to `bytesper`. -/
def bytesperOf (E : Env) (trid : Int) : Nat :=
  if trid = E.CHARPACK then 1
  else if trid = E.SHORTPACK then 2
  else sizeof_float

/-- The block of `fputtr_internal` run when `infoptr == NULL`: a new node is linked in at
`*oldinfoptr`, the sample count of the first trace is checked, `bytesper` is chosen from `trid`
and the line header is written if asked for. -/
def initStream (E : Env) (g : Globals) (fp : Nat) (tp : segy) : Res Globals :=
  match g.oldinfoptr with
  | none => .fault g
  | some slot =>
    let node : outsegyinfo := { outfp := fp, itr := 0, nsfirst := tp.ns, bytesper := 0 }
    let g1 : Globals :=
      { g with outsegylist := g.outsegylist.take slot ++ [node], infoptr := some slot }
    if tp.ns > E.SU_NFLTS then .err (.tooManySamples tp.ns E.SU_NFLTS) g1
    else
      let g2 := setNode g1 slot (fun n => { n with bytesper := bytesperOf E tp.trid })
      let g3 : Globals := { g2 with out_line_hdr := E.getparint_lheader.getD 0 }
      if g3.out_line_hdr ≠ 0 then writeLineHdr E g3 tp fp else .ok g3

/-- The statements of `fputtr_internal` after the initialisation block. -/
def writeTrace (E : Env) (g : Globals) (tp : segy) (fixed_length : Bool) : Res Globals :=
  match g.infoptr with
  | none => .fault g
  | some i =>
    match g.outsegylist[i]? with
    | none => .fault g
    | some info =>
      if tp.ns ≠ info.nsfirst ∧ fixed_length = true then
        .err (.nsDiffers (info.itr + 1) tp.ns info.nsfirst) g
      else
        match efwrite E g (tp.hdr ++ tp.data) E.HDRBYTES info.outfp with
        | none => .fault g
        | some (g1, _) =>
          match datawrite E g1 tp i fixed_length with
          | .ok g2 =>
            .ok { setNode g2 i (fun n => { n with itr := n.itr + 1 }) with lastfp := info.outfp }
          | r => r

/-- The function `fputtr_internal` of the build without XDR. -/
def fputtr_internal (E : Env) (g : Globals) (fp : Nat) (tp : segy) (fixed_length : Bool) :
    Res Globals :=
  let g0 := if fp ≠ g.lastfp then searchlist g fp else g
  match g0.infoptr with
  | none =>
    match initStream E g0 fp tp with
    | .ok g1 => writeTrace E g1 tp fixed_length
    | r => r
  | some _ => writeTrace E g0 tp fixed_length

/-- The function `fputtr`: fixed number of samples. -/
def fputtr (E : Env) (g : Globals) (fp : Nat) (tp : segy) : Res Globals :=
  fputtr_internal E g fp tp true

/-- The function `fvputtr`: variable number of samples. -/
def fvputtr (E : Env) (g : Globals) (fp : Nat) (tp : segy) : Res Globals :=
  fputtr_internal E g fp tp false

/-- A caller writing traces one after the other: each call names its stream, its trace and its
mode; the first call that does not return normally ends the run. -/
def run (E : Env) : Globals → List Call → Res Globals
  | g, [] => .ok g
  | g, c :: cs =>
    match fputtr_internal E g c.fp c.tp c.fixed_length with
    | .ok g1 => run E g1 cs
    | r => r

/-- Consistency of the registry: no two nodes for one stream, and a non-`NULL` `lastfp` is the
stream of the node `infoptr` points to. -/
def Inv (g : Globals) : Prop :=
  (g.outsegylist.map (fun n => n.outfp)).Nodup ∧
  (g.lastfp = NULL ∨
    (g.infoptr.bind (fun i => g.outsegylist[i]?)).map (fun n => n.outfp) = some g.lastfp)

instance (g : Globals) : Decidable (Inv g) := by
  unfold Inv; infer_instance

/-- The external array `char su_text_hdr[3200]` holds 3200 bytes. -/
def TextOK (g : Globals) : Prop :=
  g.su_text_hdr.length = 3200

/-- The nodes `l` record for the stream `fp` the sample count `a` and `b` bytes per sample:
there is a node for `fp`, and every node for `fp` holds `nsfirst = a` and `bytesper = b`. -/
def Frozen (l : List outsegyinfo) (fp a b : Nat) : Prop :=
  (∃ n ∈ l, n.outfp = fp) ∧ ∀ n ∈ l, n.outfp = fp → n.nsfirst = a ∧ n.bytesper = b

/-- The nodes `l1` come from the nodes `l` by one trace written to the stream `fp`: either the
node of `fp` in `l` has its counter `itr` raised by one and every node is otherwise as it was, or
`l` has no node of `fp` and `l1` is `l` followed by a node of `fp` with counter 1, sample count
`ns` and `b` bytes per sample. -/
def Stepped (l l1 : List outsegyinfo) (fp ns b : Nat) : Prop :=
  (∃ (i : Nat) (info : outsegyinfo), l[i]? = some info ∧ info.outfp = fp ∧
    l1 = l.modify (fun n => { n with itr := n.itr + 1 }) i) ∨
  ((∀ n ∈ l, n.outfp ≠ fp) ∧
    l1 = l ++ [{ outfp := fp, itr := 1, nsfirst := ns, bytesper := b }])

/-- The nodes `l1` are the nodes `l` with no counter raised: either `l1` is `l`, or `l` has no
node of `fp` and `l1` is `l` followed by a node of `fp` with counter 0. -/
def Unadvanced (l l1 : List outsegyinfo) (fp : Nat) : Prop :=
  l1 = l ∨
  ((∀ n ∈ l, n.outfp ≠ fp) ∧
    ∃ a b, l1 = l ++ [{ outfp := fp, itr := 0, nsfirst := a, bytesper := b }])

end NoXDR

namespace SUXDR

/-- The node `struct outsegyinfo` of the build with XDR.  The XDR memory stream `segy_xdr`
created by `xdrmem_create` over `buf` is its position `xdrpos` in `buf`. -/
structure outsegyinfo where
  outfp : Nat
  itr : Nat
  nsfirst : Nat
  bytesper : Nat
  ftype : FileType
  buf : List Nat
  bufstart : Nat
  xdrpos : Nat
  deriving DecidableEq, Repr

/-- The static variables of `fputtr.c`, and the contents of the streams. -/
structure Globals where
  outsegylist : List outsegyinfo
  lastfp : Nat
  infoptr : Option Nat
  oldinfoptr : Option Nat
  files : Nat → List Nat

/-- The state at program start. -/
def Globals.init : Globals :=
  { outsegylist := []
    lastfp := NULL
    infoptr := none
    oldinfoptr := none
    files := fun _ => [] }

/-- The loop of `searchlist` from node `k` on. -/
def searchFrom (fp : Nat) : List outsegyinfo → Nat → Option Nat × Nat
  | [], k => (none, k)
  | n :: rest, k => if fp = n.outfp then (some k, k) else searchFrom fp rest (k + 1)

/-- The function `searchlist`. -/
def searchlist (g : Globals) (fp : Nat) : Globals :=
  { g with
    infoptr := (searchFrom fp g.outsegylist 0).1
    oldinfoptr := some (searchFrom fp g.outsegylist 0).2 }

/-- The call `efwrite(src, 1, n, fp)`. -/
def efwrite (E : Env) (g : Globals) (src : List Nat) (n : Nat) (fp : Nat) : Option (Globals × Nat) :=
  if readable src n then
    let k := min n (E.fwriteCount fp (g.files fp).length n)
    some ({ g with files := fun x => if x = fp then g.files fp ++ src.take k else g.files x }, k)
  else none

/-- Assignment to the fields of the node `i`. -/
def setNode (g : Globals) (i : Nat) (f : outsegyinfo → outsegyinfo) : Globals :=
  { g with outsegylist := g.outsegylist.modify f i }

/-- The library function `swab(from, to, n)` with `from = to`: the two bytes of each pair among
the first `n` bytes change places; a last single byte stays. -/
def swab : List Nat → Nat → List Nat
  | a :: b :: rest, n + 2 => b :: a :: swab rest n
  | l, _ => l

/-- An XDR memory stream putting `bytes` at its position: `none` (`FALSE`) when they do not fit
in the buffer. -/
def xdrPut (info : outsegyinfo) (bytes : List Nat) : Option outsegyinfo :=
  if readable info.buf (info.xdrpos + bytes.length) then
    some { info with
      buf := info.buf.take info.xdrpos ++ bytes ++ info.buf.drop (info.xdrpos + bytes.length)
      xdrpos := info.xdrpos + bytes.length }
  else none

/-- The statements of `case SHORTPACK` of `datawrite`, which `case CHARPACK` falls into: `swab`
in place when `ctest[0]` is set, then `efwrite` of the trace data. -/
def writeShorts (E : Env) (g : Globals) (iptr : outsegyinfo) (tp : segy) (databytes : Nat) :
    Res (Globals × segy × Nat) :=
  if readable tp.data databytes then
    let tp1 : segy := if E.ctest0 then { tp with data := swab tp.data databytes } else tp
    match efwrite E g tp1.data databytes iptr.outfp with
    | none => .fault (g, tp1, 0)
    | some (g1, nwritten) => .ok (g1, tp1, nwritten)
  else .fault (g, tp, 0)

/-- The function `datawrite` of the build with XDR; `i` is `iptr`.  The result holds the trace,
whose data `swab` may have changed, and the value returned. -/
def datawrite (E : Env) (g : Globals) (i : Nat) (tp : segy) (fixed_length : Bool) :
    Res (Globals × segy × Nat) :=
  match g.outsegylist[i]? with
  | none => .fault (g, tp, 0)
  | some iptr =>
    let nstobewritten := if fixed_length then iptr.nsfirst else tp.ns
    let databytes := iptr.bytesper * nstobewritten
    if tp.trid = E.CHARPACK then
      match efwrite E g tp.data databytes iptr.outfp with
      | none => .fault (g, tp, 0)
      | some (g1, _) => writeShorts E g1 iptr tp databytes
    else if tp.trid = E.SHORTPACK then
      writeShorts E g iptr tp databytes
    else
      match (E.xdr_vector tp.data nstobewritten).bind (xdrPut iptr) with
      | none =>
        .ok (g, tp, 0)
      | some iptr1 =>
        let g1 := setNode g i (fun _ => iptr1)
        if databytes > 0 then
          match efwrite E g1 (iptr1.buf.drop E.HDRBYTES) databytes iptr1.outfp with
          | none => .fault (g1, tp, 0)
          | some (g2, nwritten) => .ok (g2, tp, if nwritten ≠ databytes then 0 else nwritten)
        else .ok (g1, tp, databytes)

/-- The `switch(tp->trid)` of the initialisation block: the value given to `bytesper`. -/
def bytesperOf (E : Env) (trid : Int) : Nat :=
  if trid = E.CHARPACK then 1
  else if trid = E.SHORTPACK then 2
  else E.BYTES_PER_XDR_UNIT

/-- The block of `fputtr_internal` run when `infoptr == NULL`.  The buffer given by `ealloc1` has
`sizeof(segy)` bytes, taken to be zero. -/
def initStream (E : Env) (g : Globals) (fp : Nat) (tp : segy) : Res Globals :=
  match g.oldinfoptr with
  | none => .fault g
  | some slot =>
    let node : outsegyinfo :=
      { outfp := fp, itr := 0, nsfirst := 0, bytesper := 0, ftype := E.filestat fp,
        buf := [], bufstart := 0, xdrpos := 0 }
    let g1 : Globals :=
      { g with outsegylist := g.outsegylist.take slot ++ [node], infoptr := some slot }
    if E.filestat fp = .DIRECTORY then .err .outputIsDirectory g1
    else if E.filestat fp = .TTY then .err .outputIsTty g1
    else
      let g2 := setNode g1 slot (fun n =>
        { n with
          buf := List.replicate (E.HDRBYTES + sizeof_float * E.SU_NFLTS) 0
          bufstart := 0
          xdrpos := 0
          nsfirst := tp.ns })
      if tp.ns > E.SU_NFLTS then .err (.tooManySamples tp.ns E.SU_NFLTS) g2
      else .ok (setNode g2 slot (fun n => { n with bytesper := bytesperOf E tp.trid }))

/-- The statements of `fputtr_internal` after the initialisation block. -/
def writeTrace (E : Env) (g : Globals) (tp : segy) (fixed_length : Bool) :
    Res (Globals × segy) :=
  match g.infoptr with
  | none => .fault (g, tp)
  | some i =>
    match g.outsegylist[i]? with
    | none => .fault (g, tp)
    | some info =>
      match (E.xdrhdrsub tp).bind (xdrPut { info with xdrpos := info.bufstart }) with
      | none => .err (.hdrWrite (info.itr + 1)) (g, tp)
      | some info1 =>
        let g1 := setNode g i (fun _ => info1)
        match efwrite E g1 info1.buf E.HDRBYTES info1.outfp with
        | none => .fault (g1, tp)
        | some (g2, nwritten) =>
          if nwritten ≠ E.HDRBYTES then .err (.hdrWrite (info1.itr + 1)) (g2, tp)
          else
            let databytes := info1.bytesper * (if fixed_length then info1.nsfirst else tp.ns)
            match datawrite E g2 i tp fixed_length with
            | .ok (g3, tp1, nwritten) =>
              if nwritten ≠ databytes then
                .err (.shortWrite (info1.itr + 1) databytes nwritten) (g3, tp1)
              else
                .ok ({ setNode g3 i (fun n => { n with itr := n.itr + 1 }) with
                  lastfp := info1.outfp }, tp1)
            | .err e (g3, tp1, _) => .err e (g3, tp1)
            | .fault (g3, tp1, _) => .fault (g3, tp1)

/-- The function `fputtr_internal` of the build with XDR. -/
def fputtr_internal (E : Env) (g : Globals) (fp : Nat) (tp : segy) (fixed_length : Bool) :
    Res (Globals × segy) :=
  let g0 := if fp ≠ g.lastfp then searchlist g fp else g
  match g0.infoptr with
  | none =>
    match initStream E g0 fp tp with
    | .ok g1 => writeTrace E g1 tp fixed_length
    | .err e g1 => .err e (g1, tp)
    | .fault g1 => .fault (g1, tp)
  | some _ => writeTrace E g0 tp fixed_length

/-- The function `fputtr`: fixed number of samples. -/
def fputtr (E : Env) (g : Globals) (fp : Nat) (tp : segy) : Res (Globals × segy) :=
  fputtr_internal E g fp tp true

/-- The function `fvputtr`: variable number of samples. -/
def fvputtr (E : Env) (g : Globals) (fp : Nat) (tp : segy) : Res (Globals × segy) :=
  fputtr_internal E g fp tp false

/-- A caller writing traces one after the other; the first call that does not return normally
ends the run. -/
def run (E : Env) : Globals → List Call → Res Globals
  | g, [] => .ok g
  | g, c :: cs =>
    match fputtr_internal E g c.fp c.tp c.fixed_length with
    | .ok (g1, _) => run E g1 cs
    | .err e (g1, _) => .err e g1
    | .fault (g1, _) => .fault g1

/-- The fields a node has in both builds. -/
def core (n : outsegyinfo) : NoXDR.outsegyinfo :=
  { outfp := n.outfp, itr := n.itr, nsfirst := n.nsfirst, bytesper := n.bytesper }

/-- The list of nodes, each reduced to the fields it has in both builds. -/
def cores (g : Globals) : List NoXDR.outsegyinfo :=
  g.outsegylist.map core

/-- Consistency of the registry: no two nodes for one stream, and a non-`NULL` `lastfp` is the
stream of the node `infoptr` points to. -/
def Inv (g : Globals) : Prop :=
  ((cores g).map (fun n => n.outfp)).Nodup ∧
  (g.lastfp = NULL ∨
    (g.infoptr.bind (fun i => (cores g)[i]?)).map (fun n => n.outfp) = some g.lastfp)

instance (g : Globals) : Decidable (Inv g) := by
  unfold Inv; infer_instance

/-- The state `g1` differs from `g` at most in the buffers of the nodes and in what the stream
`fp` holds. -/
def Frame (g g1 : Globals) (fp : Nat) : Prop :=
  cores g1 = cores g ∧ g1.lastfp = g.lastfp ∧ g1.infoptr = g.infoptr ∧
  g1.oldinfoptr = g.oldinfoptr ∧ ∀ x, x ≠ fp → g1.files x = g.files x

end SUXDR

/-! ### `subfilt.c` -/

namespace Subfilt

/-- The trace `spy_trace`: of the header only `n_sample` is read; `data` is the sample array.
The type `α` stands for `float`. -/
structure spy_trace (α : Type) where
  n_sample : Nat
  data : List α

/-- A causal filter primitive with the prototype of `bfhighpass` and `bflowpass`,
`(npoles, f3db, n, p, q)`: from the `n` input samples `p[0..n)` it gives the output samples it
stores in `q[0..n)`. -/
abbrev Prim (α : Type) := Int → α → Nat → List α → List α

/-- The call `bf(npoles, f3db, n, p, q)`: the array `q` after the call. -/
def callPrim {α : Type} (bf : Prim α) (npoles : Int) (f3db : α) (n : Nat) (p q : List α) :
    List α :=
  (bf npoles f3db n (p.take n)).take n ++ q.drop n

/-- The loop body `tmp = data[i]; data[i] = data[j]; data[j] = tmp`.  Indices outside the array
leave it as it is. -/
def swapAt {α : Type} (data : List α) (i j : Nat) : List α :=
  match data[i]?, data[j]? with
  | some a, some b => (data.set i b).set j a
  | _, _ => data

/-- The loop `for (i = i0; i < nt/2; ++i) swap data[i], data[nt-1 - i]` with `k` iterations
left. -/
def revLoop {α : Type} (nt : Nat) : Nat → Nat → List α → List α
  | 0, _, data => data
  | k + 1, i, data => revLoop nt k (i + 1) (swapAt data i (nt - 1 - i))

/-- The loop `for (i = 0; i < nt/2; ++i)` reversing the trace in place: `nt/2` iterations. -/
def reverseInPlace {α : Type} (nt : Nat) (data : List α) : List α :=
  revLoop nt (nt / 2) 0 data

/-- The function `bfhighpass_trace`; `tr = none` is the `NULL` pointer.  The result is the trace
`tr` points to at the end (the trace `tr_in` itself when `tr` was `NULL`). -/
def bfhighpass_trace {α : Type} (bfhighpass : Prim α) (zerophase : Int) (npoles : Int)
    (f3db : α) (tr_in : spy_trace α) (tr : Option (spy_trace α)) : spy_trace α :=
  let tr0 : spy_trace α := match tr with
    | none => tr_in
    | some t => t
  let nt := tr0.n_sample
  let tr1 : spy_trace α := { tr0 with data := callPrim bfhighpass npoles f3db nt tr_in.data tr0.data }
  if zerophase ≠ 0 then
    let tr2 : spy_trace α := { tr1 with data := reverseInPlace nt tr1.data }
    let tr3 : spy_trace α := { tr2 with data := callPrim bfhighpass npoles f3db nt tr2.data tr2.data }
    { tr3 with data := reverseInPlace nt tr3.data }
  else tr1

/-- The function `bflowpass_trace`. -/
def bflowpass_trace {α : Type} (bflowpass : Prim α) (zerophase : Int) (npoles : Int)
    (f3db : α) (tr_in : spy_trace α) (tr : Option (spy_trace α)) : spy_trace α :=
  let tr0 : spy_trace α := match tr with
    | none => tr_in
    | some t => t
  let nt := tr0.n_sample
  let tr1 : spy_trace α := { tr0 with data := callPrim bflowpass npoles f3db nt tr_in.data tr0.data }
  if zerophase ≠ 0 then
    let tr2 : spy_trace α := { tr1 with data := reverseInPlace nt tr1.data }
    let tr3 : spy_trace α := { tr2 with data := callPrim bflowpass npoles f3db nt tr2.data tr2.data }
    { tr3 with data := reverseInPlace nt tr3.data }
  else tr1

/-- A causal filter for evaluating the adapters: the delay by one sample, `out[0] = 0` and
`out[i] = in[i-1]`, whatever `npoles` and `f3db`. -/
def delay1 : Prim Int :=
  fun _ _ n p => ((0 : Int) :: p).take n

/-- The pairs of indices `(i, nt-1 - i)` that the reversal loop swaps, in the order of the
iterations, with `k` iterations left from index `i` on. -/
def loopPairs (nt : Nat) : Nat → Nat → List (Nat × Nat)
  | 0, _ => []
  | k + 1, i => (i, nt - 1 - i) :: loopPairs nt k (i + 1)

/-- The indices of the array that the reversal loop `for (i = 0; i < nt/2; ++i)` assigns to, in
the order of the assignments. -/
def loopWrites (nt : Nat) : List Nat :=
  (loopPairs nt (nt / 2) 0).flatMap (fun p => [p.1, p.2])

/-- The trace of `n` samples whose only nonzero sample is `v`, at index `k`. -/
def impulse (n k : Nat) (v : Int) : List Int :=
  (List.range n).map (fun i => if i = k then v else 0)

end Subfilt

/-! ### A concrete environment and concrete traces, for evaluating the code -/

/-- Memory image of a trace header on a host storing the low byte first: `trid` at offset 28,
`ns` at offset 114, `dt` at offset 116, all other bytes zero, 240 bytes in all. -/
def hdrImage (ns dt : Nat) (trid : Int) : List Nat :=
  List.replicate 28 0 ++ [trid.toNat % 256, trid.toNat / 256] ++ List.replicate 84 0 ++
    [ns % 256, ns / 256, dt % 256, dt / 256] ++ List.replicate 122 0

/-- Memory image of a zeroed binary header with `hdt` at offset 16, `hns` at offset 20 and
`format = 5` at offset 24, on a host storing the low byte first, 400 bytes in all. -/
def bhedImageLE (hns hdt : Nat) : List Nat :=
  List.replicate 16 0 ++ [hdt % 256, hdt / 256, 0, 0, hns % 256, hns / 256, 0, 0, 5, 0] ++
    List.replicate 374 0

/-- XDR encoding of the first `n` floats of a memory image on a host storing the low byte first:
the four bytes of each float in opposite order. -/
def xdrFloatsLE : List Nat → Nat → List Nat
  | a :: b :: c :: d :: rest, n + 1 => d :: c :: b :: a :: xdrFloatsLE rest n
  | _, _ => []

/-- An environment with the constants of SU (`HDRBYTES = 240`, `CHARPACK = 201`,
`SHORTPACK = 202`), a trace capacity of 32768 samples, streams that take every byte, no
`lheader` parameter, and a host storing the low byte first.  Stream 2 is a terminal, every other
stream a disk file.  The header encoder puts the header image in the buffer as it is; the float
encoder is `xdrFloatsLE`, and it gives `FALSE` when asked for more floats than the data array
holds. -/
def exampleEnv : Env :=
  { SU_NFLTS := 32768
    HDRBYTES := 240
    CHARPACK := 201
    SHORTPACK := 202
    BYTES_PER_XDR_UNIT := 4
    fwriteCount := fun _ _ n => n
    filestat := fun fp => if fp = 2 then FileType.TTY else FileType.DISK
    getparint_lheader := none
    bhedImage := bhedImageLE
    ctest0 := true
    xdrhdrsub := fun tp => some tp.hdr
    xdr_vector := fun data n =>
      if readable data (sizeof_float * n) then some (xdrFloatsLE data n) else none }

/-- The environment `exampleEnv` with stream 3 a directory: `filestat` reports it as one, and
`fwrite` on it takes no byte. -/
def dirEnv : Env :=
  { exampleEnv with
    fwriteCount := fun fp _ n => if fp = 3 then 0 else n
    filestat := fun fp =>
      if fp = 2 then FileType.TTY else if fp = 3 then FileType.DIRECTORY else FileType.DISK }

/-- A trace with `ns` samples and the given `trid`, sample interval 4000, whose data array starts
with the bytes `1, 2, ..., 8` and is zero elsewhere. -/
def exampleTrace (ns : Nat) (trid : Int) : segy :=
  { ns := ns
    dt := 4000
    trid := trid
    hdr := hdrImage ns 4000 trid
    data := [1, 2, 3, 4, 5, 6, 7, 8] ++ List.replicate 131064 0 }

/-- Memory image of a trace header on a host storing the high byte first, with the layout of
`hdrImage`. -/
def hdrImageBE (ns dt : Nat) (trid : Int) : List Nat :=
  List.replicate 28 0 ++ [trid.toNat / 256, trid.toNat % 256] ++ List.replicate 84 0 ++
    [ns / 256, ns % 256, dt / 256, dt % 256] ++ List.replicate 122 0

/-- A trace with the given `trid` holding the 16 bit samples `258 = 0x0102` and `772 = 0x0304`,
as it lies in memory on a host of the given byte order; the rest of the data array is zero. -/
def shortsTrace (littleEndian : Bool) (trid : Int) : segy :=
  { ns := 2
    dt := 4000
    trid := trid
    hdr := if littleEndian then hdrImage 2 4000 trid else hdrImageBE 2 4000 trid
    data := shortsImage littleEndian [258, 772] ++ List.replicate 131068 0 }

/-- A trace with `trid = CHARPACK` holding the four byte samples `1, 2, 3, 4`; the rest of the
data array is zero. -/
def charsTrace (littleEndian : Bool) : segy :=
  { ns := 4
    dt := 4000
    trid := 201
    hdr := if littleEndian then hdrImage 4 4000 201 else hdrImageBE 4 4000 201
    data := [1, 2, 3, 4] ++ List.replicate 131068 0 }

/-- A state of the build with XDR in which stream 1 has a node frozen on two samples of two
bytes, one trace written. -/
def shortsStateXDR : SUXDR.Globals :=
  { outsegylist :=
      [{ outfp := 1, itr := 1, nsfirst := 2, bytesper := 2, ftype := FileType.DISK,
         buf := List.replicate 1000 0, bufstart := 0, xdrpos := 0 }]
    lastfp := 1
    infoptr := some 0
    oldinfoptr := some 0
    files := fun _ => [] }

/-- A state of the build without XDR in which stream 1 has a node frozen on two samples of two
bytes, one trace written. -/
def shortsStateNoXDR : NoXDR.Globals :=
  { NoXDR.Globals.init with
    outsegylist := [{ outfp := 1, itr := 1, nsfirst := 2, bytesper := 2 }]
    lastfp := 1
    infoptr := some 0
    oldinfoptr := some 0 }

/-- Calls of `fvputtr` on stream 1: a trace with 500 float samples, then one with 600 samples
whose `trid` is `SHORTPACK`. -/
def freezeCalls : List Call :=
  [⟨1, exampleTrace 500 1, false⟩, ⟨1, exampleTrace 600 202, false⟩]

/-- Interleaved calls of `fputtr`: a trace with 100 samples to stream 1, one with 50 samples to
stream 4, and again one with 100 samples to stream 1. -/
def isolationCalls : List Call :=
  [⟨1, exampleTrace 100 1, true⟩, ⟨4, exampleTrace 50 1, true⟩, ⟨1, exampleTrace 100 1, true⟩]

end SU

namespace SU

theorem readable_iff (src : List Nat) (n : Nat) : readable src n = true ↔ n ≤ src.length := by
  simp [readable]

namespace NoXDR

theorem searchFrom_none (fp : Nat) (l : List outsegyinfo) (k : Nat)
    (h : ∀ n ∈ l, n.outfp ≠ fp) : searchFrom fp l k = (none, k + l.length) := by
  induction l generalizing k with
  | nil => simp [searchFrom]
  | cons a t ih =>
    have ha : fp ≠ a.outfp := fun e => h a (List.mem_cons_self _ _) e.symm
    simp only [searchFrom, if_neg ha]
    rw [ih (k + 1) (fun n hn => h n (List.mem_cons_of_mem _ hn))]
    simp [Nat.add_assoc, Nat.add_comm 1]

theorem searchFrom_some (fp : Nat) (l : List outsegyinfo) (k i : Nat) (info : outsegyinfo)
    (hnd : (l.map (fun n => n.outfp)).Nodup) (hi : l[i]? = some info) (hfp : info.outfp = fp) :
    (searchFrom fp l k).1 = some (k + i) := by
  induction l generalizing k i with
  | nil => simp at hi
  | cons a t ih =>
    simp only [List.map_cons, List.nodup_cons] at hnd
    cases i with
    | zero =>
      simp at hi
      subst hi
      simp [searchFrom, hfp]
    | succ j =>
      simp at hi
      have hmem : info ∈ t := List.getElem?_mem hi
      have ha : fp ≠ a.outfp := by
        intro e
        apply hnd.1
        rw [← e, ← hfp]
        exact List.mem_map_of_mem _ hmem
      simp only [searchFrom, if_neg ha]
      rw [ih (k + 1) j hnd.2 hi]
      congr 1
      omega

theorem index_unique (l : List outsegyinfo) (i j : Nat) (a b : outsegyinfo)
    (hnd : (l.map (fun n => n.outfp)).Nodup) (hi : l[i]? = some a) (hj : l[j]? = some b)
    (hab : a.outfp = b.outfp) : i = j := by
  have hi' : (l.map (fun n => n.outfp))[i]? = some a.outfp := by simp [hi]
  have hj' : (l.map (fun n => n.outfp))[j]? = some a.outfp := by simp [hj, hab]
  have hil : i < (l.map (fun n => n.outfp)).length := by
    rcases List.getElem?_eq_some.1 hi' with ⟨h, _⟩; exact h
  have hjl : j < (l.map (fun n => n.outfp)).length := by
    rcases List.getElem?_eq_some.1 hj' with ⟨h, _⟩; exact h
  have e1 := (List.getElem?_eq_some.1 hi').2
  have e2 := (List.getElem?_eq_some.1 hj').2
  exact (List.Nodup.getElem_inj_iff hnd).1 (by rw [e1, e2])

/-- The state after the first statement of `fputtr_internal` (cache test and search). -/
theorem resolve_existing (g : Globals) (fp i : Nat) (info : outsegyinfo) (hInv : Inv g)
    (hfp : fp ≠ NULL) (hi : g.outsegylist[i]? = some info) (hout : info.outfp = fp) :
    (if fp ≠ g.lastfp then searchlist g fp else g).infoptr = some i := by
  by_cases h : fp = g.lastfp
  · simp only [h, ne_eq, not_true_eq_false, if_false]
    rcases hInv.2 with h0 | hc
    · exact absurd (h.trans h0) hfp
    · cases hp : g.infoptr with
      | none => simp [hp] at hc
      | some j =>
        simp only [hp, Option.some_bind] at hc
        cases hn : g.outsegylist[j]? with
        | none => simp [hn] at hc
        | some n =>
          simp only [hn, Option.map_some', Option.some.injEq] at hc
          have := index_unique g.outsegylist i j info n hInv.1 hi hn (by rw [hout, hc, h])
          rw [this]
  · simp only [ne_eq, h, not_false_eq_true, if_true, searchlist]
    have := searchFrom_some fp g.outsegylist 0 i info hInv.1 hi hout
    simpa using this

theorem resolve_new (g : Globals) (fp : Nat) (hInv : Inv g) (hfp : fp ≠ NULL)
    (hnew : ∀ n ∈ g.outsegylist, n.outfp ≠ fp) :
    (if fp ≠ g.lastfp then searchlist g fp else g) = searchlist g fp ∧
    (searchlist g fp).infoptr = none ∧
    (searchlist g fp).oldinfoptr = some g.outsegylist.length := by
  have hs := searchFrom_none fp g.outsegylist 0 hnew
  refine ⟨?_, by simp [searchlist, hs], by simp [searchlist, hs]⟩
  by_cases h : fp = g.lastfp
  · exfalso
    rcases hInv.2 with h0 | hc
    · exact absurd (h.trans h0) hfp
    · cases hp : g.infoptr with
      | none => simp [hp] at hc
      | some j =>
        simp only [hp, Option.some_bind] at hc
        cases hn : g.outsegylist[j]? with
        | none => simp [hn] at hc
        | some n =>
          simp only [hn, Option.map_some', Option.some.injEq] at hc
          exact hnew n (List.getElem?_mem hn) (by rw [hc, h])
  · simp [h]

theorem resolve_frame (g : Globals) (fp : Nat) :
    (if fp ≠ g.lastfp then searchlist g fp else g).outsegylist = g.outsegylist ∧
    (if fp ≠ g.lastfp then searchlist g fp else g).files = g.files ∧
    (if fp ≠ g.lastfp then searchlist g fp else g).lastfp = g.lastfp := by
  by_cases h : fp = g.lastfp <;> simp [h, searchlist]

theorem datawrite_error (E : Env) (g : Globals) (tp : segy) (i : Nat) (fixed_length : Bool)
    (e : SuErr) (he : (datawrite E g tp i fixed_length).error? = some e) :
    ∃ a b c, e = .shortWrite a b c := by
  unfold datawrite at he
  cases hl : g.outsegylist[i]? with
  | none => simp [hl, Res.error?] at he
  | some iptr =>
    simp only [hl] at he
    generalize iptr.bytesper * (if fixed_length = true then iptr.nsfirst else tp.ns) = db at he
    cases hw : efwrite E g tp.data db iptr.outfp with
    | none => simp [hw, Res.error?] at he
    | some q =>
      obtain ⟨g1, nw⟩ := q
      simp only [hw] at he
      by_cases hn : nw = db
      · simp [hn, Res.error?] at he
      · simp only [ne_eq, hn, not_false_eq_true, if_true] at he
        cases hc : g1.infoptr.bind (fun j => g1.outsegylist[j]?) with
        | none => simp [hc, Res.error?] at he
        | some cur =>
          simp only [hc, Res.error?, Option.some.injEq] at he
          exact ⟨_, _, _, he.symm⟩

/-- Once the sample count test is passed, the only error `writeTrace` can end in is the short
write of `datawrite`. -/
theorem writeTrace_error (E : Env) (g0 : Globals) (tp : segy) (fixed_length : Bool) (i : Nat)
    (info : outsegyinfo) (hp : g0.infoptr = some i) (hi : g0.outsegylist[i]? = some info)
    (hns : tp.ns = info.nsfirst ∨ fixed_length = false) (e : SuErr)
    (he : (writeTrace E g0 tp fixed_length).error? = some e) :
    ∃ a b c, e = .shortWrite a b c := by
  have hc : ¬ (tp.ns ≠ info.nsfirst ∧ fixed_length = true) := by
    rcases hns with h | h <;> simp [h]
  simp only [writeTrace, hp, hi, if_neg hc] at he
  split at he
  · simp [Res.error?] at he
  · split at he
    · simp [Res.error?] at he
    · rename_i r hr
      exact datawrite_error E _ tp i fixed_length e he

/-- The sample count test of `fputtr_internal` on a stream that has a node. -/
theorem fputtr_internal_old_mismatch (E : Env) (g : Globals) (fp i : Nat) (info : outsegyinfo)
    (tp : segy) (hInv : Inv g) (hfp : fp ≠ NULL) (hi : g.outsegylist[i]? = some info)
    (hout : info.outfp = fp) (hne : tp.ns ≠ info.nsfirst) :
    ∃ g1, fputtr_internal E g fp tp true =
        .err (.nsDiffers (info.itr + 1) tp.ns info.nsfirst) g1 ∧
      g1.files = g.files ∧ g1.outsegylist = g.outsegylist := by
  have hr := resolve_existing g fp i info hInv hfp hi hout
  have hf := resolve_frame g fp
  have hi0 : (if fp ≠ g.lastfp then searchlist g fp else g).outsegylist[i]? = some info := by
    rw [hf.1]; exact hi
  unfold fputtr_internal
  generalize (if fp ≠ g.lastfp then searchlist g fp else g) = g0 at hr hf hi0 ⊢
  simp only [hr]
  refine ⟨g0, ?_, hf.2.1, hf.1⟩
  simp [writeTrace, hr, hi0, hne]

theorem fputtr_internal_old_error (E : Env) (g : Globals) (fp i : Nat) (info : outsegyinfo)
    (tp : segy) (fixed_length : Bool) (hInv : Inv g) (hfp : fp ≠ NULL)
    (hi : g.outsegylist[i]? = some info) (hout : info.outfp = fp)
    (hns : tp.ns = info.nsfirst ∨ fixed_length = false) (e : SuErr)
    (he : (fputtr_internal E g fp tp fixed_length).error? = some e) :
    ∃ a b c, e = .shortWrite a b c := by
  have hr := resolve_existing g fp i info hInv hfp hi hout
  have hf := resolve_frame g fp
  have hi0 : (if fp ≠ g.lastfp then searchlist g fp else g).outsegylist[i]? = some info := by
    rw [hf.1]; exact hi
  unfold fputtr_internal at he
  generalize (if fp ≠ g.lastfp then searchlist g fp else g) = g0 at hr hf hi0 he
  simp only [hr] at he
  exact writeTrace_error E g0 tp fixed_length i info hr hi0 hns e he

/-- C1. Build without XDR, `fputtr`: when the stream `fp` already has a node with
`nsfirst = a`, a trace with `ns ≠ a` ends in the "number of samples differs" error
(kind `SchemaViolation`), naming trace `itr + 1`, with nothing appended to any stream and no node
changed (so the trace counter is not advanced); when `ns = a` the operation does not end in an
error of kind `SchemaViolation`. -/
theorem fputtr_fixed_ns_check (E : Env) (g : Globals) (fp i : Nat) (info : outsegyinfo)
    (tp : segy) (hInv : Inv g) (hfp : fp ≠ NULL) (hi : g.outsegylist[i]? = some info)
    (hout : info.outfp = fp) :
    (tp.ns ≠ info.nsfirst →
      ∃ g1, fputtr E g fp tp = .err (.nsDiffers (info.itr + 1) tp.ns info.nsfirst) g1 ∧
        (SuErr.nsDiffers (info.itr + 1) tp.ns info.nsfirst).kind = .SchemaViolation ∧
        g1.files = g.files ∧ g1.outsegylist = g.outsegylist) ∧
    (tp.ns = info.nsfirst →
      ∀ e, (fputtr E g fp tp).error? = some e → e.kind ≠ .SchemaViolation) := by
  constructor
  · intro hne
    obtain ⟨g1, h1, h2, h3⟩ := fputtr_internal_old_mismatch E g fp i info tp hInv hfp hi hout hne
    exact ⟨g1, h1, rfl, h2, h3⟩
  · intro heq e he
    obtain ⟨a, b, c, rfl⟩ := fputtr_internal_old_error E g fp i info tp true hInv hfp hi hout
      (Or.inl heq) e he
    simp [SuErr.kind]

/-! ### What one call does to the registry and to the streams -/

theorem efwrite_frame (E : Env) (g g1 : Globals) (src : List Nat) (n fp k : Nat)
    (h : efwrite E g src n fp = some (g1, k)) :
    g1.outsegylist = g.outsegylist ∧ g1.lastfp = g.lastfp ∧ g1.infoptr = g.infoptr ∧
    g1.oldinfoptr = g.oldinfoptr ∧ k ≤ n ∧ n ≤ src.length ∧
    g1.files fp = g.files fp ++ src.take k ∧ ∀ x, x ≠ fp → g1.files x = g.files x := by
  unfold efwrite at h
  split at h
  · rename_i hlen
    simp only [Option.some.injEq, Prod.mk.injEq] at h
    obtain ⟨hg, hk⟩ := h
    subst hg
    subst hk
    refine ⟨rfl, rfl, rfl, rfl, Nat.min_le_left _ _, (readable_iff _ _).1 hlen, by simp, ?_⟩
    intro x hx
    simp [hx]
  · simp at h

theorem efwrite_accepts (E : Env) (g : Globals) (src : List Nat) (n fp : Nat)
    (hE : E.acceptsAll) (hn : n ≤ src.length) :
    ∃ g1, efwrite E g src n fp = some (g1, n) := by
  unfold efwrite
  rw [if_pos ((readable_iff _ _).2 hn), hE fp _ n, Nat.min_self]
  exact ⟨_, rfl⟩

/-- The number of samples `datawrite` writes. -/
theorem datawrite_ok (E : Env) (g g1 : Globals) (tp : segy) (i : Nat) (fixed_length : Bool)
    (iptr : outsegyinfo) (hi : g.outsegylist[i]? = some iptr)
    (h : datawrite E g tp i fixed_length = .ok g1) :
    g1.outsegylist = g.outsegylist ∧ g1.lastfp = g.lastfp ∧ g1.infoptr = g.infoptr ∧
    g1.oldinfoptr = g.oldinfoptr ∧
    g1.files iptr.outfp = g.files iptr.outfp ++
      tp.data.take (iptr.bytesper * (if fixed_length = true then iptr.nsfirst else tp.ns)) ∧
    ∀ x, x ≠ iptr.outfp → g1.files x = g.files x := by
  unfold datawrite at h
  simp only [hi] at h
  generalize iptr.bytesper * (if fixed_length = true then iptr.nsfirst else tp.ns) = db at h ⊢
  cases hw : efwrite E g tp.data db iptr.outfp with
  | none => simp [hw] at h
  | some q =>
    obtain ⟨g2, nw⟩ := q
    simp only [hw] at h
    by_cases hn : nw = db
    · simp only [hn, ne_eq, not_true_eq_false, if_false, Res.ok.injEq] at h
      subst h
      subst hn
      have := efwrite_frame E g g2 tp.data nw iptr.outfp nw hw
      exact ⟨this.1, this.2.1, this.2.2.1, this.2.2.2.1, this.2.2.2.2.2.2.1, this.2.2.2.2.2.2.2⟩
    · simp only [ne_eq, hn, not_false_eq_true, if_true] at h
      cases hc : g2.infoptr.bind (fun j => g2.outsegylist[j]?) with
      | none => simp [hc] at h
      | some cur => simp [hc] at h

theorem datawrite_accepts (E : Env) (g : Globals) (tp : segy) (i : Nat) (fixed_length : Bool)
    (iptr : outsegyinfo) (hi : g.outsegylist[i]? = some iptr) (hE : E.acceptsAll)
    (hlen : iptr.bytesper * (if fixed_length = true then iptr.nsfirst else tp.ns)
      ≤ tp.data.length) :
    ∃ g1, datawrite E g tp i fixed_length = .ok g1 := by
  unfold datawrite
  simp only [hi]
  generalize iptr.bytesper * (if fixed_length = true then iptr.nsfirst else tp.ns) = db at hlen ⊢
  obtain ⟨g2, hw⟩ := efwrite_accepts E g tp.data db iptr.outfp hE hlen
  simp only [hw, ne_eq, not_true_eq_false, if_false]
  exact ⟨_, rfl⟩

/-- The increment `++infoptr->itr`. -/
theorem writeTrace_ok (E : Env) (g g1 : Globals) (tp : segy) (fixed_length : Bool) (i : Nat)
    (info : outsegyinfo) (hp : g.infoptr = some i) (hi : g.outsegylist[i]? = some info)
    (h : writeTrace E g tp fixed_length = .ok g1) :
    (tp.ns = info.nsfirst ∨ fixed_length = false) ∧
    g1.outsegylist = g.outsegylist.modify (fun n => { n with itr := n.itr + 1 }) i ∧
    g1.lastfp = info.outfp ∧ g1.infoptr = some i ∧
    (∃ k, k ≤ E.HDRBYTES ∧ g1.files info.outfp = g.files info.outfp ++
      (tp.hdr ++ tp.data).take k ++
      tp.data.take (info.bytesper * (if fixed_length = true then info.nsfirst else tp.ns))) ∧
    ∀ x, x ≠ info.outfp → g1.files x = g.files x := by
  unfold writeTrace at h
  simp only [hp, hi] at h
  by_cases hc : tp.ns ≠ info.nsfirst ∧ fixed_length = true
  · simp [hc] at h
  · rw [if_neg hc] at h
    have hns : tp.ns = info.nsfirst ∨ fixed_length = false := by
      by_cases h1 : tp.ns = info.nsfirst
      · exact Or.inl h1
      · right
        cases fixed_length
        · rfl
        · exact absurd ⟨h1, rfl⟩ hc
    cases hw : efwrite E g (tp.hdr ++ tp.data) E.HDRBYTES info.outfp with
    | none => simp [hw] at h
    | some q =>
      obtain ⟨g2, k⟩ := q
      simp only [hw] at h
      have hf := efwrite_frame E g g2 _ _ _ _ hw
      have hi2 : g2.outsegylist[i]? = some info := by rw [hf.1]; exact hi
      cases hd : datawrite E g2 tp i fixed_length with
      | ok g3 =>
        simp only [hd, Res.ok.injEq] at h
        have hdf := datawrite_ok E g2 g3 tp i fixed_length info hi2 hd
        subst h
        refine ⟨hns, ?_, rfl, ?_, ⟨k, hf.2.2.2.2.1, ?_⟩, ?_⟩
        · simp [setNode, hdf.1, hf.1]
        · simp [setNode, hdf.2.2.1, hf.2.2.1, hp]
        · simp only [setNode]
          rw [hdf.2.2.2.2.1, hf.2.2.2.2.2.2.1]
        · intro x hx
          simp only [setNode]
          rw [hdf.2.2.2.2.2 x hx, hf.2.2.2.2.2.2.2 x hx]
      | err e s => simp [hd] at h
      | fault s => simp [hd] at h

theorem writeTrace_accepts (E : Env) (g : Globals) (tp : segy) (fixed_length : Bool) (i : Nat)
    (info : outsegyinfo) (hp : g.infoptr = some i) (hi : g.outsegylist[i]? = some info)
    (hns : tp.ns = info.nsfirst ∨ fixed_length = false) (hE : E.acceptsAll)
    (hh : tp.hdr.length = E.HDRBYTES)
    (hlen : info.bytesper * (if fixed_length = true then info.nsfirst else tp.ns)
      ≤ tp.data.length) :
    ∃ g1, writeTrace E g tp fixed_length = .ok g1 ∧
      g1.files info.outfp = g.files info.outfp ++ tp.hdr ++
        tp.data.take (info.bytesper * (if fixed_length = true then info.nsfirst else tp.ns)) := by
  have hc : ¬ (tp.ns ≠ info.nsfirst ∧ fixed_length = true) := by
    rcases hns with h | h <;> simp [h]
  have hsrc : E.HDRBYTES ≤ (tp.hdr ++ tp.data).length := by
    rw [List.length_append, hh]; exact Nat.le_add_right _ _
  obtain ⟨g2, hw⟩ := efwrite_accepts E g (tp.hdr ++ tp.data) E.HDRBYTES info.outfp hE hsrc
  have hf := efwrite_frame E g g2 _ _ _ _ hw
  have hi2 : g2.outsegylist[i]? = some info := by rw [hf.1]; exact hi
  obtain ⟨g3, hd⟩ := datawrite_accepts E g2 tp i fixed_length info hi2 hE hlen
  have hdf := datawrite_ok E g2 g3 tp i fixed_length info hi2 hd
  refine ⟨{ setNode g3 i (fun n => { n with itr := n.itr + 1 }) with lastfp := info.outfp },
    ?_, ?_⟩
  · unfold writeTrace
    simp only [hp, hi, if_neg hc, hw, hd]
  · simp only [setNode]
    rw [hdf.2.2.2.2.1, hf.2.2.2.2.2.2.1]
    congr 2
    rw [← hh, List.take_left']
    rfl

theorem modify_append_length (f : outsegyinfo → outsegyinfo) (l : List outsegyinfo)
    (a : outsegyinfo) : (l ++ [a]).modify f l.length = l ++ [f a] := by
  induction l with
  | nil => simp
  | cons b t ih => simp [ih]

theorem map_outfp_modify (f : outsegyinfo → outsegyinfo) (hf : ∀ a, (f a).outfp = a.outfp)
    (l : List outsegyinfo) (i : Nat) :
    (l.modify f i).map (fun n => n.outfp) = l.map (fun n => n.outfp) := by
  induction l generalizing i with
  | nil => simp
  | cons b t ih =>
    cases i with
    | zero => simp [hf]
    | succ j => simp [ih]

theorem mem_modify (f : outsegyinfo → outsegyinfo) (l : List outsegyinfo) (i : Nat)
    (n : outsegyinfo) (h : n ∈ l.modify f i) : n ∈ l ∨ ∃ m ∈ l, n = f m := by
  induction l generalizing i with
  | nil => simp at h
  | cons b t ih =>
    cases i with
    | zero =>
      simp only [List.modify_zero_cons, List.mem_cons] at h
      rcases h with h | h
      · exact Or.inr ⟨b, List.mem_cons_self _ _, h⟩
      · exact Or.inl (List.mem_cons_of_mem _ h)
    | succ j =>
      simp only [List.modify_succ_cons, List.mem_cons] at h
      rcases h with h | h
      · exact Or.inl (h ▸ List.mem_cons_self _ _)
      · rcases ih j h with h1 | ⟨m, hm, hfm⟩
        · exact Or.inl (List.mem_cons_of_mem _ h1)
        · exact Or.inr ⟨m, List.mem_cons_of_mem _ hm, hfm⟩

theorem writeLineHdr_ok (E : Env) (g g1 : Globals) (tp : segy) (outfp : Nat)
    (h : writeLineHdr E g tp outfp = .ok g1) :
    g1.outsegylist = g.outsegylist ∧ g1.lastfp = g.lastfp ∧ g1.infoptr = g.infoptr ∧
    g1.oldinfoptr = g.oldinfoptr ∧ ∀ x, x ≠ outfp → g1.files x = g.files x := by
  unfold writeLineHdr at h
  generalize hg0 : (if g.in_line_hdr ≠ 0 then g else { g with su_text_hdr := defaultTextHdr })
    = g0 at h
  have h0 : g0.outsegylist = g.outsegylist ∧ g0.lastfp = g.lastfp ∧ g0.infoptr = g.infoptr ∧
      g0.oldinfoptr = g.oldinfoptr ∧ g0.files = g.files := by
    subst hg0
    by_cases hc : g.in_line_hdr = 0 <;> simp [hc]
  cases hw : efwrite E g0 g0.su_text_hdr 3200 outfp with
  | none => simp [hw] at h
  | some q =>
    obtain ⟨g2, k⟩ := q
    simp only [hw] at h
    have hf := efwrite_frame E g0 g2 _ _ _ _ hw
    generalize hg3 : ({ g2 with su_binary_hdr := E.bhedImage tp.ns tp.dt } : Globals) = g3 at h
    have h3 : g3.outsegylist = g2.outsegylist ∧ g3.lastfp = g2.lastfp ∧
        g3.infoptr = g2.infoptr ∧ g3.oldinfoptr = g2.oldinfoptr ∧ g3.files = g2.files := by
      subst hg3
      exact ⟨rfl, rfl, rfl, rfl, rfl⟩
    cases hw2 : efwrite E g3 (E.bhedImage tp.ns tp.dt) (E.bhedImage tp.ns tp.dt).length outfp with
    | none => simp [hw2] at h
    | some q2 =>
      obtain ⟨g4, k2⟩ := q2
      simp only [hw2, Res.ok.injEq] at h
      subst h
      have hf2 := efwrite_frame E g3 g4 _ _ _ _ hw2
      refine ⟨?_, ?_, ?_, ?_, ?_⟩
      · rw [hf2.1, h3.1, hf.1, h0.1]
      · rw [hf2.2.1, h3.2.1, hf.2.1, h0.2.1]
      · rw [hf2.2.2.1, h3.2.2.1, hf.2.2.1, h0.2.2.1]
      · rw [hf2.2.2.2.1, h3.2.2.2.1, hf.2.2.2.1, h0.2.2.2.1]
      · intro x hx
        rw [hf2.2.2.2.2.2.2.2 x hx, h3.2.2.2.2, hf.2.2.2.2.2.2.2 x hx, h0.2.2.2.2]

/-- The new node after the initialisation block. -/
theorem initStream_ok (E : Env) (g g1 : Globals) (fp : Nat) (tp : segy)
    (hs : g.oldinfoptr = some g.outsegylist.length) (h : initStream E g fp tp = .ok g1) :
    tp.ns ≤ E.SU_NFLTS ∧
    g1.outsegylist = g.outsegylist ++
      [{ outfp := fp, itr := 0, nsfirst := tp.ns, bytesper := bytesperOf E tp.trid }] ∧
    g1.lastfp = g.lastfp ∧ g1.infoptr = some g.outsegylist.length ∧
    (∀ x, x ≠ fp → g1.files x = g.files x) ∧
    (E.getparint_lheader.getD 0 = 0 → g1.files = g.files) := by
  unfold initStream at h
  simp only [hs] at h
  by_cases hc : tp.ns > E.SU_NFLTS
  · simp [hc] at h
  · rw [if_neg hc] at h
    have hl : (setNode
        { g with
          outsegylist := List.take g.outsegylist.length g.outsegylist ++
            [{ outfp := fp, itr := 0, nsfirst := tp.ns, bytesper := 0 }]
          infoptr := some g.outsegylist.length }
        g.outsegylist.length
        (fun n => { n with bytesper := bytesperOf E tp.trid })).outsegylist
        = g.outsegylist ++
          [{ outfp := fp, itr := 0, nsfirst := tp.ns, bytesper := bytesperOf E tp.trid }] := by
      simp only [setNode, List.take_length]
      exact modify_append_length _ _ _
    by_cases hp : E.getparint_lheader.getD 0 = 0
    · simp only [hp, ne_eq, not_true_eq_false, if_false, Res.ok.injEq] at h
      subst h
      exact ⟨Nat.le_of_not_gt hc, hl, rfl, rfl, fun _ _ => rfl, fun _ => rfl⟩
    · simp only [ne_eq, hp, not_false_eq_true, if_true] at h
      have hw := writeLineHdr_ok E _ g1 tp fp h
      refine ⟨Nat.le_of_not_gt hc, ?_, ?_, ?_, ?_, fun h0 => absurd h0 hp⟩
      · rw [hw.1]; exact hl
      · rw [hw.2.1]; rfl
      · rw [hw.2.2.1]; rfl
      · intro x hx
        rw [hw.2.2.2.2 x hx]; rfl

theorem initStream_accepts (E : Env) (g : Globals) (fp : Nat) (tp : segy)
    (hs : g.oldinfoptr = some g.outsegylist.length) (hns : tp.ns ≤ E.SU_NFLTS)
    (hp : E.getparint_lheader.getD 0 = 0) :
    ∃ g1, initStream E g fp tp = .ok g1 := by
  unfold initStream
  simp only [hs, if_neg (Nat.not_lt.2 hns), hp, ne_eq, not_true_eq_false, if_false]
  exact ⟨_, rfl⟩

/-- The capacity test of the initialisation block. -/
theorem initStream_capacity (E : Env) (g : Globals) (fp : Nat) (tp : segy) (slot : Nat)
    (hs : g.oldinfoptr = some slot) (hns : tp.ns > E.SU_NFLTS) :
    ∃ g1, initStream E g fp tp = .err (.tooManySamples tp.ns E.SU_NFLTS) g1 ∧
      g1.files = g.files := by
  unfold initStream
  simp only [hs, if_pos hns]
  exact ⟨_, rfl, rfl⟩

/-! ### One call of `fputtr_internal`, on a stream without a node and on a stream with one -/

theorem fputtr_internal_new_ok (E : Env) (g g1 : Globals) (fp : Nat) (tp : segy)
    (fixed_length : Bool) (hInv : Inv g) (hfp : fp ≠ NULL)
    (hnew : ∀ n ∈ g.outsegylist, n.outfp ≠ fp)
    (h : fputtr_internal E g fp tp fixed_length = .ok g1) :
    tp.ns ≤ E.SU_NFLTS ∧
    g1.outsegylist = g.outsegylist ++
      [{ outfp := fp, itr := 1, nsfirst := tp.ns, bytesper := bytesperOf E tp.trid }] ∧
    g1.lastfp = fp ∧ g1.infoptr = some g.outsegylist.length ∧
    ∀ x, x ≠ fp → g1.files x = g.files x := by
  obtain ⟨hr, hp, ho⟩ := resolve_new g fp hInv hfp hnew
  unfold fputtr_internal at h
  simp only [hr, hp] at h
  have ho' : (searchlist g fp).oldinfoptr = some (searchlist g fp).outsegylist.length := ho
  cases hi : initStream E (searchlist g fp) fp tp with
  | ok g2 =>
    simp only [hi] at h
    have h2 := initStream_ok E (searchlist g fp) g2 fp tp ho' hi
    have hl : g2.outsegylist[g.outsegylist.length]? =
        some { outfp := fp, itr := 0, nsfirst := tp.ns, bytesper := bytesperOf E tp.trid } := by
      rw [h2.2.1]
      show (g.outsegylist ++ _)[g.outsegylist.length]? = _
      simp
    have hw := writeTrace_ok E g2 g1 tp fixed_length g.outsegylist.length _ h2.2.2.2.1 hl h
    refine ⟨h2.1, ?_, hw.2.2.1, hw.2.2.2.1, ?_⟩
    · rw [hw.2.1, h2.2.1]
      exact modify_append_length _ _ _
    · intro x hx
      rw [hw.2.2.2.2.2 x hx, h2.2.2.2.2.1 x hx]
      rfl
  | err e s => simp [hi] at h
  | fault s => simp [hi] at h

theorem fputtr_internal_new_accepts (E : Env) (g : Globals) (fp : Nat) (tp : segy)
    (fixed_length : Bool) (hInv : Inv g) (hfp : fp ≠ NULL)
    (hnew : ∀ n ∈ g.outsegylist, n.outfp ≠ fp) (hE : E.acceptsAll)
    (hp : E.getparint_lheader.getD 0 = 0) (hns : tp.ns ≤ E.SU_NFLTS)
    (hh : tp.hdr.length = E.HDRBYTES) (hlen : bytesperOf E tp.trid * tp.ns ≤ tp.data.length) :
    ∃ g1, fputtr_internal E g fp tp fixed_length = .ok g1 ∧
      g1.files fp = g.files fp ++ tp.hdr ++ tp.data.take (bytesperOf E tp.trid * tp.ns) := by
  obtain ⟨hr, hpn, ho⟩ := resolve_new g fp hInv hfp hnew
  have ho' : (searchlist g fp).oldinfoptr = some (searchlist g fp).outsegylist.length := ho
  obtain ⟨g2, hi⟩ := initStream_accepts E (searchlist g fp) fp tp ho' hns hp
  have h2 := initStream_ok E (searchlist g fp) g2 fp tp ho' hi
  have hl : g2.outsegylist[g.outsegylist.length]? =
      some { outfp := fp, itr := 0, nsfirst := tp.ns, bytesper := bytesperOf E tp.trid } := by
    rw [h2.2.1]
    show (g.outsegylist ++ _)[g.outsegylist.length]? = _
    simp
  have hlen' : bytesperOf E tp.trid * (if fixed_length = true then tp.ns else tp.ns)
      ≤ tp.data.length := by simpa using hlen
  obtain ⟨g3, hw, hfiles⟩ := writeTrace_accepts E g2 tp fixed_length g.outsegylist.length
    { outfp := fp, itr := 0, nsfirst := tp.ns, bytesper := bytesperOf E tp.trid }
    h2.2.2.2.1 hl (Or.inl rfl) hE hh hlen'
  refine ⟨g3, ?_, ?_⟩
  · unfold fputtr_internal
    simp only [hr, hpn, hi, hw]
  · simp only [ite_self] at hfiles
    rw [hfiles, h2.2.2.2.2.2 hp]
    rfl

/-- The capacity test on the first trace of a stream: the operation ends in the "unable to
handle" error before anything is written. -/
theorem fputtr_internal_new_capacity (E : Env) (g : Globals) (fp : Nat) (tp : segy)
    (fixed_length : Bool) (hInv : Inv g) (hfp : fp ≠ NULL)
    (hnew : ∀ n ∈ g.outsegylist, n.outfp ≠ fp) (hns : tp.ns > E.SU_NFLTS) :
    ∃ g1, fputtr_internal E g fp tp fixed_length = .err (.tooManySamples tp.ns E.SU_NFLTS) g1 ∧
      g1.files = g.files := by
  obtain ⟨hr, hp, ho⟩ := resolve_new g fp hInv hfp hnew
  obtain ⟨g1, hi, hf⟩ := initStream_capacity E (searchlist g fp) fp tp _ ho hns
  refine ⟨g1, ?_, hf⟩
  unfold fputtr_internal
  simp only [hr, hp, hi]

theorem fputtr_internal_old_ok (E : Env) (g g1 : Globals) (fp i : Nat) (info : outsegyinfo)
    (tp : segy) (fixed_length : Bool) (hInv : Inv g) (hfp : fp ≠ NULL)
    (hi : g.outsegylist[i]? = some info) (hout : info.outfp = fp)
    (h : fputtr_internal E g fp tp fixed_length = .ok g1) :
    (tp.ns = info.nsfirst ∨ fixed_length = false) ∧
    g1.outsegylist = g.outsegylist.modify (fun n => { n with itr := n.itr + 1 }) i ∧
    g1.lastfp = fp ∧ g1.infoptr = some i ∧
    (∃ k, k ≤ E.HDRBYTES ∧ g1.files fp = g.files fp ++ (tp.hdr ++ tp.data).take k ++
      tp.data.take (info.bytesper * (if fixed_length = true then info.nsfirst else tp.ns))) ∧
    ∀ x, x ≠ fp → g1.files x = g.files x := by
  have hr := resolve_existing g fp i info hInv hfp hi hout
  have hf := resolve_frame g fp
  have hi0 : (if fp ≠ g.lastfp then searchlist g fp else g).outsegylist[i]? = some info := by
    rw [hf.1]; exact hi
  unfold fputtr_internal at h
  generalize (if fp ≠ g.lastfp then searchlist g fp else g) = g0 at hr hf hi0 h
  simp only [hr] at h
  have hw := writeTrace_ok E g0 g1 tp fixed_length i info hr hi0 h
  rw [hout] at hw
  rw [hf.1, hf.2.1] at hw
  exact hw

theorem fputtr_internal_old_accepts (E : Env) (g : Globals) (fp i : Nat) (info : outsegyinfo)
    (tp : segy) (fixed_length : Bool) (hInv : Inv g) (hfp : fp ≠ NULL)
    (hi : g.outsegylist[i]? = some info) (hout : info.outfp = fp)
    (hns : tp.ns = info.nsfirst ∨ fixed_length = false) (hE : E.acceptsAll)
    (hh : tp.hdr.length = E.HDRBYTES)
    (hlen : info.bytesper * (if fixed_length = true then info.nsfirst else tp.ns)
      ≤ tp.data.length) :
    ∃ g1, fputtr_internal E g fp tp fixed_length = .ok g1 ∧
      g1.files fp = g.files fp ++ tp.hdr ++
        tp.data.take (info.bytesper * (if fixed_length = true then info.nsfirst else tp.ns)) := by
  have hr := resolve_existing g fp i info hInv hfp hi hout
  have hf := resolve_frame g fp
  have hi0 : (if fp ≠ g.lastfp then searchlist g fp else g).outsegylist[i]? = some info := by
    rw [hf.1]; exact hi
  unfold fputtr_internal
  generalize (if fp ≠ g.lastfp then searchlist g fp else g) = g0 at hr hf hi0 ⊢
  simp only [hr]
  obtain ⟨g1, hw, hfiles⟩ := writeTrace_accepts E g0 tp fixed_length i info hr hi0 hns hE hh hlen
  refine ⟨g1, hw, ?_⟩
  rw [hout, hf.2.1] at hfiles
  exact hfiles

/-- A stream either has a node or has none. -/
theorem node_cases (g : Globals) (fp : Nat) :
    (∃ (i : Nat) (info : outsegyinfo), g.outsegylist[i]? = some info ∧ info.outfp = fp) ∨
    (∀ n ∈ g.outsegylist, n.outfp ≠ fp) := by
  by_cases h : ∃ n ∈ g.outsegylist, n.outfp = fp
  · obtain ⟨n, hn, hfp⟩ := h
    obtain ⟨i, hi⟩ := List.getElem?_of_mem hn
    exact Or.inl ⟨i, n, hi, hfp⟩
  · right
    intro n hn hfp
    exact h ⟨n, hn, hfp⟩

/-- Every successful call keeps the registry consistent. -/
theorem Inv_step (E : Env) (g g1 : Globals) (fp : Nat) (tp : segy) (fixed_length : Bool)
    (hInv : Inv g) (hfp : fp ≠ NULL) (h : fputtr_internal E g fp tp fixed_length = .ok g1) :
    Inv g1 := by
  rcases node_cases g fp with ⟨i, info, hi, hout⟩ | hnew
  · have hk := fputtr_internal_old_ok E g g1 fp i info tp fixed_length hInv hfp hi hout h
    constructor
    · rw [hk.2.1, map_outfp_modify (fun n => { n with itr := n.itr + 1 }) (fun _ => rfl)]
      exact hInv.1
    · right
      rw [hk.2.2.2.1, hk.2.1, hk.2.2.1]
      simp [List.getElem?_modify, hi, hout]
  · have hk := fputtr_internal_new_ok E g g1 fp tp fixed_length hInv hfp hnew h
    constructor
    · rw [hk.2.1, List.map_append, List.nodup_append]
      refine ⟨hInv.1, by simp, ?_⟩
      intro a ha hb
      simp only [List.map_cons, List.map_nil, List.mem_singleton] at hb
      obtain ⟨n, hn, hna⟩ := List.mem_map.1 ha
      exact hnew n hn (by rw [hna, hb])
    · right
      rw [hk.2.2.2.1, hk.2.1, hk.2.2.1]
      simp

theorem Inv_init : Inv Globals.init := by
  constructor
  · exact List.nodup_nil
  · left; rfl

/-! ### The errors a call can end in -/

theorem writeLineHdr_no_err (E : Env) (g : Globals) (tp : segy) (outfp : Nat) (e : SuErr)
    (s : Globals) : writeLineHdr E g tp outfp ≠ .err e s := by
  intro h
  unfold writeLineHdr at h
  generalize (if g.in_line_hdr ≠ 0 then g else { g with su_text_hdr := defaultTextHdr })
    = g0 at h
  cases hw : efwrite E g0 g0.su_text_hdr 3200 outfp with
  | none => simp [hw] at h
  | some q =>
    obtain ⟨g2, k⟩ := q
    simp only [hw] at h
    generalize ({ g2 with su_binary_hdr := E.bhedImage tp.ns tp.dt } : Globals) = g3 at h
    cases hw2 : efwrite E g3 (E.bhedImage tp.ns tp.dt) (E.bhedImage tp.ns tp.dt).length
        outfp with
    | none => simp [hw2] at h
    | some q2 => simp [hw2] at h

theorem initStream_err (E : Env) (g s : Globals) (fp : Nat) (tp : segy) (e : SuErr)
    (h : initStream E g fp tp = .err e s) : e = .tooManySamples tp.ns E.SU_NFLTS := by
  unfold initStream at h
  cases ho : g.oldinfoptr with
  | none => simp [ho] at h
  | some slot =>
    simp only [ho] at h
    by_cases hc : tp.ns > E.SU_NFLTS
    · simp only [hc, if_true, Res.err.injEq] at h
      exact h.1.symm
    · rw [if_neg hc] at h
      by_cases hp : E.getparint_lheader.getD 0 = 0
      · simp [hp] at h
      · simp only [ne_eq, hp, not_false_eq_true, if_true] at h
        exact absurd h (writeLineHdr_no_err _ _ _ _ _ _)

theorem writeTrace_err (E : Env) (g s : Globals) (tp : segy) (fixed_length : Bool) (e : SuErr)
    (h : writeTrace E g tp fixed_length = .err e s) :
    (∃ a b c, e = .nsDiffers a b c) ∨ (∃ a b c, e = .shortWrite a b c) := by
  unfold writeTrace at h
  cases hp : g.infoptr with
  | none => simp [hp] at h
  | some i =>
    simp only [hp] at h
    cases hi : g.outsegylist[i]? with
    | none => simp [hi] at h
    | some info =>
      simp only [hi] at h
      by_cases hc : tp.ns ≠ info.nsfirst ∧ fixed_length = true
      · rw [if_pos hc] at h
        simp only [Res.err.injEq] at h
        exact Or.inl ⟨_, _, _, h.1.symm⟩
      · rw [if_neg hc] at h
        cases hw : efwrite E g (tp.hdr ++ tp.data) E.HDRBYTES info.outfp with
        | none => simp [hw] at h
        | some q =>
          obtain ⟨g2, k⟩ := q
          simp only [hw] at h
          cases hd : datawrite E g2 tp i fixed_length with
          | ok g3 => simp [hd] at h
          | err e1 s1 =>
            simp only [hd, Res.err.injEq] at h
            right
            rw [← h.1]
            exact datawrite_error E g2 tp i fixed_length e1 (by rw [hd]; rfl)
          | fault s1 => simp [hd] at h

/-- Build without XDR: the errors `fputtr_internal` can end in are the capacity error, the
sample count error and the short write. -/
theorem fputtr_internal_err (E : Env) (g s : Globals) (fp : Nat) (tp : segy)
    (fixed_length : Bool) (e : SuErr) (h : fputtr_internal E g fp tp fixed_length = .err e s) :
    e = .tooManySamples tp.ns E.SU_NFLTS ∨ (∃ a b c, e = .nsDiffers a b c) ∨
      (∃ a b c, e = .shortWrite a b c) := by
  unfold fputtr_internal at h
  generalize (if fp ≠ g.lastfp then searchlist g fp else g) = g0 at h
  cases hp : g0.infoptr with
  | none =>
    simp only [hp] at h
    cases hi : initStream E g0 fp tp with
    | ok g1 =>
      simp only [hi] at h
      exact Or.inr (writeTrace_err E g1 s tp fixed_length e h)
    | err e1 s1 =>
      simp only [hi, Res.err.injEq] at h
      rw [← h.1]
      exact Or.inl (initStream_err E g0 s1 fp tp e1 hi)
    | fault s1 => simp [hi] at h
  | some i =>
    simp only [hp] at h
    exact Or.inr (writeTrace_err E g0 s tp fixed_length e h)

/-! ### The line header -/

theorem defaultTextHdr_length : defaultTextHdr.length = 3200 := by
  decide!

theorem efwrite_text (E : Env) (g g1 : Globals) (src : List Nat) (n fp k : Nat)
    (h : efwrite E g src n fp = some (g1, k)) :
    g1.su_text_hdr = g.su_text_hdr ∧ g1.in_line_hdr = g.in_line_hdr := by
  unfold efwrite at h
  split at h
  · simp only [Option.some.injEq, Prod.mk.injEq] at h
    rw [← h.1]
    exact ⟨rfl, rfl⟩
  · simp at h

theorem datawrite_text (E : Env) (g g1 : Globals) (tp : segy) (i : Nat) (fixed_length : Bool)
    (h : datawrite E g tp i fixed_length = .ok g1) : g1.su_text_hdr = g.su_text_hdr := by
  unfold datawrite at h
  cases hi : g.outsegylist[i]? with
  | none => simp [hi] at h
  | some iptr =>
    simp only [hi] at h
    generalize iptr.bytesper * (if fixed_length = true then iptr.nsfirst else tp.ns) = db at h
    cases hw : efwrite E g tp.data db iptr.outfp with
    | none => simp [hw] at h
    | some q =>
      obtain ⟨g2, nw⟩ := q
      simp only [hw] at h
      by_cases hn : nw = db
      · simp only [hn, ne_eq, not_true_eq_false, if_false, Res.ok.injEq] at h
        rw [← h]
        exact (efwrite_text E g g2 _ _ _ _ hw).1
      · simp only [ne_eq, hn, not_false_eq_true, if_true] at h
        cases hc : g2.infoptr.bind (fun j => g2.outsegylist[j]?) <;> simp [hc] at h

theorem writeTrace_text (E : Env) (g g1 : Globals) (tp : segy) (fixed_length : Bool)
    (h : writeTrace E g tp fixed_length = .ok g1) : g1.su_text_hdr = g.su_text_hdr := by
  unfold writeTrace at h
  cases hp : g.infoptr with
  | none => simp [hp] at h
  | some i =>
    simp only [hp] at h
    cases hi : g.outsegylist[i]? with
    | none => simp [hi] at h
    | some info =>
      simp only [hi] at h
      by_cases hc : tp.ns ≠ info.nsfirst ∧ fixed_length = true
      · simp [hc] at h
      · rw [if_neg hc] at h
        cases hw : efwrite E g (tp.hdr ++ tp.data) E.HDRBYTES info.outfp with
        | none => simp [hw] at h
        | some q =>
          obtain ⟨g2, k⟩ := q
          simp only [hw] at h
          cases hd : datawrite E g2 tp i fixed_length with
          | ok g3 =>
            simp only [hd, Res.ok.injEq] at h
            rw [← h]
            show g3.su_text_hdr = _
            rw [datawrite_text E g2 g3 tp i fixed_length hd, (efwrite_text E g g2 _ _ _ _ hw).1]
          | err e s => simp [hd] at h
          | fault s => simp [hd] at h

theorem writeLineHdr_text (E : Env) (g g1 : Globals) (tp : segy) (outfp : Nat)
    (ht : TextOK g) (h : writeLineHdr E g tp outfp = .ok g1) : TextOK g1 := by
  unfold writeLineHdr at h
  generalize hg0 : (if g.in_line_hdr ≠ 0 then g else { g with su_text_hdr := defaultTextHdr })
    = g0 at h
  have h0 : TextOK g0 := by
    subst hg0
    by_cases hc : g.in_line_hdr = 0
    · simp only [hc, ne_eq, not_true_eq_false, if_false]
      exact defaultTextHdr_length
    · simp only [ne_eq, hc, not_false_eq_true, if_true]
      exact ht
  cases hw : efwrite E g0 g0.su_text_hdr 3200 outfp with
  | none => simp [hw] at h
  | some q =>
    obtain ⟨g2, k⟩ := q
    simp only [hw] at h
    have h2 := (efwrite_text E g0 g2 _ _ _ _ hw).1
    generalize hg3 : ({ g2 with su_binary_hdr := E.bhedImage tp.ns tp.dt } : Globals) = g3 at h
    have h3 : g3.su_text_hdr = g2.su_text_hdr := by subst hg3; rfl
    cases hw2 : efwrite E g3 (E.bhedImage tp.ns tp.dt) (E.bhedImage tp.ns tp.dt).length
        outfp with
    | none => simp [hw2] at h
    | some q2 =>
      obtain ⟨g4, k2⟩ := q2
      simp only [hw2, Res.ok.injEq] at h
      subst h
      unfold TextOK
      rw [(efwrite_text E g3 g4 _ _ _ _ hw2).1, h3, h2]
      exact h0

theorem writeLineHdr_accepts (E : Env) (g : Globals) (tp : segy) (outfp : Nat)
    (hE : E.acceptsAll) (ht : TextOK g) : ∃ g1, writeLineHdr E g tp outfp = .ok g1 := by
  unfold writeLineHdr
  generalize hg0 : (if g.in_line_hdr ≠ 0 then g else { g with su_text_hdr := defaultTextHdr })
    = g0
  have h0 : TextOK g0 := by
    subst hg0
    by_cases hc : g.in_line_hdr = 0
    · simp only [hc, ne_eq, not_true_eq_false, if_false]
      exact defaultTextHdr_length
    · simp only [ne_eq, hc, not_false_eq_true, if_true]
      exact ht
  obtain ⟨g2, hw⟩ := efwrite_accepts E g0 g0.su_text_hdr 3200 outfp hE (Nat.le_of_eq h0.symm)
  simp only [hw]
  obtain ⟨g4, hw2⟩ := efwrite_accepts E { g2 with su_binary_hdr := E.bhedImage tp.ns tp.dt }
    (E.bhedImage tp.ns tp.dt) (E.bhedImage tp.ns tp.dt).length outfp hE (Nat.le_refl _)
  simp only [hw2]
  exact ⟨g4, rfl⟩

theorem initStream_text (E : Env) (g g1 : Globals) (fp : Nat) (tp : segy) (ht : TextOK g)
    (h : initStream E g fp tp = .ok g1) : TextOK g1 := by
  unfold initStream at h
  cases ho : g.oldinfoptr with
  | none => simp [ho] at h
  | some slot =>
    simp only [ho] at h
    by_cases hc : tp.ns > E.SU_NFLTS
    · simp [hc] at h
    · rw [if_neg hc] at h
      by_cases hp : E.getparint_lheader.getD 0 = 0
      · simp only [hp, ne_eq, not_true_eq_false, if_false, Res.ok.injEq] at h
        rw [← h]
        exact ht
      · simp only [ne_eq, hp, not_false_eq_true, if_true] at h
        refine writeLineHdr_text E _ g1 tp fp ?_ h
        exact ht

theorem initStream_accepts_any (E : Env) (g : Globals) (fp : Nat) (tp : segy)
    (hs : g.oldinfoptr = some g.outsegylist.length) (hns : tp.ns ≤ E.SU_NFLTS)
    (hE : E.acceptsAll) (ht : TextOK g) : ∃ g1, initStream E g fp tp = .ok g1 := by
  by_cases hp : E.getparint_lheader.getD 0 = 0
  · exact initStream_accepts E g fp tp hs hns hp
  · unfold initStream
    simp only [hs, if_neg (Nat.not_lt.2 hns), ne_eq, hp, not_false_eq_true, if_true]
    exact writeLineHdr_accepts E _ tp fp hE ht

/-- Every call that returns normally leaves 3200 bytes in `su_text_hdr`. -/
theorem TextOK_step (E : Env) (g g1 : Globals) (fp : Nat) (tp : segy) (fixed_length : Bool)
    (ht : TextOK g) (h : fputtr_internal E g fp tp fixed_length = .ok g1) : TextOK g1 := by
  unfold fputtr_internal at h
  have h0 : TextOK (if fp ≠ g.lastfp then searchlist g fp else g) := by
    by_cases hc : fp = g.lastfp <;> simp only [hc, ne_eq, not_true_eq_false, not_false_eq_true,
      if_false, if_true] <;> exact ht
  generalize (if fp ≠ g.lastfp then searchlist g fp else g) = g0 at h h0
  cases hp : g0.infoptr with
  | none =>
    simp only [hp] at h
    cases hi : initStream E g0 fp tp with
    | ok g2 =>
      simp only [hi] at h
      unfold TextOK
      rw [writeTrace_text E g2 g1 tp fixed_length h]
      exact initStream_text E g0 g2 fp tp h0 hi
    | err e s => simp [hi] at h
    | fault s => simp [hi] at h
  | some i =>
    simp only [hp] at h
    unfold TextOK
    rw [writeTrace_text E g0 g1 tp fixed_length h]
    exact h0

theorem TextOK_init : TextOK Globals.init :=
  List.length_replicate 3200 0

/-- The first trace of a stream, with or without the line header. -/
theorem fputtr_internal_new_accepts_any (E : Env) (g : Globals) (fp : Nat) (tp : segy)
    (fixed_length : Bool) (hInv : Inv g) (hfp : fp ≠ NULL)
    (hnew : ∀ n ∈ g.outsegylist, n.outfp ≠ fp) (hE : E.acceptsAll) (ht : TextOK g)
    (hns : tp.ns ≤ E.SU_NFLTS) (hh : tp.hdr.length = E.HDRBYTES)
    (hlen : bytesperOf E tp.trid * tp.ns ≤ tp.data.length) :
    ∃ g1, fputtr_internal E g fp tp fixed_length = .ok g1 := by
  obtain ⟨hr, hpn, ho⟩ := resolve_new g fp hInv hfp hnew
  have ho' : (searchlist g fp).oldinfoptr = some (searchlist g fp).outsegylist.length := ho
  obtain ⟨g2, hi⟩ := initStream_accepts_any E (searchlist g fp) fp tp ho' hns hE ht
  have h2 := initStream_ok E (searchlist g fp) g2 fp tp ho' hi
  have hl : g2.outsegylist[g.outsegylist.length]? =
      some { outfp := fp, itr := 0, nsfirst := tp.ns, bytesper := bytesperOf E tp.trid } := by
    rw [h2.2.1]
    show (g.outsegylist ++ _)[g.outsegylist.length]? = _
    simp
  have hlen' : bytesperOf E tp.trid * (if fixed_length = true then tp.ns else tp.ns)
      ≤ tp.data.length := by simpa using hlen
  obtain ⟨g3, hw, _⟩ := writeTrace_accepts E g2 tp fixed_length g.outsegylist.length
    { outfp := fp, itr := 0, nsfirst := tp.ns, bytesper := bytesperOf E tp.trid }
    h2.2.2.2.1 hl (Or.inl rfl) hE hh hlen'
  refine ⟨g3, ?_⟩
  unfold fputtr_internal
  simp only [hr, hpn, hi, hw]

/-! ### Sequences of calls -/

theorem bytesperOf_cases (E : Env) (trid : Int) :
    bytesperOf E trid = 1 ∨ bytesperOf E trid = 2 ∨ bytesperOf E trid = 4 := by
  unfold bytesperOf
  by_cases h1 : trid = E.CHARPACK
  · rw [if_pos h1]; exact Or.inl rfl
  · by_cases h2 : trid = E.SHORTPACK
    · rw [if_neg h1, if_pos h2]; exact Or.inr (Or.inl rfl)
    · rw [if_neg h1, if_neg h2]; exact Or.inr (Or.inr rfl)

theorem bytesperOf_le (E : Env) (trid : Int) : bytesperOf E trid ≤ sizeof_float := by
  rcases bytesperOf_cases E trid with h | h | h <;> rw [h] <;> decide

theorem databytes_fit (E : Env) (tp : segy) (bytesper n : Nat) (hwf : tp.wf E)
    (hb : bytesper ≤ sizeof_float) (hn : n ≤ E.SU_NFLTS) : bytesper * n ≤ tp.data.length := by
  rw [hwf.2.2]
  exact Nat.mul_le_mul hb hn

/-- Traces written one after the other to a stream that has a node. -/
theorem run_same_stream (E : Env) (fp : Nat) (fixed_length : Bool) (hE : E.acceptsAll)
    (hfp : fp ≠ NULL) (ts : List segy) :
    ∀ (g : Globals) (i : Nat) (info : outsegyinfo), Inv g → g.outsegylist[i]? = some info →
      info.outfp = fp → info.bytesper ≤ sizeof_float → info.nsfirst ≤ E.SU_NFLTS →
      (∀ t ∈ ts, t.wf E ∧ t.ns ≤ E.SU_NFLTS ∧ (fixed_length = true → t.ns = info.nsfirst)) →
      ∃ g1, run E g (ts.map (fun t => ⟨fp, t, fixed_length⟩)) = .ok g1 ∧
        g1.files fp = g.files fp ++ (ts.map (fun t => t.hdr ++
          t.data.take (info.bytesper *
            (if fixed_length = true then info.nsfirst else t.ns)))).flatten := by
  induction ts with
  | nil =>
    intro g i info _ _ _ _ _ _
    exact ⟨g, rfl, by simp⟩
  | cons t rest ih =>
    intro g i info hInv hi hout hb hn hts
    have ht := hts t (List.mem_cons_self _ _)
    have hns : t.ns = info.nsfirst ∨ fixed_length = false := by
      cases hfx : fixed_length
      · exact Or.inr rfl
      · exact Or.inl (ht.2.2 hfx)
    have hcount : (if fixed_length = true then info.nsfirst else t.ns) ≤ E.SU_NFLTS := by
      by_cases hfx : fixed_length = true
      · rw [if_pos hfx]; exact hn
      · rw [if_neg hfx]; exact ht.2.1
    have hlen := databytes_fit E t info.bytesper _ ht.1 hb hcount
    obtain ⟨g1, hok, hfiles⟩ := fputtr_internal_old_accepts E g fp i info t fixed_length hInv
      hfp hi hout hns hE ht.1.2.1 hlen
    have hk := fputtr_internal_old_ok E g g1 fp i info t fixed_length hInv hfp hi hout hok
    have hInv1 := Inv_step E g g1 fp t fixed_length hInv hfp hok
    have hi1 : g1.outsegylist[i]? = some { info with itr := info.itr + 1 } := by
      rw [hk.2.1, List.getElem?_modify]
      simp [hi]
    obtain ⟨g2, hrun, hfiles2⟩ := ih g1 i { info with itr := info.itr + 1 } hInv1 hi1 hout hb hn
      (fun u hu => hts u (List.mem_cons_of_mem _ hu))
    refine ⟨g2, ?_, ?_⟩
    · simp only [List.map_cons, run, hok]
      exact hrun
    · rw [hfiles2, hfiles]
      simp [List.append_assoc]

/-! ### Interleaved calls of `fputtr` on several streams -/

theorem firstNs_append_left (l1 l2 : List Call) (fp : Nat) (h : ∃ c ∈ l1, c.fp = fp) :
    firstNs (l1 ++ l2) fp = firstNs l1 fp := by
  unfold firstNs
  rw [List.find?_append]
  cases hf : l1.find? (fun c => decide (c.fp = fp)) with
  | none =>
    obtain ⟨c, hc, hcfp⟩ := h
    have := List.find?_eq_none.1 hf c hc
    simp [hcfp] at this
  | some x => rfl

theorem firstNs_append_right (l1 l2 : List Call) (fp : Nat) (h : ∀ c ∈ l1, c.fp ≠ fp) :
    firstNs (l1 ++ l2) fp = firstNs l2 fp := by
  unfold firstNs
  rw [List.find?_append]
  have : l1.find? (fun c => decide (c.fp = fp)) = none := by
    rw [List.find?_eq_none]
    intro c hc
    simp [h c hc]
  rw [this]
  rfl

theorem firstNs_some_mem (l : List Call) (fp a : Nat) (h : firstNs l fp = some a) :
    ∃ c ∈ l, c.fp = fp := by
  unfold firstNs at h
  cases hf : l.find? (fun c => decide (c.fp = fp)) with
  | none => simp [hf] at h
  | some x =>
    refine ⟨x, List.mem_of_find?_eq_some hf, ?_⟩
    have := List.find?_some hf
    simpa using this

theorem firstNs_cons_self (c : Call) (l : List Call) : firstNs (c :: l) c.fp = some c.tp.ns := by
  simp [firstNs]

/-- What the registry records after the calls `pre`, all of them by `fputtr`: every node holds
the sample count of the first trace written to its stream, a count that is at most `SU_NFLTS`,
and every stream written to has a node. -/
theorem isolation_step (E : Env) (hE : E.acceptsAll) (g : Globals) (pre : List Call)
    (c : Call) (hInv : Inv g) (ht : TextOK g)
    (hnodes : ∀ n ∈ g.outsegylist, firstNs pre n.outfp = some n.nsfirst ∧
      n.nsfirst ≤ E.SU_NFLTS ∧ n.bytesper ≤ sizeof_float)
    (hpre : ∀ d ∈ pre, ∃ n ∈ g.outsegylist, n.outfp = d.fp)
    (hfp : c.fp ≠ NULL) (hwf : c.tp.wf E) :
    ((∃ a, firstNs (pre ++ [c]) c.fp = some a ∧ a ≤ E.SU_NFLTS ∧ c.tp.ns = a) →
      ∃ g1, fputtr_internal E g c.fp c.tp true = .ok g1) ∧
    (∀ g1, fputtr_internal E g c.fp c.tp true = .ok g1 →
      (∃ a, firstNs (pre ++ [c]) c.fp = some a ∧ a ≤ E.SU_NFLTS ∧ c.tp.ns = a) ∧
      (Inv g1 ∧ TextOK g1) ∧
      (∀ n ∈ g1.outsegylist, firstNs (pre ++ [c]) n.outfp = some n.nsfirst ∧
        n.nsfirst ≤ E.SU_NFLTS ∧ n.bytesper ≤ sizeof_float) ∧
      (∀ d ∈ pre ++ [c], ∃ n ∈ g1.outsegylist, n.outfp = d.fp)) := by
  rcases node_cases g c.fp with ⟨i, info, hi, hout⟩ | hnew
  · -- the stream has a node
    have hmem : info ∈ g.outsegylist := List.getElem?_mem hi
    have hinfo := hnodes info hmem
    have hfirst : firstNs (pre ++ [c]) c.fp = some info.nsfirst := by
      rw [firstNs_append_left pre [c] c.fp (firstNs_some_mem pre c.fp info.nsfirst
        (hout ▸ hinfo.1)), ← hout]
      exact hinfo.1
    constructor
    · rintro ⟨a, ha, _, hns⟩
      rw [hfirst] at ha
      have hns' : c.tp.ns = info.nsfirst := by
        rw [hns]; exact (Option.some.inj ha).symm
      obtain ⟨g1, hok, _⟩ := fputtr_internal_old_accepts E g c.fp i info c.tp true hInv hfp hi
        hout (Or.inl hns') hE hwf.2.1
        (databytes_fit E c.tp info.bytesper _ hwf hinfo.2.2 (by simpa using hinfo.2.1))
      exact ⟨g1, hok⟩
    · intro g1 hok
      have hk := fputtr_internal_old_ok E g g1 c.fp i info c.tp true hInv hfp hi hout hok
      have hns : c.tp.ns = info.nsfirst := by
        rcases hk.1 with h | h
        · exact h
        · exact absurd h (by decide)
      have hkeys : ∀ n ∈ g1.outsegylist, ∃ m ∈ g.outsegylist,
          n.outfp = m.outfp ∧ n.nsfirst = m.nsfirst ∧ n.bytesper = m.bytesper := by
        intro n hn
        rw [hk.2.1] at hn
        rcases mem_modify _ _ _ _ hn with h | ⟨m, hm, hfm⟩
        · exact ⟨n, h, rfl, rfl, rfl⟩
        · exact ⟨m, hm, by rw [hfm], by rw [hfm], by rw [hfm]⟩
      refine ⟨⟨info.nsfirst, hfirst, hinfo.2.1, hns⟩,
        ⟨Inv_step E g g1 c.fp c.tp true hInv hfp hok, TextOK_step E g g1 c.fp c.tp true ht hok⟩,
        ?_, ?_⟩
      · intro n hn
        obtain ⟨m, hm, h1, h2, h3⟩ := hkeys n hn
        have hmn := hnodes m hm
        rw [h1, h2, h3]
        refine ⟨?_, hmn.2.1, hmn.2.2⟩
        rw [firstNs_append_left pre [c] m.outfp (firstNs_some_mem pre _ _ hmn.1)]
        exact hmn.1
      · have hsame : ∀ m ∈ g.outsegylist, ∃ n ∈ g1.outsegylist, n.outfp = m.outfp := by
          intro m hm
          obtain ⟨j, hj⟩ := List.getElem?_of_mem hm
          have : g1.outsegylist[j]? = some (if i = j then { m with itr := m.itr + 1 } else m) := by
            rw [hk.2.1, List.getElem?_modify]
            simp [hj]
          refine ⟨_, List.getElem?_mem this, ?_⟩
          by_cases hij : i = j <;> simp [hij]
        intro d hd
        rw [List.mem_append, List.mem_singleton] at hd
        rcases hd with hd | hd
        · obtain ⟨m, hm, hmd⟩ := hpre d hd
          obtain ⟨n, hn, hnm⟩ := hsame m hm
          exact ⟨n, hn, hnm.trans hmd⟩
        · obtain ⟨n, hn, hnm⟩ := hsame info hmem
          exact ⟨n, hn, by rw [hnm, hout, hd]⟩
  · -- the stream has no node
    have hnopre : ∀ d ∈ pre, d.fp ≠ c.fp := by
      intro d hd hdc
      obtain ⟨n, hn, hnd⟩ := hpre d hd
      exact hnew n hn (hnd.trans hdc)
    have hfirst : firstNs (pre ++ [c]) c.fp = some c.tp.ns := by
      rw [firstNs_append_right pre [c] c.fp hnopre]
      exact firstNs_cons_self c []
    constructor
    · rintro ⟨a, ha, hcap, hns⟩
      exact fputtr_internal_new_accepts_any E g c.fp c.tp true hInv hfp hnew hE ht
        (hns ▸ hcap) hwf.2.1
        (databytes_fit E c.tp _ _ hwf (bytesperOf_le E c.tp.trid) (hns ▸ hcap))
    · intro g1 hok
      have hk := fputtr_internal_new_ok E g g1 c.fp c.tp true hInv hfp hnew hok
      refine ⟨⟨c.tp.ns, hfirst, hk.1, rfl⟩,
        ⟨Inv_step E g g1 c.fp c.tp true hInv hfp hok, TextOK_step E g g1 c.fp c.tp true ht hok⟩,
        ?_, ?_⟩
      · intro n hn
        rw [hk.2.1, List.mem_append, List.mem_singleton] at hn
        rcases hn with h | h
        · have hmn := hnodes n h
          refine ⟨?_, hmn.2.1, hmn.2.2⟩
          rw [firstNs_append_left pre [c] n.outfp (firstNs_some_mem pre _ _ hmn.1)]
          exact hmn.1
        · rw [h]
          exact ⟨hfirst, hk.1, bytesperOf_le E c.tp.trid⟩
      · intro d hd
        rw [List.mem_append, List.mem_singleton] at hd
        rcases hd with hd | hd
        · obtain ⟨m, hm, hmd⟩ := hpre d hd
          exact ⟨m, hk.2.1 ▸ List.mem_append_left _ hm, hmd⟩
        · have hlast : outsegyinfo.mk c.fp 1 c.tp.ns (bytesperOf E c.tp.trid)
              ∈ g1.outsegylist := by
            rw [hk.2.1]
            exact List.mem_append_right _ (List.mem_singleton_self _)
          exact ⟨_, hlast, by rw [hd]⟩

theorem isolation_run (E : Env) (hE : E.acceptsAll) (suf : List Call) :
    ∀ (g : Globals) (pre : List Call), Inv g → TextOK g →
      (∀ n ∈ g.outsegylist, firstNs pre n.outfp = some n.nsfirst ∧
        n.nsfirst ≤ E.SU_NFLTS ∧ n.bytesper ≤ sizeof_float) →
      (∀ d ∈ pre, ∃ n ∈ g.outsegylist, n.outfp = d.fp) →
      (∀ c ∈ suf, c.fp ≠ NULL ∧ c.fixed_length = true ∧ c.tp.wf E) →
      ((∃ g1, run E g suf = .ok g1) ↔
        ∀ c ∈ suf, ∃ a, firstNs (pre ++ suf) c.fp = some a ∧ a ≤ E.SU_NFLTS ∧ c.tp.ns = a) ∧
      (∀ g1, run E g suf = .ok g1 →
        (∀ n ∈ g1.outsegylist, firstNs (pre ++ suf) n.outfp = some n.nsfirst) ∧
        (∀ d ∈ pre ++ suf, ∃ n ∈ g1.outsegylist, n.outfp = d.fp)) := by
  induction suf with
  | nil =>
    intro g pre _ _ hnodes hpre _
    refine ⟨⟨fun _ c hc => absurd hc (List.not_mem_nil c), fun _ => ⟨g, rfl⟩⟩, ?_⟩
    intro g1 h
    simp only [run, Res.ok.injEq] at h
    subst h
    rw [List.append_nil]
    exact ⟨fun n hn => (hnodes n hn).1, hpre⟩
  | cons c rest ih =>
    intro g pre hInv ht hnodes hpre hcs
    have hc := hcs c (List.mem_cons_self _ _)
    have hrest : ∀ d ∈ rest, d.fp ≠ NULL ∧ d.fixed_length = true ∧ d.tp.wf E :=
      fun d hd => hcs d (List.mem_cons_of_mem _ hd)
    have step := isolation_step E hE g pre c hInv ht hnodes hpre hc.1 hc.2.2
    have happ : pre ++ c :: rest = (pre ++ [c]) ++ rest := by simp
    have hcfirst : firstNs (pre ++ [c] ++ rest) c.fp = firstNs (pre ++ [c]) c.fp :=
      firstNs_append_left _ _ _ ⟨c, by simp, rfl⟩
    rw [happ]
    have hrun : ∀ g2, fputtr_internal E g c.fp c.tp true = .ok g2 →
        run E g (c :: rest) = run E g2 rest := by
      intro g2 h2
      simp only [run, hc.2.1, h2]
    constructor
    · constructor
      · rintro ⟨g1, hg1⟩
        cases hres : fputtr_internal E g c.fp c.tp true with
        | ok g2 =>
          obtain ⟨hcond, hInv2, hnodes2, hpre2⟩ := step.2 g2 hres
          rw [hrun g2 hres] at hg1
          have := (ih g2 (pre ++ [c]) hInv2.1 hInv2.2 hnodes2 hpre2 hrest).1.1 ⟨g1, hg1⟩
          intro d hd
          rw [List.mem_cons] at hd
          rcases hd with hd | hd
          · rw [hd, hcfirst]; exact hcond
          · exact this d hd
        | err e s => simp [run, hc.2.1, hres] at hg1
        | fault s => simp [run, hc.2.1, hres] at hg1
      · intro hall
        have hcond := hall c (List.mem_cons_self _ _)
        rw [hcfirst] at hcond
        obtain ⟨g2, hres⟩ := step.1 hcond
        obtain ⟨_, hInv2, hnodes2, hpre2⟩ := step.2 g2 hres
        obtain ⟨g1, hg1⟩ := (ih g2 (pre ++ [c]) hInv2.1 hInv2.2 hnodes2 hpre2 hrest).1.2
          (fun d hd => hall d (List.mem_cons_of_mem _ hd))
        exact ⟨g1, by rw [hrun g2 hres]; exact hg1⟩
    · intro g1 hg1
      cases hres : fputtr_internal E g c.fp c.tp true with
      | ok g2 =>
        obtain ⟨_, hInv2, hnodes2, hpre2⟩ := step.2 g2 hres
        rw [hrun g2 hres] at hg1
        exact (ih g2 (pre ++ [c]) hInv2.1 hInv2.2 hnodes2 hpre2 hrest).2 g1 hg1
      | err e s => simp [run, hc.2.1, hres] at hg1
      | fault s => simp [run, hc.2.1, hres] at hg1

/-- C6. Build without XDR, streams that take every byte: for calls `cs` of `fputtr` with
well-formed traces on streams other than `NULL`, in any order, from program start,
(1) all the calls return normally exactly when every call has the sample count of the first trace
written to its own stream and that count is at most `SU_NFLTS` (no condition mentions a trace
written to another stream), and (2) after them every node holds as `nsfirst` the sample count of
the first trace written to its stream, and every stream written to has a node. -/
theorem destination_isolation (E : Env) (cs : List Call) (hE : E.acceptsAll)
    (hcs : ∀ c ∈ cs, c.fp ≠ NULL ∧ c.fixed_length = true ∧ c.tp.wf E) :
    ((∃ g1, run E Globals.init cs = .ok g1) ↔
      ∀ c ∈ cs, ∃ a, firstNs cs c.fp = some a ∧ a ≤ E.SU_NFLTS ∧ c.tp.ns = a) ∧
    (∀ g1, run E Globals.init cs = .ok g1 →
      (∀ n ∈ g1.outsegylist, firstNs cs n.outfp = some n.nsfirst) ∧
      (∀ d ∈ cs, ∃ n ∈ g1.outsegylist, n.outfp = d.fp)) := by
  have h := isolation_run E hE cs Globals.init [] Inv_init TextOK_init
    (fun n hn => absurd hn (List.not_mem_nil n)) (fun d hd => absurd hd (List.not_mem_nil d)) hcs
  simpa using h

/-! ### The values recorded at the first trace of a stream -/

theorem Frozen_modify (l : List outsegyinfo) (i fp a b : Nat) (h : Frozen l fp a b) :
    Frozen (l.modify (fun n => { n with itr := n.itr + 1 }) i) fp a b := by
  obtain ⟨⟨m, hm, hmfp⟩, hall⟩ := h
  constructor
  · obtain ⟨j, hj⟩ := List.getElem?_of_mem hm
    have : (l.modify (fun n => { n with itr := n.itr + 1 }) i)[j]? =
        some (if i = j then { m with itr := m.itr + 1 } else m) := by
      rw [List.getElem?_modify]
      simp [hj]
    refine ⟨_, List.getElem?_mem this, ?_⟩
    by_cases hij : i = j <;> simp [hij, hmfp]
  · intro n hn hnfp
    rcases mem_modify _ _ _ _ hn with h1 | ⟨k, hk, hfk⟩
    · exact hall n h1 hnfp
    · rw [hfk] at hnfp ⊢
      exact hall k hk hnfp

theorem Frozen_append (l : List outsegyinfo) (new : outsegyinfo) (fp a b : Nat)
    (h : Frozen l fp a b) (hnew : ∀ n ∈ l, n.outfp ≠ new.outfp) :
    Frozen (l ++ [new]) fp a b := by
  obtain ⟨⟨m, hm, hmfp⟩, hall⟩ := h
  constructor
  · exact ⟨m, List.mem_append_left _ hm, hmfp⟩
  · intro n hn hnfp
    rw [List.mem_append, List.mem_singleton] at hn
    rcases hn with h1 | h1
    · exact hall n h1 hnfp
    · exfalso
      rw [h1] at hnfp
      exact hnew m hm (hmfp.trans hnfp.symm)

theorem Frozen_first (l : List outsegyinfo) (fp a b : Nat) (hnew : ∀ n ∈ l, n.outfp ≠ fp) :
    Frozen (l ++ [{ outfp := fp, itr := 1, nsfirst := a, bytesper := b }]) fp a b := by
  constructor
  · exact ⟨_, List.mem_append_right _ (List.mem_singleton_self _), rfl⟩
  · intro n hn hnfp
    rw [List.mem_append, List.mem_singleton] at hn
    rcases hn with h1 | h1
    · exact absurd hnfp (hnew n h1)
    · rw [h1]
      exact ⟨rfl, rfl⟩

theorem Frozen_step (E : Env) (g g1 : Globals) (fp1 : Nat) (tp : segy) (fixed_length : Bool)
    (fp a b : Nat) (hInv : Inv g) (hfp : fp1 ≠ NULL)
    (h : fputtr_internal E g fp1 tp fixed_length = .ok g1)
    (hfr : Frozen g.outsegylist fp a b) : Frozen g1.outsegylist fp a b := by
  rcases node_cases g fp1 with ⟨i, info, hi, hout⟩ | hnew
  · rw [(fputtr_internal_old_ok E g g1 fp1 i info tp fixed_length hInv hfp hi hout h).2.1]
    exact Frozen_modify _ _ _ _ _ hfr
  · rw [(fputtr_internal_new_ok E g g1 fp1 tp fixed_length hInv hfp hnew h).2.1]
    exact Frozen_append _ _ _ _ _ hfr hnew

theorem Frozen_run (E : Env) (fp a b : Nat) (cs : List Call) :
    ∀ (g g1 : Globals), Inv g → (∀ d ∈ cs, d.fp ≠ NULL) → run E g cs = .ok g1 →
      Frozen g.outsegylist fp a b → Frozen g1.outsegylist fp a b := by
  induction cs with
  | nil =>
    intro g g1 _ _ h hfr
    simp only [run, Res.ok.injEq] at h
    rw [← h]; exact hfr
  | cons c rest ih =>
    intro g g1 hInv hcs h hfr
    have hc := hcs c (List.mem_cons_self _ _)
    cases hres : fputtr_internal E g c.fp c.tp c.fixed_length with
    | ok g2 =>
      simp only [run, hres] at h
      exact ih g2 g1 (Inv_step E g g2 c.fp c.tp c.fixed_length hInv hc hres)
        (fun d hd => hcs d (List.mem_cons_of_mem _ hd)) h
        (Frozen_step E g g2 c.fp c.tp c.fixed_length fp a b hInv hc hres hfr)
    | err e s => simp [run, hres] at h
    | fault s => simp [run, hres] at h

/-! ### Facts about the concrete environment and traces -/

theorem exampleTrace_hdr_length (ns : Nat) (trid : Int) :
    (exampleTrace ns trid).hdr.length = exampleEnv.HDRBYTES := by
  show (hdrImage ns 4000 trid).length = 240
  unfold hdrImage
  rw [List.length_append, List.length_append, List.length_append, List.length_append,
    List.length_replicate, List.length_replicate, List.length_replicate]
  rfl

theorem exampleTrace_data_length (ns : Nat) (trid : Int) :
    (exampleTrace ns trid).data.length = 131072 := by
  show ([1, 2, 3, 4, 5, 6, 7, 8] ++ List.replicate 131064 0).length = 131072
  rw [List.length_append, List.length_replicate]
  rfl

theorem exampleEnv_acceptsAll : exampleEnv.acceptsAll := fun _ _ _ => rfl

theorem exampleTrace_wf (ns : Nat) (trid : Int) (h : ns < 65536) :
    (exampleTrace ns trid).wf exampleEnv :=
  ⟨h, exampleTrace_hdr_length ns trid, exampleTrace_data_length ns trid⟩

/-- A first trace written to stream 1 at program start. -/
theorem first_example (ns : Nat) (trid : Int) (fixed_length : Bool) (hns : ns ≤ 32768) :
    ∃ g1, fputtr_internal exampleEnv Globals.init 1 (exampleTrace ns trid) fixed_length
        = .ok g1 ∧ Inv g1 ∧
      g1.outsegylist =
        [{ outfp := 1, itr := 1, nsfirst := ns, bytesper := bytesperOf exampleEnv trid }] := by
  have hnew : ∀ n ∈ Globals.init.outsegylist, n.outfp ≠ 1 :=
    fun n hn => absurd hn (List.not_mem_nil n)
  have hlen := databytes_fit exampleEnv (exampleTrace ns trid) (bytesperOf exampleEnv trid) ns
    ⟨Nat.lt_of_le_of_lt hns (by decide), exampleTrace_hdr_length ns trid,
      exampleTrace_data_length ns trid⟩ (bytesperOf_le exampleEnv trid) hns
  obtain ⟨g1, hok, _⟩ := fputtr_internal_new_accepts exampleEnv Globals.init 1
    (exampleTrace ns trid) fixed_length Inv_init (by decide) hnew exampleEnv_acceptsAll rfl hns
    (exampleTrace_hdr_length ns trid) hlen
  have hk := fputtr_internal_new_ok exampleEnv Globals.init g1 1 (exampleTrace ns trid)
    fixed_length Inv_init (by decide) hnew hok
  exact ⟨g1, hok, Inv_step _ _ _ _ _ _ Inv_init (by decide) hok, hk.2.1⟩

/-- C1, witness: after a first trace with `ns = 500` on stream 1, `fputtr` of a trace with
`ns = 600` on the same stream ends in the error naming trace 2, 600 and 500. -/
theorem fputtr_fixed_ns_check_witness :
    (exampleTrace 600 1).ns ≠ 500 ∧
    ∃ g1, fputtr exampleEnv (fputtr exampleEnv Globals.init 1 (exampleTrace 500 1)).state 1
        (exampleTrace 600 1) = .err (.nsDiffers 2 600 500) g1 ∧
      (SuErr.nsDiffers 2 600 500).kind = .SchemaViolation ∧
      g1.files = (fputtr exampleEnv Globals.init 1 (exampleTrace 500 1)).state.files ∧
      g1.outsegylist =
        (fputtr exampleEnv Globals.init 1 (exampleTrace 500 1)).state.outsegylist := by
  obtain ⟨g0, hok, hInv, hl⟩ := first_example 500 1 true (by decide)
  unfold fputtr
  rw [hok]
  exact ⟨by decide,
    (fputtr_fixed_ns_check exampleEnv g0 1 0 { outfp := 1, itr := 1, nsfirst := 500, bytesper := 4 }
      (exampleTrace 600 1) hInv (by decide) (by rw [hl]; rfl) rfl).1 (by decide)⟩

/-- C6, witness: a trace with 100 samples to stream 1, one with 50 samples to stream 4, again
one with 100 samples to stream 1: all three calls return normally, and the nodes of streams 1
and 4 hold 100 and 50. -/
theorem destination_isolation_witness :
    ∃ g1, run exampleEnv Globals.init isolationCalls = .ok g1 ∧
      (∀ n ∈ g1.outsegylist, firstNs isolationCalls n.outfp = some n.nsfirst) ∧
      (∀ d ∈ isolationCalls, ∃ n ∈ g1.outsegylist, n.outfp = d.fp) ∧
      firstNs isolationCalls 1 = some 100 ∧ firstNs isolationCalls 4 = some 50 := by
  have hcs : ∀ c ∈ isolationCalls, c.fp ≠ NULL ∧ c.fixed_length = true ∧ c.tp.wf exampleEnv := by
    intro c hc
    simp only [isolationCalls, List.mem_cons, List.mem_singleton, List.not_mem_nil,
      or_false] at hc
    rcases hc with rfl | rfl | rfl
    · exact ⟨by decide, rfl, exampleTrace_wf 100 1 (by decide)⟩
    · exact ⟨by decide, rfl, exampleTrace_wf 50 1 (by decide)⟩
    · exact ⟨by decide, rfl, exampleTrace_wf 100 1 (by decide)⟩
  have h := destination_isolation exampleEnv isolationCalls exampleEnv_acceptsAll hcs
  have hcond : ∀ c ∈ isolationCalls, ∃ a, firstNs isolationCalls c.fp = some a ∧
      a ≤ exampleEnv.SU_NFLTS ∧ c.tp.ns = a := by
    intro c hc
    simp only [isolationCalls, List.mem_cons, List.mem_singleton, List.not_mem_nil,
      or_false] at hc
    rcases hc with rfl | rfl | rfl
    · exact ⟨100, by decide, by decide, rfl⟩
    · exact ⟨50, by decide, by decide, rfl⟩
    · exact ⟨100, by decide, by decide, rfl⟩
  obtain ⟨g1, hg1⟩ := h.1.2 hcond
  exact ⟨g1, hg1, (h.2 g1 hg1).1, (h.2 g1 hg1).2, by decide, by decide⟩

/-- C3. Build without XDR, no `lheader` parameter, streams that take every byte, traces with
`ns ≤ SU_NFLTS`: on a stream without a node, the traces `t0, ts` written by `fvputtr` all
succeed, and for each trace the stream receives its `HDRBYTES` header bytes followed by the first
`bytesper * ns` bytes of its data, `ns` being the trace's own sample count and `bytesper` (1, 2
or 4) the value chosen from the `trid` of the first trace `t0`.  Written by `fputtr` (which
succeeds when all have the sample count of `t0`) the count is that of the first trace. -/
theorem fvputtr_own_length (E : Env) (g : Globals) (fp : Nat) (t0 : segy) (ts : List segy)
    (hInv : Inv g) (hfp : fp ≠ NULL) (hnew : ∀ n ∈ g.outsegylist, n.outfp ≠ fp)
    (hE : E.acceptsAll) (hp : E.getparint_lheader.getD 0 = 0)
    (hts : ∀ t ∈ t0 :: ts, t.wf E ∧ t.ns ≤ E.SU_NFLTS) :
    (bytesperOf E t0.trid = 1 ∨ bytesperOf E t0.trid = 2 ∨ bytesperOf E t0.trid = 4) ∧
    (∀ t ∈ t0 :: ts, t.hdr.length = E.HDRBYTES ∧
      (t.data.take (bytesperOf E t0.trid * t.ns)).length = bytesperOf E t0.trid * t.ns) ∧
    (∃ g1, run E g ((t0 :: ts).map (fun t => ⟨fp, t, false⟩)) = .ok g1 ∧
      g1.files fp = g.files fp ++ ((t0 :: ts).map (fun t => t.hdr ++
        t.data.take (bytesperOf E t0.trid * t.ns))).flatten) ∧
    ((∀ t ∈ ts, t.ns = t0.ns) →
      ∃ g1, run E g ((t0 :: ts).map (fun t => ⟨fp, t, true⟩)) = .ok g1 ∧
        g1.files fp = g.files fp ++ ((t0 :: ts).map (fun t => t.hdr ++
          t.data.take (bytesperOf E t0.trid * t0.ns))).flatten) := by
  have h0 := hts t0 (List.mem_cons_self _ _)
  have hb := bytesperOf_le E t0.trid
  have first : ∀ fixed_length : Bool, ∃ g1,
      fputtr_internal E g fp t0 fixed_length = .ok g1 ∧ Inv g1 ∧
      g1.files fp = g.files fp ++ t0.hdr ++ t0.data.take (bytesperOf E t0.trid * t0.ns) ∧
      g1.outsegylist[g.outsegylist.length]? =
        some { outfp := fp, itr := 1, nsfirst := t0.ns, bytesper := bytesperOf E t0.trid } := by
    intro fixed_length
    obtain ⟨g1, hok, hfiles⟩ := fputtr_internal_new_accepts E g fp t0 fixed_length hInv hfp hnew
      hE hp h0.2 h0.1.2.1 (databytes_fit E t0 _ _ h0.1 hb h0.2)
    have hk := fputtr_internal_new_ok E g g1 fp t0 fixed_length hInv hfp hnew hok
    refine ⟨g1, hok, Inv_step E g g1 fp t0 fixed_length hInv hfp hok, hfiles, ?_⟩
    rw [hk.2.1]
    simp
  refine ⟨bytesperOf_cases E t0.trid, ?_, ?_, ?_⟩
  · intro t ht
    have h := hts t ht
    refine ⟨h.1.2.1, ?_⟩
    rw [List.length_take]
    exact Nat.min_eq_left (databytes_fit E t _ _ h.1 hb h.2)
  · obtain ⟨g1, hok, hInv1, hfiles, hi1⟩ := first false
    obtain ⟨g2, hrun, hfiles2⟩ := run_same_stream E fp false hE hfp ts g1 g.outsegylist.length
      { outfp := fp, itr := 1, nsfirst := t0.ns, bytesper := bytesperOf E t0.trid }
      hInv1 hi1 rfl hb h0.2
      (fun t ht => ⟨(hts t (List.mem_cons_of_mem _ ht)).1,
        (hts t (List.mem_cons_of_mem _ ht)).2, fun h => absurd h (by decide)⟩)
    refine ⟨g2, ?_, ?_⟩
    · simp only [List.map_cons, run, hok]
      exact hrun
    · rw [hfiles2, hfiles]
      simp [List.append_assoc]
  · intro hsame
    obtain ⟨g1, hok, hInv1, hfiles, hi1⟩ := first true
    obtain ⟨g2, hrun, hfiles2⟩ := run_same_stream E fp true hE hfp ts g1 g.outsegylist.length
      { outfp := fp, itr := 1, nsfirst := t0.ns, bytesper := bytesperOf E t0.trid }
      hInv1 hi1 rfl hb h0.2
      (fun t ht => ⟨(hts t (List.mem_cons_of_mem _ ht)).1,
        (hts t (List.mem_cons_of_mem _ ht)).2, fun _ => hsame t ht⟩)
    refine ⟨g2, ?_, ?_⟩
    · simp only [List.map_cons, run, hok]
      exact hrun
    · rw [hfiles2, hfiles]
      simp [List.append_assoc]

/-- C3, witness: `ns = 500` then `ns = 600` written by `fvputtr` to stream 1 at program start;
both succeed, the stream holding 240 + 4 * 500 bytes for the first and 240 + 4 * 600 for the
second. -/
theorem fvputtr_own_length_witness :
    ∃ g1, run exampleEnv Globals.init
        [⟨1, exampleTrace 500 1, false⟩, ⟨1, exampleTrace 600 1, false⟩] = .ok g1 ∧
      g1.files 1 = Globals.init.files 1 ++
        ([exampleTrace 500 1, exampleTrace 600 1].map (fun t => t.hdr ++
          t.data.take (bytesperOf exampleEnv (exampleTrace 500 1).trid * t.ns))).flatten :=
  (fvputtr_own_length exampleEnv Globals.init 1 (exampleTrace 500 1) [exampleTrace 600 1]
    Inv_init (by decide) (fun n hn => absurd hn (List.not_mem_nil n)) exampleEnv_acceptsAll rfl
    (by
      intro t ht
      simp only [List.mem_cons, List.mem_singleton, List.not_mem_nil, or_false] at ht
      rcases ht with rfl | rfl
      · exact ⟨exampleTrace_wf 500 1 (by decide), by decide⟩
      · exact ⟨exampleTrace_wf 600 1 (by decide), by decide⟩)).2.2.1

end NoXDR

end SU

namespace SU

namespace SUXDR

/-! ### The build with XDR: the registry -/

theorem xdr_searchFrom_core (fp : Nat) (l : List outsegyinfo) (k : Nat) :
    searchFrom fp l k = NoXDR.searchFrom fp (l.map core) k := by
  induction l generalizing k with
  | nil => rfl
  | cons a t ih =>
    simp only [searchFrom, NoXDR.searchFrom, List.map_cons]
    rw [ih]
    rfl

theorem xdr_cores_getElem (g : Globals) (i : Nat) :
    (cores g)[i]? = (g.outsegylist[i]?).map core := by
  simp [cores]

theorem xdr_resolve_existing (g : Globals) (fp i : Nat) (info : NoXDR.outsegyinfo)
    (hInv : Inv g) (hfp : fp ≠ NULL) (hi : (cores g)[i]? = some info) (hout : info.outfp = fp) :
    (if fp ≠ g.lastfp then searchlist g fp else g).infoptr = some i := by
  by_cases h : fp = g.lastfp
  · simp only [h, ne_eq, not_true_eq_false, if_false]
    rcases hInv.2 with h0 | hc
    · exact absurd (h.trans h0) hfp
    · cases hp : g.infoptr with
      | none => simp [hp] at hc
      | some j =>
        simp only [hp, Option.some_bind] at hc
        cases hn : (cores g)[j]? with
        | none => simp [hn] at hc
        | some n =>
          simp only [hn, Option.map_some', Option.some.injEq] at hc
          have := NoXDR.index_unique (cores g) i j info n hInv.1 hi hn (by rw [hout, hc, h])
          rw [this]
  · simp only [ne_eq, h, not_false_eq_true, if_true, searchlist, xdr_searchFrom_core]
    have := NoXDR.searchFrom_some fp (cores g) 0 i info hInv.1 hi hout
    simpa [cores] using this

theorem xdr_resolve_new (g : Globals) (fp : Nat) (hInv : Inv g) (hfp : fp ≠ NULL)
    (hnew : ∀ n ∈ cores g, n.outfp ≠ fp) :
    (if fp ≠ g.lastfp then searchlist g fp else g) = searchlist g fp ∧
    (searchlist g fp).infoptr = none ∧
    (searchlist g fp).oldinfoptr = some g.outsegylist.length := by
  have hs := NoXDR.searchFrom_none fp (cores g) 0 hnew
  have hs' : searchFrom fp g.outsegylist 0 = (none, g.outsegylist.length) := by
    rw [xdr_searchFrom_core]
    simpa [cores] using hs
  refine ⟨?_, by simp [searchlist, hs'], by simp [searchlist, hs']⟩
  by_cases h : fp = g.lastfp
  · exfalso
    rcases hInv.2 with h0 | hc
    · exact absurd (h.trans h0) hfp
    · cases hp : g.infoptr with
      | none => simp [hp] at hc
      | some j =>
        simp only [hp, Option.some_bind] at hc
        cases hn : (cores g)[j]? with
        | none => simp [hn] at hc
        | some n =>
          simp only [hn, Option.map_some', Option.some.injEq] at hc
          exact hnew n (List.getElem?_mem hn) (by rw [hc, h])
  · simp [h]

theorem xdr_resolve_frame (g : Globals) (fp : Nat) :
    (if fp ≠ g.lastfp then searchlist g fp else g).outsegylist = g.outsegylist ∧
    (if fp ≠ g.lastfp then searchlist g fp else g).files = g.files ∧
    (if fp ≠ g.lastfp then searchlist g fp else g).lastfp = g.lastfp := by
  by_cases h : fp = g.lastfp <;> simp [h, searchlist]

/-! ### The build with XDR: what one call does -/

theorem xdr_Frame_refl (g : Globals) (fp : Nat) : Frame g g fp :=
  ⟨rfl, rfl, rfl, rfl, fun _ _ => rfl⟩

theorem xdr_Frame_trans (g g1 g2 : Globals) (fp : Nat) (h1 : Frame g g1 fp)
    (h2 : Frame g1 g2 fp) : Frame g g2 fp :=
  ⟨h2.1.trans h1.1, h2.2.1.trans h1.2.1, h2.2.2.1.trans h1.2.2.1,
    h2.2.2.2.1.trans h1.2.2.2.1, fun x hx => (h2.2.2.2.2 x hx).trans (h1.2.2.2.2 x hx)⟩

theorem xdr_efwrite_frame (E : Env) (g g1 : Globals) (src : List Nat) (n fp k : Nat)
    (h : efwrite E g src n fp = some (g1, k)) :
    g1.outsegylist = g.outsegylist ∧ Frame g g1 fp := by
  unfold efwrite at h
  split at h
  · simp only [Option.some.injEq, Prod.mk.injEq] at h
    obtain ⟨hg, _⟩ := h
    subst hg
    refine ⟨rfl, rfl, rfl, rfl, rfl, ?_⟩
    intro x hx
    simp [hx]
  · simp at h

theorem xdr_map_core_modify_const (l : List outsegyinfo) (i : Nat) (a b : outsegyinfo)
    (hi : l[i]? = some a) (hab : core b = core a) :
    (l.modify (fun _ => b) i).map core = l.map core := by
  apply List.ext_getElem?
  intro j
  rw [List.getElem?_map, List.getElem?_map, List.getElem?_modify]
  by_cases hij : i = j
  · subst hij
    simp [hi, hab]
  · cases hj : l[j]? <;> simp [hij]

theorem xdr_setNode_frame (g : Globals) (i : Nat) (a b : outsegyinfo) (fp : Nat)
    (hi : g.outsegylist[i]? = some a) (hab : core b = core a) :
    Frame g (setNode g i (fun _ => b)) fp :=
  ⟨xdr_map_core_modify_const g.outsegylist i a b hi hab, rfl, rfl, rfl, fun _ _ => rfl⟩

theorem xdr_xdrPut_core (a b : outsegyinfo) (bytes : List Nat) (h : xdrPut a bytes = some b) :
    core b = core a := by
  unfold xdrPut at h
  split at h
  · simp only [Option.some.injEq] at h
    subst h
    rfl
  · simp at h

theorem xdr_xdrPut_outfp (a b : outsegyinfo) (bytes : List Nat) (h : xdrPut a bytes = some b) :
    b.outfp = a.outfp :=
  congrArg NoXDR.outsegyinfo.outfp (xdr_xdrPut_core a b bytes h)

theorem xdr_writeShorts_frame (E : Env) (g g1 : Globals) (iptr : outsegyinfo) (tp tp1 : segy)
    (db k : Nat) (h : writeShorts E g iptr tp db = .ok (g1, tp1, k)) :
    g1.outsegylist = g.outsegylist ∧ Frame g g1 iptr.outfp := by
  unfold writeShorts at h
  by_cases hr : readable tp.data db = true
  · simp only [hr, if_true] at h
    generalize (if E.ctest0 = true then ({ tp with data := swab tp.data db } : segy) else tp)
      = tpx at h
    cases hw : efwrite E g tpx.data db iptr.outfp with
    | none => simp [hw] at h
    | some q =>
      obtain ⟨g2, nw⟩ := q
      simp only [hw, Res.ok.injEq, Prod.mk.injEq] at h
      obtain ⟨hg, _, _⟩ := h
      subst hg
      exact xdr_efwrite_frame E g g2 _ _ _ _ hw
  · simp [hr] at h

theorem xdr_writeShorts_no_err (E : Env) (g : Globals) (iptr : outsegyinfo) (tp : segy)
    (db : Nat) (e : SuErr) (s : Globals × segy × Nat) :
    writeShorts E g iptr tp db ≠ .err e s := by
  unfold writeShorts
  by_cases hr : readable tp.data db = true
  · simp only [hr, if_true]
    generalize (if E.ctest0 = true then ({ tp with data := swab tp.data db } : segy) else tp)
      = tpx
    cases hw : efwrite E g tpx.data db iptr.outfp <;> simp
  · simp [hr]

theorem xdr_datawrite_no_err (E : Env) (g : Globals) (i : Nat) (tp : segy)
    (fixed_length : Bool) (e : SuErr) (s : Globals × segy × Nat) :
    datawrite E g i tp fixed_length ≠ .err e s := by
  unfold datawrite
  cases hl : g.outsegylist[i]? with
  | none => simp
  | some iptr =>
    simp only
    generalize (if fixed_length = true then iptr.nsfirst else tp.ns) = n
    by_cases h1 : tp.trid = E.CHARPACK
    · simp only [h1, if_true]
      split
      · simp
      · exact xdr_writeShorts_no_err _ _ _ _ _ _ _
    · simp only [h1, if_false]
      by_cases h2 : tp.trid = E.SHORTPACK
      · simp only [h2, if_true]
        exact xdr_writeShorts_no_err _ _ _ _ _ _ _
      · simp only [h2, if_false]
        split
        · simp
        · split
          · split <;> simp
          · simp

theorem xdr_datawrite_frame (E : Env) (g g1 : Globals) (i : Nat) (tp tp1 : segy)
    (fixed_length : Bool) (k : Nat) (iptr : outsegyinfo) (hi : g.outsegylist[i]? = some iptr)
    (h : datawrite E g i tp fixed_length = .ok (g1, tp1, k)) :
    Frame g g1 iptr.outfp := by
  unfold datawrite at h
  simp only [hi] at h
  generalize (if fixed_length = true then iptr.nsfirst else tp.ns) = n at h
  by_cases h1 : tp.trid = E.CHARPACK
  · simp only [h1, if_true] at h
    split at h
    · simp at h
    · rename_i g2 nw hw
      have f1 := xdr_efwrite_frame E g g2 _ _ _ _ hw
      have f2 := xdr_writeShorts_frame E g2 g1 iptr tp tp1 _ k h
      exact xdr_Frame_trans _ _ _ _ f1.2 f2.2
  · simp only [h1, if_false] at h
    by_cases h2 : tp.trid = E.SHORTPACK
    · simp only [h2, if_true] at h
      exact (xdr_writeShorts_frame E g g1 iptr tp tp1 _ k h).2
    · simp only [h2, if_false] at h
      split at h
      · simp only [Res.ok.injEq, Prod.mk.injEq] at h
        rw [← h.1]
        exact xdr_Frame_refl _ _
      · rename_i iptr1 hx
        have hput : ∃ bytes, xdrPut iptr bytes = some iptr1 := by
          cases hv : E.xdr_vector tp.data n with
          | none => simp [hv] at hx
          | some bytes => exact ⟨bytes, by simpa [hv] using hx⟩
        obtain ⟨bytes, hput⟩ := hput
        have hc := xdr_xdrPut_core iptr iptr1 bytes hput
        have ho := xdr_xdrPut_outfp iptr iptr1 bytes hput
        have f1 := xdr_setNode_frame g i iptr iptr1 iptr.outfp hi hc
        split at h
        · split at h
          · simp at h
          · rename_i g2 nw hw
            simp only [Res.ok.injEq, Prod.mk.injEq] at h
            rw [← h.1]
            have f2 := xdr_efwrite_frame E _ g2 _ _ _ _ hw
            rw [ho] at f2
            exact xdr_Frame_trans _ _ _ _ f1 f2.2
        · simp only [Res.ok.injEq, Prod.mk.injEq] at h
          rw [← h.1]
          exact f1

theorem xdr_map_core_modify (f : outsegyinfo → outsegyinfo)
    (f1 : NoXDR.outsegyinfo → NoXDR.outsegyinfo) (hf : ∀ a, core (f a) = f1 (core a))
    (l : List outsegyinfo) (i : Nat) :
    (l.modify f i).map core = (l.map core).modify f1 i := by
  induction l generalizing i with
  | nil => simp
  | cons b t ih =>
    cases i with
    | zero => simp [hf]
    | succ j => simp [ih]

theorem xdr_getElem_modify_const (l : List outsegyinfo) (i : Nat) (a b : outsegyinfo)
    (hi : l[i]? = some a) : (l.modify (fun _ => b) i)[i]? = some b := by
  rw [List.getElem?_modify]
  simp [hi]

/-- A successful `writeTrace` adds one to the trace counter of the node and changes nothing else
in the fields the two builds share. -/
theorem xdr_writeTrace_ok (E : Env) (g g1 : Globals) (tp tp1 : segy) (fixed_length : Bool)
    (i : Nat) (info : outsegyinfo) (hp : g.infoptr = some i)
    (hi : g.outsegylist[i]? = some info)
    (h : writeTrace E g tp fixed_length = .ok (g1, tp1)) :
    cores g1 = (cores g).modify (fun n => { n with itr := n.itr + 1 }) i ∧
    g1.lastfp = info.outfp ∧ g1.infoptr = some i ∧
    ∀ x, x ≠ info.outfp → g1.files x = g.files x := by
  unfold writeTrace at h
  simp only [hp, hi] at h
  cases hx : (E.xdrhdrsub tp).bind (xdrPut { info with xdrpos := info.bufstart }) with
  | none => simp [hx] at h
  | some info1 =>
    simp only [hx] at h
    have hput : ∃ bytes, xdrPut { info with xdrpos := info.bufstart } bytes = some info1 := by
      cases hv : E.xdrhdrsub tp with
      | none => simp [hv] at hx
      | some bytes => exact ⟨bytes, by simpa [hv] using hx⟩
    obtain ⟨bytes, hput⟩ := hput
    have hc : core info1 = core info :=
      xdr_xdrPut_core { info with xdrpos := info.bufstart } info1 bytes hput
    have ho : info1.outfp = info.outfp := congrArg NoXDR.outsegyinfo.outfp hc
    have f1 := xdr_setNode_frame g i info info1 info.outfp hi hc
    have hi1 : (setNode g i (fun _ => info1)).outsegylist[i]? = some info1 :=
      xdr_getElem_modify_const g.outsegylist i info info1 hi
    cases hw : efwrite E (setNode g i (fun _ => info1)) info1.buf E.HDRBYTES info1.outfp with
    | none => simp [hw] at h
    | some q =>
      obtain ⟨g2, nw⟩ := q
      simp only [hw] at h
      have f2 := xdr_efwrite_frame E _ g2 _ _ _ _ hw
      rw [ho] at f2
      have hi2 : g2.outsegylist[i]? = some info1 := by rw [f2.1]; exact hi1
      by_cases hn : nw = E.HDRBYTES
      · simp only [hn, ne_eq, not_true_eq_false, if_false] at h
        cases hd : datawrite E g2 i tp fixed_length with
        | ok r =>
          obtain ⟨g3, tp2, k⟩ := r
          simp only [hd] at h
          have f3 := xdr_datawrite_frame E g2 g3 i tp tp2 fixed_length k info1 hi2 hd
          rw [ho] at f3
          have f := xdr_Frame_trans _ _ _ _ (xdr_Frame_trans _ _ _ _ f1 f2.2) f3
          generalize info1.bytesper * (if fixed_length = true then info1.nsfirst else tp.ns)
            = db at h
          by_cases hk : k = db
          · simp only [hk, ne_eq, not_true_eq_false, if_false, Res.ok.injEq,
              Prod.mk.injEq] at h
            obtain ⟨hg, _⟩ := h
            subst hg
            refine ⟨?_, ho, ?_, ?_⟩
            · show (List.modify _ i g3.outsegylist).map core = _
              rw [xdr_map_core_modify (fun n => { n with itr := n.itr + 1 })
                (fun n => { n with itr := n.itr + 1 }) (fun _ => rfl)]
              show List.modify _ i (cores g3) = _
              rw [f.1]
            · show g3.infoptr = some i
              rw [f.2.2.1, hp]
            · intro x hx'
              exact f.2.2.2.2 x hx'
          · simp [hk] at h
        | err e r =>
          obtain ⟨g3, tp2, k⟩ := r
          simp [hd] at h
        | fault r =>
          obtain ⟨g3, tp2, k⟩ := r
          simp [hd] at h
      · simp [hn] at h

/-- The new node after the initialisation block of the build with XDR. -/
theorem xdr_initStream_ok (E : Env) (g g1 : Globals) (fp : Nat) (tp : segy)
    (hs : g.oldinfoptr = some g.outsegylist.length) (h : initStream E g fp tp = .ok g1) :
    tp.ns ≤ E.SU_NFLTS ∧ E.filestat fp ≠ .DIRECTORY ∧ E.filestat fp ≠ .TTY ∧
    cores g1 = cores g ++
      [{ outfp := fp, itr := 0, nsfirst := tp.ns, bytesper := bytesperOf E tp.trid }] ∧
    g1.outsegylist.length = g.outsegylist.length + 1 ∧
    g1.lastfp = g.lastfp ∧ g1.infoptr = some g.outsegylist.length ∧ g1.files = g.files := by
  unfold initStream at h
  simp only [hs, List.take_length] at h
  have key : ∀ a : outsegyinfo, ∀ f1 f2 : outsegyinfo → outsegyinfo,
      List.modify f2 g.outsegylist.length
        (List.modify f1 g.outsegylist.length (g.outsegylist ++ [a]))
        = g.outsegylist ++ [f2 (f1 a)] := by
    intro a f1 f2
    induction g.outsegylist with
    | nil => simp
    | cons b t ih => simp [ih]
  by_cases hd : E.filestat fp = .DIRECTORY
  · simp [hd] at h
  · by_cases ht : E.filestat fp = .TTY
    · simp [ht] at h
    · simp only [hd, ht, if_false] at h
      by_cases hc : tp.ns > E.SU_NFLTS
      · simp [hc] at h
      · rw [if_neg hc] at h
        simp only [Res.ok.injEq] at h
        subst h
        refine ⟨Nat.le_of_not_gt hc, hd, ht, ?_, ?_, rfl, rfl, rfl⟩
        · simp only [setNode, cores, key]
          simp [core]
        · simp only [setNode, key]
          simp

/-- The destination test of the initialisation block of the build with XDR. -/
theorem xdr_initStream_config (E : Env) (g : Globals) (fp : Nat) (tp : segy) (slot : Nat)
    (hs : g.oldinfoptr = some slot) :
    (E.filestat fp = .DIRECTORY →
      ∃ g1, initStream E g fp tp = .err .outputIsDirectory g1 ∧ g1.files = g.files) ∧
    (E.filestat fp = .TTY →
      ∃ g1, initStream E g fp tp = .err .outputIsTty g1 ∧ g1.files = g.files) := by
  unfold initStream
  simp only [hs]
  constructor
  · intro hd
    rw [if_pos hd]
    exact ⟨_, rfl, rfl⟩
  · intro ht
    have hd : E.filestat fp ≠ .DIRECTORY := by rw [ht]; decide
    rw [if_neg hd, if_pos ht]
    exact ⟨_, rfl, rfl⟩

/-- The capacity test of the initialisation block of the build with XDR. -/
theorem xdr_initStream_capacity (E : Env) (g : Globals) (fp : Nat) (tp : segy) (slot : Nat)
    (hs : g.oldinfoptr = some slot) (hd : E.filestat fp ≠ .DIRECTORY)
    (ht : E.filestat fp ≠ .TTY) (hns : tp.ns > E.SU_NFLTS) :
    ∃ g1, initStream E g fp tp = .err (.tooManySamples tp.ns E.SU_NFLTS) g1 ∧
      g1.files = g.files := by
  unfold initStream
  simp only [hs]
  rw [if_neg hd, if_neg ht, if_pos hns]
  exact ⟨_, rfl, rfl⟩

theorem xdr_node_of_core (g : Globals) (i : Nat) (c : NoXDR.outsegyinfo)
    (h : (cores g)[i]? = some c) : ∃ info, g.outsegylist[i]? = some info ∧ core info = c := by
  rw [xdr_cores_getElem] at h
  cases hl : g.outsegylist[i]? with
  | none => simp [hl] at h
  | some info => exact ⟨info, rfl, by simpa [hl] using h⟩

theorem xdr_fputtr_internal_new_ok (E : Env) (g g1 : Globals) (fp : Nat) (tp tp1 : segy)
    (fixed_length : Bool) (hInv : Inv g) (hfp : fp ≠ NULL)
    (hnew : ∀ n ∈ cores g, n.outfp ≠ fp)
    (h : fputtr_internal E g fp tp fixed_length = .ok (g1, tp1)) :
    tp.ns ≤ E.SU_NFLTS ∧ E.filestat fp ≠ .DIRECTORY ∧ E.filestat fp ≠ .TTY ∧
    cores g1 = cores g ++
      [{ outfp := fp, itr := 1, nsfirst := tp.ns, bytesper := bytesperOf E tp.trid }] ∧
    g1.lastfp = fp ∧ g1.infoptr = some (cores g).length ∧
    ∀ x, x ≠ fp → g1.files x = g.files x := by
  obtain ⟨hr, hp, ho⟩ := xdr_resolve_new g fp hInv hfp hnew
  unfold fputtr_internal at h
  simp only [hr, hp] at h
  have ho' : (searchlist g fp).oldinfoptr = some (searchlist g fp).outsegylist.length := ho
  have hlen : (cores g).length = g.outsegylist.length := by simp [cores]
  cases hi : initStream E (searchlist g fp) fp tp with
  | ok g2 =>
    simp only [hi] at h
    have h2 := xdr_initStream_ok E (searchlist g fp) g2 fp tp ho' hi
    have hc2 : cores g2 = cores g ++
        [{ outfp := fp, itr := 0, nsfirst := tp.ns, bytesper := bytesperOf E tp.trid }] :=
      h2.2.2.2.1
    have hl : (cores g2)[g.outsegylist.length]? =
        some { outfp := fp, itr := 0, nsfirst := tp.ns, bytesper := bytesperOf E tp.trid } := by
      rw [hc2, ← hlen]
      simp
    obtain ⟨info, hinfo, hcore⟩ := xdr_node_of_core g2 _ _ hl
    have hout : info.outfp = fp := by
      have := congrArg NoXDR.outsegyinfo.outfp hcore
      exact this
    have hw := xdr_writeTrace_ok E g2 g1 tp tp1 fixed_length g.outsegylist.length info
      h2.2.2.2.2.2.2.1 hinfo h
    rw [hout] at hw
    refine ⟨h2.1, h2.2.1, h2.2.2.1, ?_, hw.2.1, ?_, ?_⟩
    · rw [hw.1, hc2, ← hlen]
      exact NoXDR.modify_append_length _ _ _
    · rw [hw.2.2.1, hlen]
    · intro x hx
      rw [hw.2.2.2 x hx, h2.2.2.2.2.2.2.2]
      rfl
  | err e s => simp [hi] at h
  | fault s => simp [hi] at h

theorem xdr_fputtr_internal_old_ok (E : Env) (g g1 : Globals) (fp i : Nat)
    (c : NoXDR.outsegyinfo) (tp tp1 : segy) (fixed_length : Bool) (hInv : Inv g)
    (hfp : fp ≠ NULL) (hi : (cores g)[i]? = some c) (hout : c.outfp = fp)
    (h : fputtr_internal E g fp tp fixed_length = .ok (g1, tp1)) :
    cores g1 = (cores g).modify (fun n => { n with itr := n.itr + 1 }) i ∧
    g1.lastfp = fp ∧ g1.infoptr = some i ∧
    ∀ x, x ≠ fp → g1.files x = g.files x := by
  have hr := xdr_resolve_existing g fp i c hInv hfp hi hout
  have hf := xdr_resolve_frame g fp
  obtain ⟨info, hinfo, hcore⟩ := xdr_node_of_core g i c hi
  have hio : info.outfp = fp := by
    have := congrArg NoXDR.outsegyinfo.outfp hcore
    exact this.trans hout
  have hi0 : (if fp ≠ g.lastfp then searchlist g fp else g).outsegylist[i]? = some info := by
    rw [hf.1]; exact hinfo
  have hc0 : cores (if fp ≠ g.lastfp then searchlist g fp else g) = cores g := by
    unfold cores; rw [hf.1]
  unfold fputtr_internal at h
  generalize (if fp ≠ g.lastfp then searchlist g fp else g) = g0 at hr hf hi0 hc0 h
  simp only [hr] at h
  have hw := xdr_writeTrace_ok E g0 g1 tp tp1 fixed_length i info hr hi0 h
  rw [hio, hc0, hf.2.1] at hw
  exact hw

/-- A stream either has a node or has none. -/
theorem xdr_node_cases (g : Globals) (fp : Nat) :
    (∃ (i : Nat) (c : NoXDR.outsegyinfo), (cores g)[i]? = some c ∧ c.outfp = fp) ∨
    (∀ n ∈ cores g, n.outfp ≠ fp) := by
  by_cases h : ∃ n ∈ cores g, n.outfp = fp
  · obtain ⟨n, hn, hfp⟩ := h
    obtain ⟨i, hi⟩ := List.getElem?_of_mem hn
    exact Or.inl ⟨i, n, hi, hfp⟩
  · right
    intro n hn hfp
    exact h ⟨n, hn, hfp⟩

/-- Every successful call keeps the registry consistent. -/
theorem xdr_Inv_step (E : Env) (g g1 : Globals) (fp : Nat) (tp tp1 : segy)
    (fixed_length : Bool) (hInv : Inv g) (hfp : fp ≠ NULL)
    (h : fputtr_internal E g fp tp fixed_length = .ok (g1, tp1)) : Inv g1 := by
  rcases xdr_node_cases g fp with ⟨i, c, hi, hout⟩ | hnew
  · have hk := xdr_fputtr_internal_old_ok E g g1 fp i c tp tp1 fixed_length hInv hfp hi hout h
    constructor
    · rw [hk.1, NoXDR.map_outfp_modify (fun n => { n with itr := n.itr + 1 }) (fun _ => rfl)]
      exact hInv.1
    · right
      rw [hk.2.2.1, hk.1, hk.2.1]
      simp [List.getElem?_modify, hi, hout]
  · have hk := xdr_fputtr_internal_new_ok E g g1 fp tp tp1 fixed_length hInv hfp hnew h
    constructor
    · rw [hk.2.2.2.1, List.map_append, List.nodup_append]
      refine ⟨hInv.1, by simp, ?_⟩
      intro a ha hb
      simp only [List.map_cons, List.map_nil, List.mem_singleton] at hb
      obtain ⟨n, hn, hna⟩ := List.mem_map.1 ha
      exact hnew n hn (by rw [hna, hb])
    · right
      rw [hk.2.2.2.2.2.1, hk.2.2.2.1, hk.2.2.2.2.1]
      simp

theorem xdr_Inv_init : Inv Globals.init := by
  constructor
  · exact List.nodup_nil
  · left; rfl

/-- The destination test on the first trace of a stream, build with XDR. -/
theorem xdr_fputtr_internal_new_config (E : Env) (g : Globals) (fp : Nat) (tp : segy)
    (fixed_length : Bool) (hInv : Inv g) (hfp : fp ≠ NULL)
    (hnew : ∀ n ∈ cores g, n.outfp ≠ fp) :
    (E.filestat fp = .DIRECTORY →
      ∃ g1, fputtr_internal E g fp tp fixed_length = .err .outputIsDirectory (g1, tp) ∧
        g1.files = g.files) ∧
    (E.filestat fp = .TTY →
      ∃ g1, fputtr_internal E g fp tp fixed_length = .err .outputIsTty (g1, tp) ∧
        g1.files = g.files) := by
  obtain ⟨hr, hp, ho⟩ := xdr_resolve_new g fp hInv hfp hnew
  have hc := xdr_initStream_config E (searchlist g fp) fp tp _ ho
  constructor
  · intro hd
    obtain ⟨g1, hi, hf⟩ := hc.1 hd
    refine ⟨g1, ?_, hf⟩
    unfold fputtr_internal
    simp only [hr, hp, hi]
  · intro ht
    obtain ⟨g1, hi, hf⟩ := hc.2 ht
    refine ⟨g1, ?_, hf⟩
    unfold fputtr_internal
    simp only [hr, hp, hi]

/-- The capacity test on the first trace of a stream, build with XDR. -/
theorem xdr_fputtr_internal_new_capacity (E : Env) (g : Globals) (fp : Nat) (tp : segy)
    (fixed_length : Bool) (hInv : Inv g) (hfp : fp ≠ NULL)
    (hnew : ∀ n ∈ cores g, n.outfp ≠ fp) (hd : E.filestat fp ≠ .DIRECTORY)
    (ht : E.filestat fp ≠ .TTY) (hns : tp.ns > E.SU_NFLTS) :
    ∃ g1, fputtr_internal E g fp tp fixed_length =
        .err (.tooManySamples tp.ns E.SU_NFLTS) (g1, tp) ∧ g1.files = g.files := by
  obtain ⟨hr, hp, ho⟩ := xdr_resolve_new g fp hInv hfp hnew
  obtain ⟨g1, hi, hf⟩ := xdr_initStream_capacity E (searchlist g fp) fp tp _ ho hd ht hns
  refine ⟨g1, ?_, hf⟩
  unfold fputtr_internal
  simp only [hr, hp, hi]

theorem xdr_Frozen_step (E : Env) (g g1 : Globals) (fp1 : Nat) (tp tp1 : segy)
    (fixed_length : Bool) (fp a b : Nat) (hInv : Inv g) (hfp : fp1 ≠ NULL)
    (h : fputtr_internal E g fp1 tp fixed_length = .ok (g1, tp1))
    (hfr : NoXDR.Frozen (cores g) fp a b) : NoXDR.Frozen (cores g1) fp a b := by
  rcases xdr_node_cases g fp1 with ⟨i, c, hi, hout⟩ | hnew
  · rw [(xdr_fputtr_internal_old_ok E g g1 fp1 i c tp tp1 fixed_length hInv hfp hi hout h).1]
    exact NoXDR.Frozen_modify _ _ _ _ _ hfr
  · rw [(xdr_fputtr_internal_new_ok E g g1 fp1 tp tp1 fixed_length hInv hfp hnew h).2.2.2.1]
    exact NoXDR.Frozen_append _ _ _ _ _ hfr hnew

theorem xdr_Frozen_run (E : Env) (fp a b : Nat) (cs : List Call) :
    ∀ (g g1 : Globals), Inv g → (∀ d ∈ cs, d.fp ≠ NULL) → run E g cs = .ok g1 →
      NoXDR.Frozen (cores g) fp a b → NoXDR.Frozen (cores g1) fp a b := by
  induction cs with
  | nil =>
    intro g g1 _ _ h hfr
    simp only [run, Res.ok.injEq] at h
    rw [← h]; exact hfr
  | cons c rest ih =>
    intro g g1 hInv hcs h hfr
    have hc := hcs c (List.mem_cons_self _ _)
    cases hres : fputtr_internal E g c.fp c.tp c.fixed_length with
    | ok r =>
      obtain ⟨g2, tp2⟩ := r
      simp only [run, hres] at h
      exact ih g2 g1 (xdr_Inv_step E g g2 c.fp c.tp tp2 c.fixed_length hInv hc hres)
        (fun d hd => hcs d (List.mem_cons_of_mem _ hd)) h
        (xdr_Frozen_step E g g2 c.fp c.tp tp2 c.fixed_length fp a b hInv hc hres hfr)
    | err e r =>
      obtain ⟨g2, tp2⟩ := r
      simp [run, hres] at h
    | fault r =>
      obtain ⟨g2, tp2⟩ := r
      simp [run, hres] at h

/-! ### The build with XDR: the errors a call can end in -/

theorem xdr_initStream_err (E : Env) (g s : Globals) (fp : Nat) (tp : segy) (e : SuErr)
    (h : initStream E g fp tp = .err e s) :
    (e = .outputIsDirectory ∧ E.filestat fp = .DIRECTORY) ∨
    (e = .outputIsTty ∧ E.filestat fp = .TTY) ∨
    e = .tooManySamples tp.ns E.SU_NFLTS := by
  unfold initStream at h
  cases ho : g.oldinfoptr with
  | none => simp [ho] at h
  | some slot =>
    simp only [ho] at h
    by_cases hd : E.filestat fp = .DIRECTORY
    · rw [if_pos hd] at h
      simp only [Res.err.injEq] at h
      exact Or.inl ⟨h.1.symm, hd⟩
    · rw [if_neg hd] at h
      by_cases ht : E.filestat fp = .TTY
      · rw [if_pos ht] at h
        simp only [Res.err.injEq] at h
        exact Or.inr (Or.inl ⟨h.1.symm, ht⟩)
      · rw [if_neg ht] at h
        by_cases hc : tp.ns > E.SU_NFLTS
        · simp only [hc, if_true, Res.err.injEq] at h
          exact Or.inr (Or.inr h.1.symm)
        · simp [hc] at h

theorem xdr_writeTrace_err (E : Env) (g : Globals) (s : Globals × segy) (tp : segy)
    (fixed_length : Bool) (e : SuErr) (h : writeTrace E g tp fixed_length = .err e s) :
    (∃ a, e = .hdrWrite a) ∨ (∃ a b c, e = .shortWrite a b c) := by
  unfold writeTrace at h
  cases hp : g.infoptr with
  | none => simp [hp] at h
  | some i =>
    simp only [hp] at h
    cases hi : g.outsegylist[i]? with
    | none => simp [hi] at h
    | some info =>
      simp only [hi] at h
      cases hx : (E.xdrhdrsub tp).bind (xdrPut { info with xdrpos := info.bufstart }) with
      | none =>
        simp only [hx, Res.err.injEq] at h
        exact Or.inl ⟨_, h.1.symm⟩
      | some info1 =>
        simp only [hx] at h
        cases hw : efwrite E (setNode g i (fun _ => info1)) info1.buf E.HDRBYTES
            info1.outfp with
        | none => simp [hw] at h
        | some q =>
          obtain ⟨g2, nw⟩ := q
          simp only [hw] at h
          by_cases hn : nw = E.HDRBYTES
          · simp only [hn, ne_eq, not_true_eq_false, if_false] at h
            generalize info1.bytesper * (if fixed_length = true then info1.nsfirst else tp.ns)
              = db at h
            cases hd : datawrite E g2 i tp fixed_length with
            | ok r =>
              obtain ⟨g3, tp2, k⟩ := r
              simp only [hd] at h
              by_cases hk : k = db
              · simp [hk] at h
              · simp only [ne_eq, hk, not_false_eq_true, if_true, Res.err.injEq] at h
                exact Or.inr ⟨_, _, _, h.1.symm⟩
            | err e1 r =>
              exact absurd hd (xdr_datawrite_no_err E g2 i tp fixed_length e1 r)
            | fault r =>
              obtain ⟨g3, tp2, k⟩ := r
              simp [hd] at h
          · simp only [ne_eq, hn, not_false_eq_true, if_true, Res.err.injEq] at h
            exact Or.inl ⟨_, h.1.symm⟩

/-- Build with XDR: the errors `fputtr_internal` can end in.  The sample count error is not
among them. -/
theorem xdr_fputtr_internal_err (E : Env) (g : Globals) (s : Globals × segy) (fp : Nat)
    (tp : segy) (fixed_length : Bool) (e : SuErr)
    (h : fputtr_internal E g fp tp fixed_length = .err e s) :
    (e = .outputIsDirectory ∧ E.filestat fp = .DIRECTORY) ∨
    (e = .outputIsTty ∧ E.filestat fp = .TTY) ∨
    e = .tooManySamples tp.ns E.SU_NFLTS ∨
    (∃ a, e = .hdrWrite a) ∨ (∃ a b c, e = .shortWrite a b c) := by
  unfold fputtr_internal at h
  generalize (if fp ≠ g.lastfp then searchlist g fp else g) = g0 at h
  have hw : ∀ g1, writeTrace E g1 tp fixed_length = .err e s →
      (e = .outputIsDirectory ∧ E.filestat fp = .DIRECTORY) ∨
      (e = .outputIsTty ∧ E.filestat fp = .TTY) ∨
      e = .tooManySamples tp.ns E.SU_NFLTS ∨
      (∃ a, e = .hdrWrite a) ∨ (∃ a b c, e = .shortWrite a b c) := by
    intro g1 h1
    rcases xdr_writeTrace_err E g1 s tp fixed_length e h1 with h2 | h2
    · exact Or.inr (Or.inr (Or.inr (Or.inl h2)))
    · exact Or.inr (Or.inr (Or.inr (Or.inr h2)))
  cases hp : g0.infoptr with
  | none =>
    simp only [hp] at h
    cases hi : initStream E g0 fp tp with
    | ok g1 =>
      simp only [hi] at h
      exact hw g1 h
    | err e1 s1 =>
      simp only [hi, Res.err.injEq] at h
      rw [← h.1]
      rcases xdr_initStream_err E g0 s1 fp tp e1 hi with h2 | h2 | h2
      · exact Or.inl h2
      · exact Or.inr (Or.inl h2)
      · exact Or.inr (Or.inr (Or.inl h2))
    | fault s1 => simp [hi] at h
  | some i =>
    simp only [hp] at h
    exact hw g0 h

end SUXDR

end SU

namespace SU

/-! ### The claims that involve the build with XDR -/

set_option maxRecDepth 10000 in
/-- C2 (the code does otherwise). Build with XDR: after a first trace with `ns = 500` on
stream 1, `fputtr` of a trace with `ns = 600` on the same stream returns normally; the trace
counter becomes 2, `nsfirst` stays 500, and the stream has received, for each of the two traces,
240 header bytes and `4 * 500` data bytes. -/
theorem xdr_fputtr_accepts_other_ns :
    (exampleTrace 600 1).ns ≠ (exampleTrace 500 1).ns ∧
    (SUXDR.fputtr exampleEnv
      (SUXDR.fputtr exampleEnv SUXDR.Globals.init 1 (exampleTrace 500 1)).state.1 1
      (exampleTrace 600 1)).isOk = true ∧
    SUXDR.cores (SUXDR.fputtr exampleEnv
      (SUXDR.fputtr exampleEnv SUXDR.Globals.init 1 (exampleTrace 500 1)).state.1 1
      (exampleTrace 600 1)).state.1 = [{ outfp := 1, itr := 2, nsfirst := 500, bytesper := 4 }] ∧
    ((SUXDR.fputtr exampleEnv
      (SUXDR.fputtr exampleEnv SUXDR.Globals.init 1 (exampleTrace 500 1)).state.1 1
      (exampleTrace 600 1)).state.1.files 1).length = 2 * (240 + 4 * 500) := by
  decide!

/-- C4 (as amended). A trace with `ns > SU_NFLTS` written, in either mode, to a stream
without a node: in the build without XDR the call ends in the "unable to handle" error (kind
`CapacityExceeded`); in the build with XDR it ends in that error when `filestat` reports neither a
directory nor a terminal, and in an error of kind `ConfigurationError` when it reports one of
them; in every case no stream has received a byte. -/
theorem capacity_rejected_on_first_write (E : Env) (g : NoXDR.Globals) (gx : SUXDR.Globals)
    (fp : Nat) (tp : segy) (fixed_length : Bool) (hInv : NoXDR.Inv g) (hInvx : SUXDR.Inv gx)
    (hfp : fp ≠ NULL) (hnew : ∀ n ∈ g.outsegylist, n.outfp ≠ fp)
    (hnewx : ∀ n ∈ SUXDR.cores gx, n.outfp ≠ fp) (hns : tp.ns > E.SU_NFLTS) :
    (SuErr.tooManySamples tp.ns E.SU_NFLTS).kind = .CapacityExceeded ∧
    (∃ g1, NoXDR.fputtr_internal E g fp tp fixed_length =
        .err (.tooManySamples tp.ns E.SU_NFLTS) g1 ∧ g1.files = g.files) ∧
    (E.filestat fp ≠ .DIRECTORY → E.filestat fp ≠ .TTY →
      ∃ g1, SUXDR.fputtr_internal E gx fp tp fixed_length =
        .err (.tooManySamples tp.ns E.SU_NFLTS) (g1, tp) ∧ g1.files = gx.files) ∧
    (E.filestat fp = .DIRECTORY ∨ E.filestat fp = .TTY →
      ∃ e g1, SUXDR.fputtr_internal E gx fp tp fixed_length = .err e (g1, tp) ∧
        e.kind = .ConfigurationError ∧ g1.files = gx.files) := by
  refine ⟨rfl, NoXDR.fputtr_internal_new_capacity E g fp tp fixed_length hInv hfp hnew hns,
    fun hd ht => SUXDR.xdr_fputtr_internal_new_capacity E gx fp tp fixed_length hInvx hfp hnewx
      hd ht hns, ?_⟩
  have hc := SUXDR.xdr_fputtr_internal_new_config E gx fp tp fixed_length hInvx hfp hnewx
  rintro (hd | ht)
  · obtain ⟨g1, h1, h2⟩ := hc.1 hd
    exact ⟨_, g1, h1, rfl, h2⟩
  · obtain ⟨g1, h1, h2⟩ := hc.2 ht
    exact ⟨_, g1, h1, rfl, h2⟩

/-- C4, witness: a trace with `ns = 32769 = SU_NFLTS + 1` written by `fputtr` to the disk file 1
at program start, in both builds. -/
theorem capacity_rejected_on_first_write_witness :
    (exampleTrace 32769 1).ns > exampleEnv.SU_NFLTS ∧
    (∃ g1, NoXDR.fputtr_internal exampleEnv NoXDR.Globals.init 1 (exampleTrace 32769 1) true =
        .err (.tooManySamples 32769 32768) g1 ∧ g1.files = NoXDR.Globals.init.files) ∧
    (∃ g1, SUXDR.fputtr_internal exampleEnv SUXDR.Globals.init 1 (exampleTrace 32769 1) true =
        .err (.tooManySamples 32769 32768) (g1, exampleTrace 32769 1) ∧
        g1.files = SUXDR.Globals.init.files) :=
  have h := capacity_rejected_on_first_write exampleEnv NoXDR.Globals.init SUXDR.Globals.init 1
    (exampleTrace 32769 1) true NoXDR.Inv_init SUXDR.xdr_Inv_init (by decide)
    (fun n hn => absurd hn (List.not_mem_nil n)) (fun n hn => absurd hn (List.not_mem_nil n))
    (by decide)
  ⟨by decide, h.2.1, h.2.2.1 (by decide) (by decide)⟩

/-- C4, counterexample to the claim as stated: in the build with XDR a first trace with
`ns = SU_NFLTS + 1` written to a stream that `filestat` reports as a terminal ends in the
"can't be tty" error, whose kind is not `CapacityExceeded`. -/
theorem xdr_capacity_on_tty_counterexample :
    (exampleTrace 32769 1).ns = exampleEnv.SU_NFLTS + 1 ∧
    exampleEnv.filestat 2 = FileType.TTY ∧
    (SUXDR.fputtr exampleEnv SUXDR.Globals.init 2 (exampleTrace 32769 1)).error?
      = some SuErr.outputIsTty ∧
    SuErr.outputIsTty.kind ≠ ErrorKind.CapacityExceeded := by
  decide!

/-- C7. In both builds: when a call writes the first trace `c.tp` of the stream `c.fp` and
any calls `cs` follow (either mode, any streams other than `NULL`, any `ns` and `trid`), and all
of them return normally, then the registry still has a node for `c.fp`, and every node for
`c.fp` holds `nsfirst = c.tp.ns` and the `bytesper` chosen from `c.tp.trid`. -/
theorem freeze_invariant (E : Env) (g : NoXDR.Globals) (gx : SUXDR.Globals) (c : Call)
    (cs : List Call) (hInv : NoXDR.Inv g) (hInvx : SUXDR.Inv gx)
    (hcs : ∀ d ∈ c :: cs, d.fp ≠ NULL) (hnew : ∀ n ∈ g.outsegylist, n.outfp ≠ c.fp)
    (hnewx : ∀ n ∈ SUXDR.cores gx, n.outfp ≠ c.fp) :
    (∀ g1, NoXDR.run E g (c :: cs) = .ok g1 →
      NoXDR.Frozen g1.outsegylist c.fp c.tp.ns (NoXDR.bytesperOf E c.tp.trid)) ∧
    (∀ g1, SUXDR.run E gx (c :: cs) = .ok g1 →
      NoXDR.Frozen (SUXDR.cores g1) c.fp c.tp.ns (SUXDR.bytesperOf E c.tp.trid)) := by
  have hc := hcs c (List.mem_cons_self _ _)
  have hrest : ∀ d ∈ cs, d.fp ≠ NULL := fun d hd => hcs d (List.mem_cons_of_mem _ hd)
  constructor
  · intro g1 h
    cases hres : NoXDR.fputtr_internal E g c.fp c.tp c.fixed_length with
    | ok g2 =>
      simp only [NoXDR.run, hres] at h
      have hk := NoXDR.fputtr_internal_new_ok E g g2 c.fp c.tp c.fixed_length hInv hc hnew hres
      refine NoXDR.Frozen_run E _ _ _ cs g2 g1
        (NoXDR.Inv_step E g g2 c.fp c.tp c.fixed_length hInv hc hres) hrest h ?_
      rw [hk.2.1]
      exact NoXDR.Frozen_first _ _ _ _ hnew
    | err e s => simp [NoXDR.run, hres] at h
    | fault s => simp [NoXDR.run, hres] at h
  · intro g1 h
    cases hres : SUXDR.fputtr_internal E gx c.fp c.tp c.fixed_length with
    | ok r =>
      obtain ⟨g2, tp2⟩ := r
      simp only [SUXDR.run, hres] at h
      have hk := SUXDR.xdr_fputtr_internal_new_ok E gx g2 c.fp c.tp tp2 c.fixed_length hInvx hc
        hnewx hres
      refine SUXDR.xdr_Frozen_run E _ _ _ cs g2 g1
        (SUXDR.xdr_Inv_step E gx g2 c.fp c.tp tp2 c.fixed_length hInvx hc hres) hrest h ?_
      rw [hk.2.2.2.1]
      exact NoXDR.Frozen_first _ _ _ _ hnewx
    | err e r =>
      obtain ⟨g2, tp2⟩ := r
      simp [SUXDR.run, hres] at h
    | fault r =>
      obtain ⟨g2, tp2⟩ := r
      simp [SUXDR.run, hres] at h

set_option maxRecDepth 10000 in
/-- C7, witness: on stream 1, `fvputtr` of a trace with 500 float samples, then of a trace with
600 samples and `trid = SHORTPACK`; both calls return normally in both builds, and the node keeps
`nsfirst = 500` and `bytesper = 4`. -/
theorem freeze_invariant_witness :
    (NoXDR.run exampleEnv NoXDR.Globals.init freezeCalls).isOk = true ∧
    (SUXDR.run exampleEnv SUXDR.Globals.init freezeCalls).isOk = true ∧
    (∀ g1, NoXDR.run exampleEnv NoXDR.Globals.init freezeCalls = .ok g1 →
      NoXDR.Frozen g1.outsegylist 1 500 4) ∧
    (∀ g1, SUXDR.run exampleEnv SUXDR.Globals.init freezeCalls = .ok g1 →
      NoXDR.Frozen (SUXDR.cores g1) 1 500 4) :=
  have h := freeze_invariant exampleEnv NoXDR.Globals.init SUXDR.Globals.init
    ⟨1, exampleTrace 500 1, false⟩ [⟨1, exampleTrace 600 202, false⟩]
    NoXDR.Inv_init SUXDR.xdr_Inv_init (by decide)
    (fun n hn => absurd hn (List.not_mem_nil n)) (fun n hn => absurd hn (List.not_mem_nil n))
  ⟨by decide!, by decide!, h.1, h.2⟩

set_option maxRecDepth 10000 in
/-- C8 (the code does otherwise). Build with XDR, host storing the low byte first: stream 1
has got its node from a first trace of two float samples (`bytesper = 4`).  A later trace with the
same two samples (data bytes `1, ..., 8`) is then written by `fputtr` with three values of `trid`;
all three calls return normally and the sample bytes the stream receives after the
`2 * 240 + 8` bytes before them are: the XDR floats for a float `trid`, the swapped byte pairs
for `SHORTPACK`, and for `CHARPACK` the bytes as they are followed by the swapped pairs. -/
theorem xdr_samples_follow_later_trid :
    SUXDR.cores (SUXDR.fputtr exampleEnv SUXDR.Globals.init 1 (exampleTrace 2 1)).state.1
      = [{ outfp := 1, itr := 1, nsfirst := 2, bytesper := 4 }] ∧
    (exampleTrace 2 202).data = (exampleTrace 2 1).data ∧
    (exampleTrace 2 201).data = (exampleTrace 2 1).data ∧
    (SUXDR.fputtr exampleEnv
      (SUXDR.fputtr exampleEnv SUXDR.Globals.init 1 (exampleTrace 2 1)).state.1 1
      (exampleTrace 2 1)).isOk = true ∧
    ((SUXDR.fputtr exampleEnv
      (SUXDR.fputtr exampleEnv SUXDR.Globals.init 1 (exampleTrace 2 1)).state.1 1
      (exampleTrace 2 1)).state.1.files 1).drop 488 = [4, 3, 2, 1, 8, 7, 6, 5] ∧
    (SUXDR.fputtr exampleEnv
      (SUXDR.fputtr exampleEnv SUXDR.Globals.init 1 (exampleTrace 2 1)).state.1 1
      (exampleTrace 2 202)).isOk = true ∧
    ((SUXDR.fputtr exampleEnv
      (SUXDR.fputtr exampleEnv SUXDR.Globals.init 1 (exampleTrace 2 1)).state.1 1
      (exampleTrace 2 202)).state.1.files 1).drop 488 = [2, 1, 4, 3, 6, 5, 8, 7] ∧
    (SUXDR.fputtr exampleEnv
      (SUXDR.fputtr exampleEnv SUXDR.Globals.init 1 (exampleTrace 2 1)).state.1 1
      (exampleTrace 2 201)).isOk = true ∧
    ((SUXDR.fputtr exampleEnv
      (SUXDR.fputtr exampleEnv SUXDR.Globals.init 1 (exampleTrace 2 1)).state.1 1
      (exampleTrace 2 201)).state.1.files 1).drop 488
      = [1, 2, 3, 4, 5, 6, 7, 8, 2, 1, 4, 3, 6, 5, 8, 7] := by
  refine ⟨by decide!, rfl, rfl, by decide!, by decide!, by decide!, by decide!, by decide!,
    by decide!⟩

end SU

namespace SU

namespace Subfilt

/-! ### The zero-phase adapters of `subfilt.c` -/

theorem swapAt_length {α : Type} (d : List α) (i j : Nat) : (swapAt d i j).length = d.length := by
  unfold swapAt
  split <;> simp

theorem getElem?_swapAt {α : Type} (d : List α) (i j : Nat) (hi : i < d.length)
    (hj : j < d.length) (m : Nat) :
    (swapAt d i j)[m]? = if m = j then d[i]? else if m = i then d[j]? else d[m]? := by
  unfold swapAt
  rw [List.getElem?_eq_getElem hi, List.getElem?_eq_getElem hj]
  simp only
  rw [List.getElem?_set, List.getElem?_set]
  by_cases h1 : m = j
  · subst h1
    simp [hj]
  · by_cases h2 : m = i
    · subst h2
      simp [h1, hi, Ne.symm h1]
    · simp [h1, h2, Ne.symm h1, Ne.symm h2]

/-- The array after `k` more iterations of the reversal loop that is at index `i`. -/
theorem revLoop_getElem? {α : Type} (n : Nat) :
    ∀ (k i : Nat) (d : List α), d.length = n → i + k ≤ n / 2 → ∀ m,
      (revLoop n k i d)[m]? =
        if (i ≤ m ∧ m < i + k) ∨ (n - (i + k) ≤ m ∧ m < n - i) then d[n - 1 - m]? else d[m]? := by
  intro k
  induction k with
  | zero =>
    intro i d _ _ m
    have : ¬ ((i ≤ m ∧ m < i + 0) ∨ (n - (i + 0) ≤ m ∧ m < n - i)) := by omega
    rw [if_neg this]
    rfl
  | succ k ih =>
    intro i d hd hik m
    have hi : i < d.length := by omega
    have hj : n - 1 - i < d.length := by omega
    show (revLoop n k (i + 1) (swapAt d i (n - 1 - i)))[m]? = _
    rw [ih (i + 1) (swapAt d i (n - 1 - i)) (by rw [swapAt_length]; exact hd) (by omega) m]
    rw [getElem?_swapAt d i (n - 1 - i) hi hj, getElem?_swapAt d i (n - 1 - i) hi hj]
    by_cases h1 : m = i
    · subst h1
      have c1 : ¬ ((m + 1 ≤ m ∧ m < m + 1 + k) ∨ (n - (m + 1 + k) ≤ m ∧ m < n - (m + 1))) := by
        omega
      have c2 : (m ≤ m ∧ m < m + (k + 1)) ∨ (n - (m + (k + 1)) ≤ m ∧ m < n - m) := by omega
      have c3 : m ≠ n - 1 - m := by omega
      rw [if_neg c1, if_pos c2, if_neg c3, if_pos rfl]
    · by_cases h2 : m = n - 1 - i
      · subst h2
        have c1 : ¬ ((i + 1 ≤ n - 1 - i ∧ n - 1 - i < i + 1 + k) ∨
            (n - (i + 1 + k) ≤ n - 1 - i ∧ n - 1 - i < n - (i + 1))) := by omega
        have c2 : (i ≤ n - 1 - i ∧ n - 1 - i < i + (k + 1)) ∨
            (n - (i + (k + 1)) ≤ n - 1 - i ∧ n - 1 - i < n - i) := by omega
        have c3 : n - 1 - (n - 1 - i) = i := by omega
        rw [if_neg c1, if_pos c2, if_pos rfl, c3]
      · by_cases c : (i ≤ m ∧ m < i + (k + 1)) ∨ (n - (i + (k + 1)) ≤ m ∧ m < n - i)
        · have c1 : (i + 1 ≤ m ∧ m < i + 1 + k) ∨
              (n - (i + 1 + k) ≤ m ∧ m < n - (i + 1)) := by omega
          have c3 : n - 1 - m ≠ n - 1 - i := by omega
          have c4 : n - 1 - m ≠ i := by omega
          rw [if_pos c1, if_pos c, if_neg c3, if_neg c4]
        · have c1 : ¬ ((i + 1 ≤ m ∧ m < i + 1 + k) ∨
              (n - (i + 1 + k) ≤ m ∧ m < n - (i + 1))) := by omega
          rw [if_neg c1, if_neg c, if_neg h2, if_neg h1]

/-- The reversal loop of the adapters gives the reversed array. -/
theorem reverseInPlace_eq_reverse {α : Type} (n : Nat) (d : List α) (hd : d.length = n) :
    reverseInPlace n d = d.reverse := by
  apply List.ext_getElem?
  intro m
  unfold reverseInPlace
  rw [revLoop_getElem? n (n / 2) 0 d hd (by omega) m]
  by_cases hm : m < n
  · rw [List.getElem?_reverse (by omega), hd]
    by_cases c : (0 ≤ m ∧ m < 0 + n / 2) ∨ (n - (0 + n / 2) ≤ m ∧ m < n - 0)
    · rw [if_pos c]
    · rw [if_neg c]
      have : n - 1 - m = m := by omega
      rw [this]
  · have c : ¬ ((0 ≤ m ∧ m < 0 + n / 2) ∨ (n - (0 + n / 2) ≤ m ∧ m < n - 0)) := by omega
    rw [if_neg c, List.getElem?_eq_none (by omega), List.getElem?_eq_none (by simp; omega)]

theorem callPrim_eq {α : Type} (bf : Prim α) (npoles : Int) (f3db : α) (n : Nat)
    (p q : List α) (hp : p.length = n) (hq : q.length = n)
    (hbf : (bf npoles f3db n p).length = n) :
    callPrim bf npoles f3db n p q = bf npoles f3db n p := by
  unfold callPrim
  rw [List.take_of_length_le (Nat.le_of_eq hp), List.take_of_length_le (Nat.le_of_eq hbf),
    List.drop_of_length_le (Nat.le_of_eq hq), List.append_nil]

/-- The common body of the two adapters, for a primitive that gives `nt` samples. -/
theorem adapter_data {α : Type} (bf : Prim α) (zerophase npoles : Int) (f3db : α) (nt : Nat)
    (x q : List α) (hx : x.length = nt) (hq : q.length = nt)
    (hbf : ∀ p : List α, p.length = nt → (bf npoles f3db nt p).length = nt) :
    (if zerophase ≠ 0 then
      reverseInPlace nt (callPrim bf npoles f3db nt
        (reverseInPlace nt (callPrim bf npoles f3db nt x q))
        (reverseInPlace nt (callPrim bf npoles f3db nt x q)))
    else callPrim bf npoles f3db nt x q) =
    if zerophase = 0 then bf npoles f3db nt x
    else (bf npoles f3db nt (bf npoles f3db nt x).reverse).reverse := by
  have h1 : callPrim bf npoles f3db nt x q = bf npoles f3db nt x :=
    callPrim_eq bf npoles f3db nt x q hx hq (hbf x hx)
  have l1 : (bf npoles f3db nt x).length = nt := hbf x hx
  have h2 : reverseInPlace nt (bf npoles f3db nt x) = (bf npoles f3db nt x).reverse :=
    reverseInPlace_eq_reverse nt _ l1
  have l2 : (bf npoles f3db nt x).reverse.length = nt := by rw [List.length_reverse]; exact l1
  have h3 : callPrim bf npoles f3db nt (bf npoles f3db nt x).reverse
      (bf npoles f3db nt x).reverse = bf npoles f3db nt (bf npoles f3db nt x).reverse :=
    callPrim_eq bf npoles f3db nt _ _ l2 l2 (hbf _ l2)
  have h4 : reverseInPlace nt (bf npoles f3db nt (bf npoles f3db nt x).reverse)
      = (bf npoles f3db nt (bf npoles f3db nt x).reverse).reverse :=
    reverseInPlace_eq_reverse nt _ (hbf _ l2)
  by_cases hz : zerophase = 0
  · rw [if_neg (by simp [hz]), if_pos hz, h1]
  · rw [if_pos hz, if_neg hz, h1, h2, h3, h4]

/-- C10. For every filter primitive `bf` that gives `nt` output samples for `nt` input
samples, every input trace holding `nt` samples `x`, and an output trace (the input trace itself
when `tr` is `NULL`) whose header says `nt` samples and whose array has `nt` samples: the samples
left in the output trace by `bfhighpass_trace` and by `bflowpass_trace` are `bf(x)` when
`zerophase = 0` and `reverse(bf(reverse(bf(x))))` otherwise; the reversals are the in-place
loops of the source, run in the order filter, reverse, filter, reverse. -/
theorem zerophase_adapter {α : Type} (bf : Prim α) (zerophase npoles : Int) (f3db : α)
    (nt : Nat) (tr_in : spy_trace α) (tr : Option (spy_trace α))
    (hin : tr_in.data.length = nt)
    (hout : match tr with
      | none => tr_in.n_sample = nt
      | some t => t.n_sample = nt ∧ t.data.length = nt)
    (hbf : ∀ p : List α, p.length = nt → (bf npoles f3db nt p).length = nt) :
    (bfhighpass_trace bf zerophase npoles f3db tr_in tr).data =
      (if zerophase = 0 then bf npoles f3db nt tr_in.data
       else (bf npoles f3db nt (bf npoles f3db nt tr_in.data).reverse).reverse) ∧
    (bflowpass_trace bf zerophase npoles f3db tr_in tr).data =
      (if zerophase = 0 then bf npoles f3db nt tr_in.data
       else (bf npoles f3db nt (bf npoles f3db nt tr_in.data).reverse).reverse) := by
  cases tr with
  | none =>
    simp only at hout
    have key := adapter_data bf zerophase npoles f3db nt tr_in.data tr_in.data hin hin hbf
    constructor
    · rw [← key]
      unfold bfhighpass_trace
      simp only [hout]
      by_cases hz : zerophase = 0 <;> simp [hz]
    · rw [← key]
      unfold bflowpass_trace
      simp only [hout]
      by_cases hz : zerophase = 0 <;> simp [hz]
  | some t =>
    simp only at hout
    have key := adapter_data bf zerophase npoles f3db nt tr_in.data t.data hin hout.2 hbf
    constructor
    · rw [← key]
      unfold bfhighpass_trace
      simp only [hout.1]
      by_cases hz : zerophase = 0 <;> simp [hz]
    · rw [← key]
      unfold bflowpass_trace
      simp only [hout.1]
      by_cases hz : zerophase = 0 <;> simp [hz]

theorem delay1_length (npoles f3db : Int) (nt : Nat) (p : List Int) (hp : p.length = nt) :
    (delay1 npoles f3db nt p).length = nt := by
  unfold delay1
  rw [List.length_take, List.length_cons, hp]
  omega

/-- C10, witness: the delay by one sample as the primitive, the impulse `0, 0, 1, 0, 0`
filtered in place (`tr = NULL`) with `zerophase = 1`: both adapters leave
`reverse(delay(reverse(delay(x))))`, which is the impulse at its place. -/
theorem zerophase_adapter_witness :
    (bfhighpass_trace delay1 1 4 0 ⟨5, [0, 0, 1, 0, 0]⟩ none).data =
      (delay1 4 0 5 (delay1 4 0 5 [0, 0, 1, 0, 0]).reverse).reverse ∧
    (bflowpass_trace delay1 1 4 0 ⟨5, [0, 0, 1, 0, 0]⟩ none).data =
      (delay1 4 0 5 (delay1 4 0 5 [0, 0, 1, 0, 0]).reverse).reverse ∧
    (delay1 4 0 5 (delay1 4 0 5 [0, 0, 1, 0, 0]).reverse).reverse = [0, 0, 1, 0, 0] :=
  have h := zerophase_adapter delay1 1 4 0 5 ⟨5, [0, 0, 1, 0, 0]⟩ none rfl rfl
    (fun p hp => delay1_length 4 0 5 p hp)
  ⟨h.1, h.2, by decide⟩

end Subfilt

end SU

namespace SU

namespace Subfilt

/-! ### The reversal loop -/

theorem reverseInPlace_length {α : Type} (n : Nat) (d : List α) (hd : d.length = n) :
    (reverseInPlace n d).length = n := by
  rw [reverseInPlace_eq_reverse n d hd, List.length_reverse, hd]

/-- C11. For every sequence `d`, of any length, the reversal loop of the adapters (swap
`data[i]` and `data[n-1 - i]` for `i = 0 .. n/2 - 1`, `n` the length of `d`) run twice gives
`d` back; so it does for the sequences of lengths 0, 1, 2, 3, 100 and 101. -/
theorem reversal_twice {α : Type} (d : List α) :
    reverseInPlace d.length (reverseInPlace d.length d) = d := by
  rw [reverseInPlace_eq_reverse d.length (reverseInPlace d.length d)
    (reverseInPlace_length d.length d rfl), reverseInPlace_eq_reverse d.length d rfl,
    List.reverse_reverse]

theorem revLoop_eq_foldl {α : Type} (nt : Nat) :
    ∀ (k i : Nat) (d : List α),
      revLoop nt k i d = (loopPairs nt k i).foldl (fun acc p => swapAt acc p.1 p.2) d := by
  intro k
  induction k with
  | zero => intro i d; rfl
  | succ k ih =>
    intro i d
    show revLoop nt k (i + 1) (swapAt d i (nt - 1 - i)) = _
    rw [ih (i + 1) (swapAt d i (nt - 1 - i))]
    rfl

theorem mem_loopPairs (nt : Nat) :
    ∀ (k i : Nat) (p : Nat × Nat),
      p ∈ loopPairs nt k i ↔ ∃ j, i ≤ j ∧ j < i + k ∧ p = (j, nt - 1 - j) := by
  intro k
  induction k with
  | zero =>
    intro i p
    simp only [loopPairs, List.not_mem_nil, false_iff]
    rintro ⟨j, h1, h2, _⟩
    omega
  | succ k ih =>
    intro i p
    simp only [loopPairs, List.mem_cons, ih (i + 1) p]
    constructor
    · rintro (h | ⟨j, h1, h2, h3⟩)
      · exact ⟨i, Nat.le_refl _, by omega, h⟩
      · exact ⟨j, by omega, by omega, h3⟩
    · rintro ⟨j, h1, h2, h3⟩
      by_cases hj : j = i
      · left; rw [h3, hj]
      · right; exact ⟨j, by omega, by omega, h3⟩

/-- The indices assigned to by `k` iterations from index `i` on are pairwise different, and they
lie in the first and in the last part of the array. -/
theorem loopPairs_writes (nt : Nat) :
    ∀ (k i : Nat), i + k ≤ nt / 2 →
      ((loopPairs nt k i).flatMap (fun p => [p.1, p.2])).Nodup ∧
      ∀ x ∈ (loopPairs nt k i).flatMap (fun p => [p.1, p.2]),
        (i ≤ x ∧ x < i + k) ∨ (nt - (i + k) ≤ x ∧ x < nt - i) := by
  intro k
  induction k with
  | zero =>
    intro i _
    exact ⟨List.nodup_nil, fun x hx => absurd hx (List.not_mem_nil x)⟩
  | succ k ih =>
    intro i hik
    obtain ⟨hnd, hrange⟩ := ih (i + 1) (by omega)
    have hlist : (loopPairs nt (k + 1) i).flatMap (fun p => [p.1, p.2])
        = i :: (nt - 1 - i) :: (loopPairs nt k (i + 1)).flatMap (fun p => [p.1, p.2]) := by
      simp [loopPairs]
    rw [hlist]
    constructor
    · rw [List.nodup_cons, List.nodup_cons]
      refine ⟨?_, ?_, hnd⟩
      · intro h
        rw [List.mem_cons] at h
        rcases h with h | h
        · omega
        · have := hrange i h
          omega
      · intro h
        have := hrange (nt - 1 - i) h
        omega
    · intro x hx
      rw [List.mem_cons, List.mem_cons] at hx
      rcases hx with h | h | h
      · omega
      · omega
      · have := hrange x h
        omega

/-- C18. For every array `d` of `n` samples, after the loop
`for (i = 0; i < n/2; ++i) swap d[i], d[n-1 - i]` the sample at every index `j < n` is the
sample `d` had at index `n-1 - j`.  The loop is the sequence of the swaps at the index pairs
`loopPairs`; the indices it assigns to are pairwise different, so no sample is swapped twice,
and for odd `n` the index `(n-1)/2` of the middle sample is not among them. -/
theorem reversal_loop_correct {α : Type} (d : List α) (n : Nat) (hd : d.length = n) :
    (∀ j, j < n → (reverseInPlace n d)[j]? = d[n - 1 - j]?) ∧
    reverseInPlace n d = (loopPairs n (n / 2) 0).foldl (fun acc p => swapAt acc p.1 p.2) d ∧
    (loopWrites n).Nodup ∧
    (n % 2 = 1 → (n - 1) / 2 ∉ loopWrites n) := by
  refine ⟨?_, revLoop_eq_foldl n (n / 2) 0 d, (loopPairs_writes n (n / 2) 0 (by omega)).1, ?_⟩
  · intro j hj
    rw [reverseInPlace_eq_reverse n d hd, List.getElem?_reverse (by omega), hd]
  · intro hodd hmem
    have := (loopPairs_writes n (n / 2) 0 (by omega)).2 _ hmem
    omega

/-- C18, witness: the array `1, 2, 3, 4, 5`; the loop swaps the pairs `(0, 4)` and `(1, 3)` and
leaves index 2 alone. -/
theorem reversal_loop_correct_witness :
    ([1, 2, 3, 4, 5] : List Nat).length = 5 ∧
    reverseInPlace 5 [1, 2, 3, 4, 5] = [5, 4, 3, 2, 1] ∧
    loopWrites 5 = [0, 4, 1, 3] ∧
    (∀ j, j < 5 → (reverseInPlace 5 [1, 2, 3, 4, 5])[j]? = [1, 2, 3, 4, 5][5 - 1 - j]?) ∧
    (5 - 1) / 2 ∉ loopWrites 5 :=
  have h := reversal_loop_correct [1, 2, 3, 4, 5] 5 rfl
  ⟨rfl, by decide, by decide, h.1, h.2.2.2 (by decide)⟩

/-- C20. For every sample count `nt` (so for every 16 bit one): the index pairs of the
reversal loops are the pairs `(i, nt-1 - i)` with `i < nt/2`; for each of them both indices are
below `nt`, they are different, and `nt-1 - i` computed in the integers is not negative.  For
`nt = 0` and `nt = 1` there is no pair: the loop body is not executed. -/
theorem reversal_indices_safe (nt : Nat) :
    (∀ p ∈ loopPairs nt (nt / 2) 0,
      p.1 < nt / 2 ∧ p.1 < nt ∧ p.2 < nt ∧ p.1 ≠ p.2 ∧
      (0 : Int) ≤ (nt : Int) - 1 - (p.1 : Int) ∧ (p.2 : Int) = (nt : Int) - 1 - (p.1 : Int)) ∧
    (∀ i, i < nt / 2 → (i, nt - 1 - i) ∈ loopPairs nt (nt / 2) 0) ∧
    (nt ≤ 1 → loopPairs nt (nt / 2) 0 = []) := by
  refine ⟨?_, ?_, ?_⟩
  · intro p hp
    obtain ⟨j, h1, h2, h3⟩ := (mem_loopPairs nt (nt / 2) 0 p).1 hp
    rw [h3]
    simp only
    omega
  · intro i hi
    exact (mem_loopPairs nt (nt / 2) 0 _).2 ⟨i, Nat.zero_le _, by omega, rfl⟩
  · intro h
    have h0 : nt / 2 = 0 := by omega
    rw [h0]
    rfl

/-- C20, witness: `nt = 5`, the second iteration, with the indices 1 and 3; and the largest
16 bit sample count, for which the first iteration uses the indices 0 and 65534. -/
theorem reversal_indices_safe_witness :
    loopPairs 5 (5 / 2) 0 = [(0, 4), (1, 3)] ∧
    ((1 : Nat) < 5 / 2 ∧ (1 : Nat) < 5 ∧ (3 : Nat) < 5 ∧ (1 : Nat) ≠ 3 ∧
      (0 : Int) ≤ ((5 : Nat) : Int) - 1 - ((1 : Nat) : Int) ∧
      ((3 : Nat) : Int) = ((5 : Nat) : Int) - 1 - ((1 : Nat) : Int)) ∧
    (0, 65535 - 1 - 0) ∈ loopPairs 65535 (65535 / 2) 0 ∧
    loopPairs 0 (0 / 2) 0 = [] ∧ loopPairs 1 (1 / 2) 0 = [] :=
  ⟨by decide, (reversal_indices_safe 5).1 (1, 3) (by decide),
    (reversal_indices_safe 65535).2.1 0 (by decide),
    (reversal_indices_safe 0).2.2 (by decide), (reversal_indices_safe 1).2.2 (by decide)⟩

/-! ### The adapters on an impulse -/

theorem impulse_getElem? (n k : Nat) (v : Int) (i : Nat) :
    (impulse n k v)[i]? = if i < n then some (if i = k then v else 0) else none := by
  unfold impulse
  rw [List.getElem?_map]
  by_cases h : i < n
  · rw [List.getElem?_range h, if_pos h]
    rfl
  · rw [List.getElem?_eq_none (by rw [List.length_range]; omega), if_neg h]
    rfl

theorem impulse_length (n k : Nat) (v : Int) : (impulse n k v).length = n := by
  simp [impulse]

theorem delay1_impulse (npoles f3db : Int) (n k : Nat) (v : Int) :
    delay1 npoles f3db n (impulse n k v) = impulse n (k + 1) v := by
  apply List.ext_getElem?
  intro i
  unfold delay1
  rw [List.getElem?_take, impulse_getElem?]
  by_cases hi : i < n
  · rw [if_pos hi, if_pos hi]
    cases i with
    | zero => simp
    | succ j =>
      rw [List.getElem?_cons_succ, impulse_getElem?, if_pos (by omega)]
      by_cases hj : j = k
      · simp [hj]
      · simp [hj]
  · rw [if_neg hi, if_neg hi]

theorem impulse_reverse (n k : Nat) (v : Int) (hk : k < n) :
    (impulse n k v).reverse = impulse n (n - 1 - k) v := by
  apply List.ext_getElem?
  intro i
  by_cases hi : i < n
  · rw [List.getElem?_reverse (by rw [impulse_length]; exact hi), impulse_length,
      impulse_getElem?, impulse_getElem?, if_pos (by omega), if_pos hi]
    by_cases h1 : n - 1 - i = k
    · rw [if_pos h1, if_pos (by omega)]
    · rw [if_neg h1, if_neg (by omega)]
  · rw [List.getElem?_eq_none (by rw [List.length_reverse, impulse_length]; omega),
      impulse_getElem?, if_neg hi]

theorem impulse_ne (n k : Nat) (v : Int) (hk : k + 1 < n) (hv : v ≠ 0) :
    impulse n k v ≠ impulse n (k + 1) v := by
  intro h
  have h1 : (impulse n k v)[k]? = some v := by
    rw [impulse_getElem?, if_pos (by omega), if_pos rfl]
  have h2 : (impulse n (k + 1) v)[k]? = some 0 := by
    rw [impulse_getElem?, if_pos (by omega), if_neg (by omega)]
  rw [h, h2] at h1
  exact hv (Option.some.inj h1).symm

/-- The samples the two adapters leave when the trace is filtered in place. -/
theorem adapter_inplace {α : Type} (bf : Prim α) (zerophase npoles : Int) (f3db : α)
    (nt : Nat) (x : List α) (hx : x.length = nt)
    (hbf : ∀ p : List α, p.length = nt → (bf npoles f3db nt p).length = nt) :
    (bfhighpass_trace bf zerophase npoles f3db ⟨nt, x⟩ none).data =
      (if zerophase = 0 then bf npoles f3db nt x
       else (bf npoles f3db nt (bf npoles f3db nt x).reverse).reverse) ∧
    (bflowpass_trace bf zerophase npoles f3db ⟨nt, x⟩ none).data =
      (if zerophase = 0 then bf npoles f3db nt x
       else (bf npoles f3db nt (bf npoles f3db nt x).reverse).reverse) := by
  have key := adapter_data bf zerophase npoles f3db nt x x hx hx hbf
  constructor
  · rw [← key]
    unfold bfhighpass_trace
    by_cases hz : zerophase = 0 <;> simp [hz]
  · rw [← key]
    unfold bflowpass_trace
    by_cases hz : zerophase = 0 <;> simp [hz]

/-- C12. With the delay by one sample as the causal filter, for every impulse of `n ≥ 2`
samples whose nonzero sample `v` is at an index `k < n-1`: both adapters, with `zerophase = 0`,
leave the impulse at index `k + 1`, and with `zerophase ≠ 0` they leave it at index `k`; the two
outputs are different. -/
theorem zerophase_differs_from_causal (n k : Nat) (v : Int) (zerophase npoles f3db : Int)
    (hk : k + 1 < n) (hv : v ≠ 0) (hz : zerophase ≠ 0) :
    (bfhighpass_trace delay1 0 npoles f3db ⟨n, impulse n k v⟩ none).data
      = impulse n (k + 1) v ∧
    (bfhighpass_trace delay1 zerophase npoles f3db ⟨n, impulse n k v⟩ none).data
      = impulse n k v ∧
    (bflowpass_trace delay1 0 npoles f3db ⟨n, impulse n k v⟩ none).data
      = impulse n (k + 1) v ∧
    (bflowpass_trace delay1 zerophase npoles f3db ⟨n, impulse n k v⟩ none).data
      = impulse n k v ∧
    impulse n k v ≠ impulse n (k + 1) v ∧
    (impulse n k v)[k]? = some v ∧ (impulse n (k + 1) v)[k + 1]? = some v := by
  have hlen : ∀ p : List Int, p.length = n → (delay1 npoles f3db n p).length = n :=
    fun p hp => delay1_length npoles f3db n p hp
  have hc := adapter_inplace delay1 0 npoles f3db n (impulse n k v) (impulse_length n k v) hlen
  have hzp := adapter_inplace delay1 zerophase npoles f3db n (impulse n k v)
    (impulse_length n k v) hlen
  rw [if_pos rfl, delay1_impulse npoles f3db n k v] at hc
  rw [if_neg hz, delay1_impulse npoles f3db n k v,
    impulse_reverse n (k + 1) v hk, delay1_impulse npoles f3db n (n - 1 - (k + 1)) v,
    impulse_reverse n (n - 1 - (k + 1) + 1) v (by omega)] at hzp
  have hidx : n - 1 - (n - 1 - (k + 1) + 1) = k := by omega
  rw [hidx] at hzp
  refine ⟨hc.1, hzp.1, hc.2, hzp.2, impulse_ne n k v hk hv, ?_, ?_⟩
  · rw [impulse_getElem?, if_pos (by omega), if_pos rfl]
  · rw [impulse_getElem?, if_pos hk, if_pos rfl]

/-- C12, witness: the impulse `0, 0, 1, 0, 0` (`n = 5`, `k = 2`): the causal output is
`0, 0, 0, 1, 0`, the zero-phase output is `0, 0, 1, 0, 0`. -/
theorem zerophase_differs_from_causal_witness :
    impulse 5 2 1 = [0, 0, 1, 0, 0] ∧ impulse 5 3 1 = [0, 0, 0, 1, 0] ∧
    (bfhighpass_trace delay1 0 4 0 ⟨5, impulse 5 2 1⟩ none).data = impulse 5 (2 + 1) 1 ∧
    (bfhighpass_trace delay1 1 4 0 ⟨5, impulse 5 2 1⟩ none).data = impulse 5 2 1 ∧
    impulse 5 2 1 ≠ impulse 5 (2 + 1) 1 :=
  have h := zerophase_differs_from_causal 5 2 1 1 4 0 (by decide) (by decide) (by decide)
  ⟨by decide, by decide, h.1, h.2.1, h.2.2.2.2.1⟩

end Subfilt

end SU

namespace SU

namespace SUXDR

theorem xdr_swab_cons_cons (a b : Nat) (rest : List Nat) (n : Nat) :
    swab (a :: b :: rest) (n + 2) = b :: a :: swab rest n := by
  simp [swab]

theorem xdr_swab_length (l : List Nat) (n : Nat) : (swab l n).length = l.length := by
  induction n using Nat.strong_induction_on generalizing l with
  | _ n ih =>
    match l, n with
    | a :: b :: rest, m + 2 =>
      rw [xdr_swab_cons_cons]
      simp [ih m (by omega) rest]
    | [], _ => simp [swab]
    | [_], _ => simp [swab]
    | _ :: _ :: _, 0 => simp [swab]
    | _ :: _ :: _, 1 => simp [swab]

theorem xdr_swab_pair (k : Nat) (l : List Nat) (n : Nat) (hk : 2 * k + 1 < n)
    (hn : n ≤ l.length) :
    (swab l n)[2 * k]? = l[2 * k + 1]? ∧ (swab l n)[2 * k + 1]? = l[2 * k]? := by
  induction k generalizing l n with
  | zero =>
    match l, n with
    | a :: b :: rest, m + 2 => rw [xdr_swab_cons_cons]; simp
    | [], _ => simp at hn; omega
    | [_], _ => simp at hn; omega
    | _ :: _ :: _, 0 => omega
    | _ :: _ :: _, 1 => omega
  | succ k ih =>
    match l, n with
    | a :: b :: rest, m + 2 =>
      rw [xdr_swab_cons_cons]
      have h := ih rest m (by omega) (by simp at hn; omega)
      have e1 : 2 * (k + 1) = (2 * k + 1) + 1 := by omega
      have e2 : 2 * (k + 1) + 1 = ((2 * k + 1) + 1) + 1 := by omega
      rw [e2, e1]
      simp only [List.getElem?_cons_succ]
      exact h
    | [], _ => simp at hn; omega
    | [_], _ => simp at hn; omega
    | _ :: _ :: _, 0 => omega
    | _ :: _ :: _, 1 => omega

theorem xdr_shortsImage_length (le : Bool) (vs : List Nat) :
    (shortsImage le vs).length = 2 * vs.length := by
  induction vs with
  | nil => rfl
  | cons v vs ih =>
    cases le <;> simp [shortsImage, ih] <;> omega

theorem xdr_swab_shortsImage (vs pad : List Nat) :
    swab (shortsImage true vs ++ pad) (2 * vs.length) = shortsImage false vs ++ pad := by
  induction vs with
  | nil => cases pad <;> simp [shortsImage, swab]
  | cons v vs ih =>
    have e : 2 * (v :: vs).length = 2 * vs.length + 2 := by simp; omega
    rw [e]
    simp only [shortsImage, if_true, List.cons_append, List.nil_append, Bool.false_eq_true,
      if_false]
    rw [xdr_swab_cons_cons, ih]

theorem xdr_writeShorts_accepts (E : Env) (g : Globals) (iptr : outsegyinfo) (tp : segy)
    (db : Nat) (hE : E.acceptsAll) (hlen : db ≤ tp.data.length) :
    ∃ g1, writeShorts E g iptr tp db
        = .ok (g1, (if E.ctest0 then { tp with data := swab tp.data db } else tp), db) ∧
      g1.files iptr.outfp = g.files iptr.outfp
        ++ (if E.ctest0 then swab tp.data db else tp.data).take db ∧
      (∀ x, x ≠ iptr.outfp → g1.files x = g.files x) ∧
      g1.outsegylist = g.outsegylist := by
  have hr : readable tp.data db = true := (readable_iff _ _).2 hlen
  unfold writeShorts
  simp only [hr, if_true]
  cases hc : E.ctest0 with
  | false =>
    simp only [Bool.false_eq_true, if_false]
    unfold efwrite
    simp only [hr, if_true, hE _ _ _, Nat.min_self]
    exact ⟨_, rfl, by simp, fun x hx => by simp [hx], rfl⟩
  | true =>
    simp only [if_true]
    have hr2 : readable (swab tp.data db) db = true :=
      (readable_iff _ _).2 (by rw [xdr_swab_length]; exact hlen)
    unfold efwrite
    simp only [hr2, if_true, hE _ _ _, Nat.min_self]
    exact ⟨_, rfl, by simp, fun x hx => by simp [hx], rfl⟩

end SUXDR

end SU

namespace SU

namespace SUXDR

theorem xdr_take_shortsImage (le : Bool) (vs pad : List Nat) :
    (shortsImage le vs ++ pad).take (2 * vs.length) = shortsImage le vs := by
  rw [← xdr_shortsImage_length le vs]
  exact List.take_left _ _

theorem xdr_datawrite_shorts (E : Env) (g : Globals) (i : Nat) (iptr : outsegyinfo) (tp : segy)
    (fixed_length : Bool) (hi : g.outsegylist[i]? = some iptr) (hc : tp.trid ≠ E.CHARPACK)
    (hs : tp.trid = E.SHORTPACK) :
    datawrite E g i tp fixed_length
      = writeShorts E g iptr tp
          (iptr.bytesper * (if fixed_length = true then iptr.nsfirst else tp.ns)) := by
  unfold datawrite
  simp only [hi]
  rw [if_neg hc, if_pos hs]

theorem xdr_onHost_ctest0 (E : Env) (le : Bool) : (E.onHost le).ctest0 = le := by
  cases le <;> rfl

theorem xdr_onHost_acceptsAll (E : Env) (le : Bool) (hE : E.acceptsAll) :
    (E.onHost le).acceptsAll :=
  fun fp len n => hE fp len n

theorem shortsTrace_data_length (le : Bool) (trid : Int) :
    (shortsTrace le trid).data.length = 131072 := by
  show (shortsImage le [258, 772] ++ List.replicate 131068 0).length = 131072
  rw [List.length_append, List.length_replicate, xdr_shortsImage_length]
  rfl

end SUXDR

set_option maxRecDepth 10000 in
/-- C13 (the code does otherwise). Build with XDR: the trace `charsTrace`, whose `trid` is
`CHARPACK` and whose four samples are the bytes `1, 2, 3, 4`, is the first trace written to
stream 1 by `fputtr`, so that the stream is frozen on one byte per sample.  The call returns
normally and the stream holds eight sample bytes after the 240 header bytes: the four bytes as
they are, followed by the same four bytes once more, with the bytes of each pair changed over on
a host storing the low byte first and as they are on a host storing the high byte first. -/
theorem xdr_charpack_written_twice :
    (charsTrace true).trid = exampleEnv.CHARPACK ∧
    (charsTrace true).data.take 4 = [1, 2, 3, 4] ∧
    (charsTrace false).data.take 4 = [1, 2, 3, 4] ∧
    (SUXDR.fputtr (exampleEnv.onHost true) SUXDR.Globals.init 1 (charsTrace true)).isOk = true ∧
    SUXDR.cores (SUXDR.fputtr (exampleEnv.onHost true) SUXDR.Globals.init 1
        (charsTrace true)).state.1
      = [{ outfp := 1, itr := 1, nsfirst := 4, bytesper := 1 }] ∧
    ((SUXDR.fputtr (exampleEnv.onHost true) SUXDR.Globals.init 1
        (charsTrace true)).state.1.files 1).drop 240 = [1, 2, 3, 4, 2, 1, 4, 3] ∧
    (SUXDR.fputtr (exampleEnv.onHost false) SUXDR.Globals.init 1 (charsTrace false)).isOk
      = true ∧
    SUXDR.cores (SUXDR.fputtr (exampleEnv.onHost false) SUXDR.Globals.init 1
        (charsTrace false)).state.1
      = [{ outfp := 1, itr := 1, nsfirst := 4, bytesper := 1 }] ∧
    ((SUXDR.fputtr (exampleEnv.onHost false) SUXDR.Globals.init 1
        (charsTrace false)).state.1.files 1).drop 240 = [1, 2, 3, 4, 1, 2, 3, 4] := by
  refine ⟨rfl, by decide!, by decide!, by decide!, by decide!, by decide!, by decide!,
    by decide!, by decide!⟩

/-- C14 (as amended). Build with XDR, host of byte order `le` (`true`: low byte first): the
probe `ctest[0]` on the `int` 1 is set exactly on the host storing the low byte first.  For a
trace whose `trid` is `SHORTPACK`, `datawrite` on a stream taking every byte returns the number
`db` of data bytes and appends to the stream the first `db` bytes of the data array with the two
bytes of every sample changed over when the host stores the low byte first, and as they are in
memory when it stores the high byte first. -/
theorem shortpack_swapped_on_little_endian (E : Env) (le : Bool) (g : SUXDR.Globals) (i : Nat)
    (iptr : SUXDR.outsegyinfo) (tp : segy) (fixed_length : Bool) (db : Nat)
    (hi : g.outsegylist[i]? = some iptr) (hs : tp.trid = E.SHORTPACK)
    (hc : E.SHORTPACK ≠ E.CHARPACK) (hE : E.acceptsAll)
    (hdb : db = iptr.bytesper * (if fixed_length = true then iptr.nsfirst else tp.ns))
    (hlen : db ≤ tp.data.length) :
    (E.onHost le).ctest0 = le ∧
    (hostProbe le = true ↔ (intImage le 1)[0]? = some 1) ∧
    (∃ g1 tp1, SUXDR.datawrite (E.onHost le) g i tp fixed_length = .ok (g1, tp1, db) ∧
      g1.files iptr.outfp = g.files iptr.outfp
        ++ (if le = true then SUXDR.swab tp.data db else tp.data).take db ∧
      ∀ x, x ≠ iptr.outfp → g1.files x = g.files x) ∧
    ∀ k, 2 * k + 1 < db →
      (SUXDR.swab tp.data db)[2 * k]? = tp.data[2 * k + 1]? ∧
      (SUXDR.swab tp.data db)[2 * k + 1]? = tp.data[2 * k]? := by
  refine ⟨SUXDR.xdr_onHost_ctest0 E le, by cases le <;> decide, ?_, ?_⟩
  · have hc2 : tp.trid ≠ (E.onHost le).CHARPACK := fun h => hc (hs.symm.trans h)
    have hd := SUXDR.xdr_datawrite_shorts (E.onHost le) g i iptr tp fixed_length hi hc2 hs
    rw [← hdb] at hd
    obtain ⟨g1, h1, h2, h3, _⟩ := SUXDR.xdr_writeShorts_accepts (E.onHost le) g iptr tp db
      (SUXDR.xdr_onHost_acceptsAll E le hE) hlen
    rw [SUXDR.xdr_onHost_ctest0] at h1 h2
    exact ⟨g1, _, hd.trans h1, h2, h3⟩
  · intro k hk
    exact SUXDR.xdr_swab_pair k tp.data db hk hlen

/-- C14, witness: the two samples `0x0102`, `0x0304` of `shortsTrace` written on a host storing
the low byte first. -/
theorem shortpack_swapped_on_little_endian_witness :
    ∃ g1 tp1, SUXDR.datawrite (exampleEnv.onHost true) shortsStateXDR 0 (shortsTrace true 202)
        true = .ok (g1, tp1, 4) ∧
      g1.files 1 = shortsStateXDR.files 1
        ++ (if true = true then SUXDR.swab (shortsTrace true 202).data 4
            else (shortsTrace true 202).data).take 4 :=
  have h := (shortpack_swapped_on_little_endian exampleEnv true shortsStateXDR 0
    { outfp := 1, itr := 1, nsfirst := 2, bytesper := 2, ftype := FileType.DISK,
      buf := List.replicate 1000 0, bufstart := 0, xdrpos := 0 }
    (shortsTrace true 202) true 4 rfl rfl (by decide) (fun _ _ _ => rfl) rfl
    (by rw [SUXDR.shortsTrace_data_length]; decide)).2.2.1
  h.elim fun g1 h1 => h1.elim fun tp1 h2 => ⟨g1, tp1, h2.1, h2.2.1⟩

set_option maxRecDepth 10000 in
/-- C14, counterexample to the claim as stated: the samples `0x0102`, `0x0304` written as the
first trace of stream 1.  On the host storing the low byte first the data array holds
`2, 1, 4, 3` and the stream receives `1, 2, 3, 4`, the bytes of each sample changed over; on the
host storing the high byte first the data array holds `1, 2, 3, 4` and the stream receives the
same bytes, not changed over. -/
theorem shortpack_swap_counterexample :
    hostProbe true = true ∧ hostProbe false = false ∧
    (shortsTrace true 202).data.take 4 = [2, 1, 4, 3] ∧
    ((SUXDR.fputtr (exampleEnv.onHost true) SUXDR.Globals.init 1
        (shortsTrace true 202)).state.1.files 1).drop 240 = [1, 2, 3, 4] ∧
    (shortsTrace false 202).data.take 4 = [1, 2, 3, 4] ∧
    ((SUXDR.fputtr (exampleEnv.onHost false) SUXDR.Globals.init 1
        (shortsTrace false 202)).state.1.files 1).drop 240 = [1, 2, 3, 4] := by
  refine ⟨by decide, by decide, by decide!, by decide!, by decide!, by decide!⟩

end SU

namespace SU

/-- C15 (as amended). The 16 bit samples `vs` lie in the data array of `tpLE` as on a host
storing the low byte first and in the data array of `tpBE` as on a host storing the high byte
first; both traces have `trid = SHORTPACK` and are written to a stream frozen on two bytes per
sample that takes every byte.  In the build with XDR `datawrite` appends the same bytes on both
hosts, each sample with its high byte first.  In the build without XDR `datawrite` appends the
memory image of the samples, so each sample with its low byte first on the one host and with its
high byte first on the other. -/
theorem shortpack_byte_order (E : Env) (vs padLE padBE : List Nat) (gx : SUXDR.Globals)
    (g : NoXDR.Globals) (i j : Nat) (nx : SUXDR.outsegyinfo) (n : NoXDR.outsegyinfo)
    (tpLE tpBE : segy) (fixed_length : Bool)
    (hLE : tpLE.data = shortsImage true vs ++ padLE)
    (hBE : tpBE.data = shortsImage false vs ++ padBE)
    (hnsLE : tpLE.ns = vs.length) (hnsBE : tpBE.ns = vs.length)
    (htLE : tpLE.trid = E.SHORTPACK) (htBE : tpBE.trid = E.SHORTPACK)
    (hne : E.SHORTPACK ≠ E.CHARPACK) (hE : E.acceptsAll)
    (hi : gx.outsegylist[i]? = some nx) (hbx : nx.bytesper = 2) (hfx : nx.nsfirst = vs.length)
    (hj : g.outsegylist[j]? = some n) (hb : n.bytesper = 2) (hf : n.nsfirst = vs.length) :
    (∃ g1 g2 t1 t2,
      SUXDR.datawrite (E.onHost true) gx i tpLE fixed_length = .ok (g1, t1, 2 * vs.length) ∧
      SUXDR.datawrite (E.onHost false) gx i tpBE fixed_length = .ok (g2, t2, 2 * vs.length) ∧
      g1.files nx.outfp = gx.files nx.outfp ++ shortsImage false vs ∧
      g2.files nx.outfp = gx.files nx.outfp ++ shortsImage false vs) ∧
    (∃ g1 g2,
      NoXDR.datawrite (E.onHost true) g tpLE j fixed_length = .ok g1 ∧
      NoXDR.datawrite (E.onHost false) g tpBE j fixed_length = .ok g2 ∧
      g1.files n.outfp = g.files n.outfp ++ shortsImage true vs ∧
      g2.files n.outfp = g.files n.outfp ++ shortsImage false vs) := by
  have hdbx : ∀ tp : segy, tp.ns = vs.length →
      nx.bytesper * (if fixed_length = true then nx.nsfirst else tp.ns) = 2 * vs.length := by
    intro tp h
    rw [hbx, hfx, h, ite_self]
  have hdb : ∀ tp : segy, tp.ns = vs.length →
      n.bytesper * (if fixed_length = true then n.nsfirst else tp.ns) = 2 * vs.length := by
    intro tp h
    rw [hb, hf, h, ite_self]
  have hlenLE : 2 * vs.length ≤ tpLE.data.length := by
    rw [hLE, List.length_append, SUXDR.xdr_shortsImage_length]; omega
  have hlenBE : 2 * vs.length ≤ tpBE.data.length := by
    rw [hBE, List.length_append, SUXDR.xdr_shortsImage_length]; omega
  constructor
  · have hc1 : tpLE.trid ≠ (E.onHost true).CHARPACK := fun h => hne (htLE.symm.trans h)
    have hc2 : tpBE.trid ≠ (E.onHost false).CHARPACK := fun h => hne (htBE.symm.trans h)
    have hd1 := SUXDR.xdr_datawrite_shorts (E.onHost true) gx i nx tpLE fixed_length hi hc1 htLE
    have hd2 := SUXDR.xdr_datawrite_shorts (E.onHost false) gx i nx tpBE fixed_length hi hc2 htBE
    rw [hdbx tpLE hnsLE] at hd1
    rw [hdbx tpBE hnsBE] at hd2
    obtain ⟨g1, h1, h2, _⟩ := SUXDR.xdr_writeShorts_accepts (E.onHost true) gx nx tpLE
      (2 * vs.length) (SUXDR.xdr_onHost_acceptsAll E true hE) hlenLE
    obtain ⟨g2, h3, h4, _⟩ := SUXDR.xdr_writeShorts_accepts (E.onHost false) gx nx tpBE
      (2 * vs.length) (SUXDR.xdr_onHost_acceptsAll E false hE) hlenBE
    rw [SUXDR.xdr_onHost_ctest0] at h1 h2 h3 h4
    refine ⟨g1, g2, _, _, hd1.trans h1, hd2.trans h3, ?_, ?_⟩
    · rw [h2, if_pos rfl, hLE, SUXDR.xdr_swab_shortsImage, SUXDR.xdr_take_shortsImage]
    · rw [h4, if_neg (by decide), hBE, SUXDR.xdr_take_shortsImage]
  · obtain ⟨g1, h1⟩ := NoXDR.datawrite_accepts (E.onHost true) g tpLE j fixed_length n hj
      (SUXDR.xdr_onHost_acceptsAll E true hE) (by rw [hdb tpLE hnsLE]; exact hlenLE)
    obtain ⟨g2, h2⟩ := NoXDR.datawrite_accepts (E.onHost false) g tpBE j fixed_length n hj
      (SUXDR.xdr_onHost_acceptsAll E false hE) (by rw [hdb tpBE hnsBE]; exact hlenBE)
    have k1 := (NoXDR.datawrite_ok (E.onHost true) g g1 tpLE j fixed_length n hj h1).2.2.2.2.1
    have k2 := (NoXDR.datawrite_ok (E.onHost false) g g2 tpBE j fixed_length n hj h2).2.2.2.2.1
    rw [hdb tpLE hnsLE, hLE, SUXDR.xdr_take_shortsImage] at k1
    rw [hdb tpBE hnsBE, hBE, SUXDR.xdr_take_shortsImage] at k2
    exact ⟨g1, g2, h1, h2, k1, k2⟩

/-- C15, witness: the samples `0x0102`, `0x0304` of `shortsTrace`, written to the stream of
`shortsStateXDR` and of `shortsStateNoXDR`. -/
theorem shortpack_byte_order_witness :
    (∃ g1 g2 t1 t2,
      SUXDR.datawrite (exampleEnv.onHost true) shortsStateXDR 0 (shortsTrace true 202) true
        = .ok (g1, t1, 2 * [258, 772].length) ∧
      SUXDR.datawrite (exampleEnv.onHost false) shortsStateXDR 0 (shortsTrace false 202) true
        = .ok (g2, t2, 2 * [258, 772].length) ∧
      g1.files 1 = shortsStateXDR.files 1 ++ shortsImage false [258, 772] ∧
      g2.files 1 = shortsStateXDR.files 1 ++ shortsImage false [258, 772]) ∧
    (∃ g1 g2,
      NoXDR.datawrite (exampleEnv.onHost true) shortsStateNoXDR (shortsTrace true 202) 0 true
        = .ok g1 ∧
      NoXDR.datawrite (exampleEnv.onHost false) shortsStateNoXDR (shortsTrace false 202) 0 true
        = .ok g2 ∧
      g1.files 1 = shortsStateNoXDR.files 1 ++ shortsImage true [258, 772] ∧
      g2.files 1 = shortsStateNoXDR.files 1 ++ shortsImage false [258, 772]) :=
  shortpack_byte_order exampleEnv [258, 772] (List.replicate 131068 0)
    (List.replicate 131068 0) shortsStateXDR shortsStateNoXDR 0 0
    { outfp := 1, itr := 1, nsfirst := 2, bytesper := 2, ftype := FileType.DISK,
      buf := List.replicate 1000 0, bufstart := 0, xdrpos := 0 }
    { outfp := 1, itr := 1, nsfirst := 2, bytesper := 2 }
    (shortsTrace true 202) (shortsTrace false 202) true rfl rfl rfl rfl rfl rfl (by decide)
    (fun _ _ _ => rfl) rfl rfl rfl rfl rfl rfl

set_option maxRecDepth 10000 in
/-- C15, counterexample to the claim as stated: build without XDR, the samples `0x0102`,
`0x0304` written by `fputtr` as the first trace of stream 1 with `trid = SHORTPACK`.  Both calls
return normally; after the 240 header bytes the stream holds `2, 1, 4, 3` when the trace comes
from a host storing the low byte first and `1, 2, 3, 4` when it comes from a host storing the
high byte first. -/
theorem noxdr_shortpack_host_order_counterexample :
    (shortsTrace true 202).data.take 4 = shortsImage true [258, 772] ∧
    (shortsTrace false 202).data.take 4 = shortsImage false [258, 772] ∧
    (NoXDR.fputtr (exampleEnv.onHost true) NoXDR.Globals.init 1 (shortsTrace true 202)).isOk
      = true ∧
    (NoXDR.fputtr (exampleEnv.onHost false) NoXDR.Globals.init 1 (shortsTrace false 202)).isOk
      = true ∧
    ((NoXDR.fputtr (exampleEnv.onHost true) NoXDR.Globals.init 1
        (shortsTrace true 202)).state.files 1).drop 240 = [2, 1, 4, 3] ∧
    ((NoXDR.fputtr (exampleEnv.onHost false) NoXDR.Globals.init 1
        (shortsTrace false 202)).state.files 1).drop 240 = [1, 2, 3, 4] := by
  refine ⟨by decide!, by decide!, by decide!, by decide!, by decide!, by decide!⟩

set_option maxRecDepth 10000 in
/-- C16 (the code does otherwise). Build with XDR on a host storing the low byte first.  The
trace `shortsTrace` with `trid = SHORTPACK`, whose data array starts with `2, 1, 4, 3`, is
written by `fputtr` as the first trace of stream 1: the call returns normally and the data array
of the caller's record starts with `1, 2, 3, 4` afterwards.  Writing the record the call has left
once more appends `2, 1, 4, 3` where the first call appended `1, 2, 3, 4`.  The same happens to
the record `charsTrace` with `trid = CHARPACK`, whose data `1, 2, 3, 4` is `2, 1, 4, 3`
afterwards.  With a float `trid` the record is left as it was. -/
theorem xdr_write_changes_callers_data :
    (shortsTrace true 202).data.take 4 = [2, 1, 4, 3] ∧
    (SUXDR.fputtr (exampleEnv.onHost true) SUXDR.Globals.init 1 (shortsTrace true 202)).isOk
      = true ∧
    (SUXDR.fputtr (exampleEnv.onHost true) SUXDR.Globals.init 1
        (shortsTrace true 202)).state.2.data.take 4 = [1, 2, 3, 4] ∧
    ((SUXDR.fputtr (exampleEnv.onHost true) SUXDR.Globals.init 1
        (shortsTrace true 202)).state.1.files 1).drop 240 = [1, 2, 3, 4] ∧
    ((SUXDR.fputtr (exampleEnv.onHost true)
        (SUXDR.fputtr (exampleEnv.onHost true) SUXDR.Globals.init 1
          (shortsTrace true 202)).state.1 1
        (SUXDR.fputtr (exampleEnv.onHost true) SUXDR.Globals.init 1
          (shortsTrace true 202)).state.2).state.1.files 1).drop 484 = [2, 1, 4, 3] ∧
    (charsTrace true).data.take 4 = [1, 2, 3, 4] ∧
    (SUXDR.fputtr (exampleEnv.onHost true) SUXDR.Globals.init 1 (charsTrace true)).isOk
      = true ∧
    (SUXDR.fputtr (exampleEnv.onHost true) SUXDR.Globals.init 1
        (charsTrace true)).state.2.data.take 4 = [2, 1, 4, 3] ∧
    (SUXDR.fputtr (exampleEnv.onHost true) SUXDR.Globals.init 1
        (shortsTrace true 1)).state.2.data.take 4 = (shortsTrace true 1).data.take 4 := by
  refine ⟨by decide!, by decide!, by decide!, by decide!, by decide!, by decide!, by decide!,
    by decide!, by decide!⟩

end SU

namespace SU

namespace NoXDR

/-! ### The trace counter -/

theorem countTo_append_single (pre : List Call) (c : Call) (x : Nat) :
    countTo (pre ++ [c]) x = countTo pre x + (if c.fp = x then 1 else 0) := by
  unfold countTo
  rw [List.countP_append]
  by_cases h : c.fp = x <;> simp [List.countP_cons, h]

theorem countTo_eq_zero (pre : List Call) (x : Nat) (h : ∀ d ∈ pre, d.fp ≠ x) :
    countTo pre x = 0 := by
  unfold countTo
  rw [List.countP_eq_zero]
  intro d hd
  simpa using h d hd

theorem mem_outfp_iff (l : List outsegyinfo) (x : Nat) :
    (∃ n ∈ l, n.outfp = x) ↔ x ∈ l.map (fun n => n.outfp) := by
  simp [List.mem_map]

theorem stepped_getElem (l l1 : List outsegyinfo) (fp ns b : Nat)
    (hnd : (l.map (fun n => n.outfp)).Nodup) (hs : Stepped l l1 fp ns b) (j : Nat)
    (n : outsegyinfo) (hj : l[j]? = some n) :
    (n.outfp ≠ fp → l1[j]? = some n) ∧
    (n.outfp = fp → l1[j]? = some { n with itr := n.itr + 1 }) := by
  rcases hs with ⟨i, info, hi, hout, h1⟩ | ⟨hnew, h1⟩
  · subst h1
    rw [List.getElem?_modify, hj]
    constructor
    · intro hne
      have hij : i ≠ j := by
        intro e
        subst e
        rw [hi] at hj
        exact hne ((Option.some.inj hj) ▸ hout)
      simp [hij]
    · intro he
      have hij : i = j := index_unique l i j info n hnd hi hj (hout.trans he.symm)
      simp [hij]
  · subst h1
    have hlt : j < l.length := by
      by_contra hc
      rw [List.getElem?_eq_none (by omega)] at hj
      exact absurd hj (by simp)
    constructor
    · intro _
      rw [List.getElem?_append_left hlt]
      exact hj
    · intro he
      exact absurd he (hnew n (List.getElem?_mem hj))

theorem stepped_counts (l l1 : List outsegyinfo) (pre : List Call) (c : Call) (ns b : Nat)
    (hnd : (l.map (fun n => n.outfp)).Nodup)
    (hcnt : ∀ n ∈ l, n.itr = countTo pre n.outfp)
    (hreg : ∀ d ∈ pre, ∃ n ∈ l, n.outfp = d.fp)
    (hs : Stepped l l1 c.fp ns b) :
    (∀ n ∈ l1, n.itr = countTo (pre ++ [c]) n.outfp) ∧
    (∀ d ∈ pre ++ [c], ∃ n ∈ l1, n.outfp = d.fp) := by
  rcases hs with ⟨i, info, hi, hout, h1⟩ | ⟨hnew, h1⟩
  · subst h1
    constructor
    · intro n hn
      obtain ⟨j, hj⟩ := List.getElem?_of_mem hn
      rw [List.getElem?_modify] at hj
      cases hm : l[j]? with
      | none => simp [hm] at hj
      | some m =>
        rw [hm] at hj
        simp only [Option.map_eq_map, Option.map_some', Option.some.injEq] at hj
        rw [countTo_append_single]
        by_cases hij : i = j
        · subst hij
          rw [hi] at hm
          have hmi : m = info := (Option.some.inj hm).symm
          subst hmi
          simp only [if_true] at hj
          subst hj
          simp only [hout, if_true]
          have := hcnt m (List.getElem?_mem hi)
          rw [hout] at this
          omega
        · simp only [hij, if_false] at hj
          subst hj
          have hne : c.fp ≠ m.outfp := by
            intro e
            exact hij (index_unique l i j info m hnd hi hm (hout.trans e))
          rw [if_neg hne]
          exact hcnt m (List.getElem?_mem hm)
    · intro d hd
      rw [mem_outfp_iff,
        map_outfp_modify (fun n => { n with itr := n.itr + 1 }) (fun _ => rfl),
        ← mem_outfp_iff]
      rcases List.mem_append.1 hd with h | h
      · exact hreg d h
      · rw [List.mem_singleton.1 h]
        exact ⟨info, List.getElem?_mem hi, hout⟩
  · subst h1
    constructor
    · intro n hn
      rw [countTo_append_single]
      rcases List.mem_append.1 hn with h | h
      · have hne : c.fp ≠ n.outfp := fun e => hnew n h e.symm
        rw [if_neg hne]
        exact hcnt n h
      · rw [List.mem_singleton.1 h]
        simp only [if_true]
        rw [countTo_eq_zero]
        intro d hd e
        obtain ⟨m, hm, hmd⟩ := hreg d hd
        exact hnew m hm (hmd.trans e)
    · intro d hd
      rcases List.mem_append.1 hd with h | h
      · obtain ⟨m, hm, hmd⟩ := hreg d h
        exact ⟨m, List.mem_append_left _ hm, hmd⟩
      · rw [List.mem_singleton.1 h]
        exact ⟨_, List.mem_append_right _ (List.mem_singleton_self _), rfl⟩

theorem fputtr_internal_stepped (E : Env) (g g1 : Globals) (fp : Nat) (tp : segy)
    (fixed_length : Bool) (hInv : Inv g) (hfp : fp ≠ NULL)
    (h : fputtr_internal E g fp tp fixed_length = .ok g1) :
    Stepped g.outsegylist g1.outsegylist fp tp.ns (bytesperOf E tp.trid) := by
  rcases node_cases g fp with ⟨i, info, hi, hout⟩ | hnew
  · exact Or.inl ⟨i, info, hi, hout,
      (fputtr_internal_old_ok E g g1 fp i info tp fixed_length hInv hfp hi hout h).2.1⟩
  · exact Or.inr ⟨hnew,
      (fputtr_internal_new_ok E g g1 fp tp fixed_length hInv hfp hnew h).2.1⟩

theorem counts_run (E : Env) (suf : List Call) :
    ∀ (g g1 : Globals) (pre : List Call), Inv g →
      (∀ n ∈ g.outsegylist, n.itr = countTo pre n.outfp) →
      (∀ d ∈ pre, ∃ n ∈ g.outsegylist, n.outfp = d.fp) →
      (∀ c ∈ suf, c.fp ≠ NULL) → run E g suf = .ok g1 →
      Inv g1 ∧ (∀ n ∈ g1.outsegylist, n.itr = countTo (pre ++ suf) n.outfp) ∧
      (∀ d ∈ pre ++ suf, ∃ n ∈ g1.outsegylist, n.outfp = d.fp) := by
  induction suf with
  | nil =>
    intro g g1 pre hInv hcnt hreg _ h
    simp only [run, Res.ok.injEq] at h
    subst h
    rw [List.append_nil]
    exact ⟨hInv, hcnt, hreg⟩
  | cons c cs ih =>
    intro g g1 pre hInv hcnt hreg hcs h
    have hfp : c.fp ≠ NULL := hcs c (List.mem_cons_self _ _)
    cases hres : fputtr_internal E g c.fp c.tp c.fixed_length with
    | ok g2 =>
      simp only [run, hres] at h
      have hst := fputtr_internal_stepped E g g2 c.fp c.tp c.fixed_length hInv hfp hres
      have hc := stepped_counts _ _ pre c _ _ hInv.1 hcnt hreg hst
      have := ih g2 g1 (pre ++ [c])
        (Inv_step E g g2 c.fp c.tp c.fixed_length hInv hfp hres) hc.1 hc.2
        (fun d hd => hcs d (List.mem_cons_of_mem _ hd)) h
      rw [List.append_assoc] at this
      exact this
    | err e s => simp [run, hres] at h
    | fault s => simp [run, hres] at h

/-! ### The nodes after a call that ends in an error -/

theorem datawrite_err_state (E : Env) (g s : Globals) (tp : segy) (i : Nat)
    (fixed_length : Bool) (e : SuErr) (h : datawrite E g tp i fixed_length = .err e s) :
    s.outsegylist = g.outsegylist := by
  unfold datawrite at h
  cases hi : g.outsegylist[i]? with
  | none => simp [hi] at h
  | some iptr =>
    simp only [hi] at h
    generalize iptr.bytesper * (if fixed_length = true then iptr.nsfirst else tp.ns) = db at h
    cases hw : efwrite E g tp.data db iptr.outfp with
    | none => simp [hw] at h
    | some q =>
      obtain ⟨g2, nw⟩ := q
      simp only [hw] at h
      have hf := (efwrite_frame E g g2 _ _ _ _ hw).1
      by_cases hn : nw = db
      · simp [hn] at h
      · simp only [ne_eq, hn, not_false_eq_true, if_true] at h
        cases hc : g2.infoptr.bind (fun j => g2.outsegylist[j]?) with
        | none => simp [hc] at h
        | some cur =>
          simp only [hc, Res.err.injEq] at h
          rw [← h.2]
          exact hf

theorem writeTrace_err_state (E : Env) (g s : Globals) (tp : segy) (fixed_length : Bool)
    (e : SuErr) (h : writeTrace E g tp fixed_length = .err e s) :
    s.outsegylist = g.outsegylist := by
  unfold writeTrace at h
  cases hp : g.infoptr with
  | none => simp [hp] at h
  | some i =>
    simp only [hp] at h
    cases hi : g.outsegylist[i]? with
    | none => simp [hi] at h
    | some info =>
      simp only [hi] at h
      by_cases hc : tp.ns ≠ info.nsfirst ∧ fixed_length = true
      · rw [if_pos hc] at h
        simp only [Res.err.injEq] at h
        rw [← h.2]
      · rw [if_neg hc] at h
        cases hw : efwrite E g (tp.hdr ++ tp.data) E.HDRBYTES info.outfp with
        | none => simp [hw] at h
        | some q =>
          obtain ⟨g2, k⟩ := q
          simp only [hw] at h
          have hf := (efwrite_frame E g g2 _ _ _ _ hw).1
          cases hd : datawrite E g2 tp i fixed_length with
          | ok g3 => simp [hd] at h
          | err e1 s1 =>
            simp only [hd, Res.err.injEq] at h
            rw [← h.2, datawrite_err_state E g2 s1 tp i fixed_length e1 hd]
            exact hf
          | fault s1 => simp [hd] at h

theorem initStream_err_state (E : Env) (g s : Globals) (fp : Nat) (tp : segy) (e : SuErr)
    (hs : g.oldinfoptr = some g.outsegylist.length) (h : initStream E g fp tp = .err e s) :
    s.outsegylist = g.outsegylist ++
      [{ outfp := fp, itr := 0, nsfirst := tp.ns, bytesper := 0 }] := by
  unfold initStream at h
  simp only [hs, List.take_length] at h
  by_cases hc : tp.ns > E.SU_NFLTS
  · simp only [hc, if_true, Res.err.injEq] at h
    rw [← h.2]
  · rw [if_neg hc] at h
    by_cases hp : E.getparint_lheader.getD 0 = 0
    · simp [hp] at h
    · simp only [ne_eq, hp, not_false_eq_true, if_true] at h
      exact absurd h (writeLineHdr_no_err _ _ _ _ _ _)

theorem fputtr_internal_unadvanced (E : Env) (g s : Globals) (fp : Nat) (tp : segy)
    (fixed_length : Bool) (e : SuErr) (hInv : Inv g) (hfp : fp ≠ NULL)
    (h : fputtr_internal E g fp tp fixed_length = .err e s) :
    Unadvanced g.outsegylist s.outsegylist fp := by
  have hfr := resolve_frame g fp
  rcases node_cases g fp with ⟨i, info, hi, hout⟩ | hnew
  · have hp := resolve_existing g fp i info hInv hfp hi hout
    unfold fputtr_internal at h
    generalize (if fp ≠ g.lastfp then searchlist g fp else g) = g0 at h hp hfr
    simp only [hp] at h
    exact Or.inl ((writeTrace_err_state E g0 s tp fixed_length e h).trans hfr.1)
  · obtain ⟨h0, hp, ho⟩ := resolve_new g fp hInv hfp hnew
    unfold fputtr_internal at h
    rw [h0] at h
    simp only [hp] at h
    have hl : (searchlist g fp).outsegylist = g.outsegylist := rfl
    cases hi : initStream E (searchlist g fp) fp tp with
    | ok g1 =>
      simp only [hi] at h
      have h1 := (initStream_ok E (searchlist g fp) g1 fp tp (by rw [hl]; exact ho) hi).2.1
      refine Or.inr ⟨hnew, tp.ns, bytesperOf E tp.trid, ?_⟩
      rw [writeTrace_err_state E g1 s tp fixed_length e h, h1, hl]
    | err e1 s1 =>
      simp only [hi, Res.err.injEq] at h
      refine Or.inr ⟨hnew, tp.ns, 0, ?_⟩
      rw [← h.2, initStream_err_state E (searchlist g fp) s1 fp tp e1 (by rw [hl]; exact ho) hi,
        hl]
    | fault s1 => simp [hi] at h

end NoXDR

end SU

namespace SU

namespace SUXDR

/-! ### The trace counter in the build with XDR -/

theorem xdr_fputtr_internal_stepped (E : Env) (g g1 : Globals) (fp : Nat) (tp tp1 : segy)
    (fixed_length : Bool) (hInv : Inv g) (hfp : fp ≠ NULL)
    (h : fputtr_internal E g fp tp fixed_length = .ok (g1, tp1)) :
    NoXDR.Stepped (cores g) (cores g1) fp tp.ns (bytesperOf E tp.trid) := by
  rcases xdr_node_cases g fp with ⟨i, c, hi, hout⟩ | hnew
  · exact Or.inl ⟨i, c, hi, hout,
      (xdr_fputtr_internal_old_ok E g g1 fp i c tp tp1 fixed_length hInv hfp hi hout h).1⟩
  · exact Or.inr ⟨hnew,
      (xdr_fputtr_internal_new_ok E g g1 fp tp tp1 fixed_length hInv hfp hnew h).2.2.2.1⟩

theorem xdr_counts_run (E : Env) (suf : List Call) :
    ∀ (g g1 : Globals) (pre : List Call), Inv g →
      (∀ n ∈ cores g, n.itr = countTo pre n.outfp) →
      (∀ d ∈ pre, ∃ n ∈ cores g, n.outfp = d.fp) →
      (∀ c ∈ suf, c.fp ≠ NULL) → run E g suf = .ok g1 →
      Inv g1 ∧ (∀ n ∈ cores g1, n.itr = countTo (pre ++ suf) n.outfp) ∧
      (∀ d ∈ pre ++ suf, ∃ n ∈ cores g1, n.outfp = d.fp) := by
  induction suf with
  | nil =>
    intro g g1 pre hInv hcnt hreg _ h
    simp only [run, Res.ok.injEq] at h
    subst h
    rw [List.append_nil]
    exact ⟨hInv, hcnt, hreg⟩
  | cons c cs ih =>
    intro g g1 pre hInv hcnt hreg hcs h
    have hfp : c.fp ≠ NULL := hcs c (List.mem_cons_self _ _)
    cases hres : fputtr_internal E g c.fp c.tp c.fixed_length with
    | ok r =>
      obtain ⟨g2, tp2⟩ := r
      simp only [run, hres] at h
      have hst := xdr_fputtr_internal_stepped E g g2 c.fp c.tp tp2 c.fixed_length hInv hfp hres
      have hc := NoXDR.stepped_counts _ _ pre c _ _ hInv.1 hcnt hreg hst
      have := ih g2 g1 (pre ++ [c])
        (xdr_Inv_step E g g2 c.fp c.tp tp2 c.fixed_length hInv hfp hres) hc.1 hc.2
        (fun d hd => hcs d (List.mem_cons_of_mem _ hd)) h
      rw [List.append_assoc] at this
      exact this
    | err e r =>
      obtain ⟨g2, tp2⟩ := r
      simp [run, hres] at h
    | fault r =>
      obtain ⟨g2, tp2⟩ := r
      simp [run, hres] at h

theorem xdr_writeTrace_err_state (E : Env) (g : Globals) (s : Globals × segy) (tp : segy)
    (fixed_length : Bool) (e : SuErr) (h : writeTrace E g tp fixed_length = .err e s) :
    cores s.1 = cores g := by
  unfold writeTrace at h
  cases hp : g.infoptr with
  | none => simp [hp] at h
  | some i =>
    simp only [hp] at h
    cases hi : g.outsegylist[i]? with
    | none => simp [hi] at h
    | some info =>
      simp only [hi] at h
      cases hx : (E.xdrhdrsub tp).bind (xdrPut { info with xdrpos := info.bufstart }) with
      | none =>
        simp only [hx, Res.err.injEq] at h
        rw [← h.2]
      | some info1 =>
        simp only [hx] at h
        have hput : ∃ bytes, xdrPut { info with xdrpos := info.bufstart } bytes = some info1 := by
          cases hv : E.xdrhdrsub tp with
          | none => simp [hv] at hx
          | some bytes => exact ⟨bytes, by simpa [hv] using hx⟩
        obtain ⟨bytes, hput⟩ := hput
        have hc : core info1 = core info :=
          xdr_xdrPut_core { info with xdrpos := info.bufstart } info1 bytes hput
        have f1 := xdr_setNode_frame g i info info1 info.outfp hi hc
        have hi1 : (setNode g i (fun _ => info1)).outsegylist[i]? = some info1 :=
          xdr_getElem_modify_const g.outsegylist i info info1 hi
        cases hw : efwrite E (setNode g i (fun _ => info1)) info1.buf E.HDRBYTES
            info1.outfp with
        | none => simp [hw] at h
        | some q =>
          obtain ⟨g2, nw⟩ := q
          simp only [hw] at h
          have f2 := xdr_efwrite_frame E _ g2 _ _ _ _ hw
          have hi2 : g2.outsegylist[i]? = some info1 := by rw [f2.1]; exact hi1
          by_cases hn : nw = E.HDRBYTES
          · simp only [hn, ne_eq, not_true_eq_false, if_false] at h
            generalize info1.bytesper * (if fixed_length = true then info1.nsfirst else tp.ns)
              = db at h
            cases hd : datawrite E g2 i tp fixed_length with
            | ok r =>
              obtain ⟨g3, tp2, k⟩ := r
              simp only [hd] at h
              have f3 := xdr_datawrite_frame E g2 g3 i tp tp2 fixed_length k info1 hi2 hd
              by_cases hk : k = db
              · simp [hk] at h
              · simp only [ne_eq, hk, not_false_eq_true, if_true, Res.err.injEq] at h
                rw [← h.2]
                exact f3.1.trans (f2.2.1.trans f1.1)
            | err e1 r =>
              exact absurd hd (xdr_datawrite_no_err E g2 i tp fixed_length e1 r)
            | fault r =>
              obtain ⟨g3, tp2, k⟩ := r
              simp [hd] at h
          · simp only [ne_eq, hn, not_false_eq_true, if_true, Res.err.injEq] at h
            rw [← h.2]
            exact f2.2.1.trans f1.1

theorem xdr_modify_append_length (f : outsegyinfo → outsegyinfo) (l : List outsegyinfo)
    (a : outsegyinfo) : (l ++ [a]).modify f l.length = l ++ [f a] := by
  induction l with
  | nil => simp
  | cons b t ih => simp [ih]

theorem xdr_initStream_err_state (E : Env) (g s : Globals) (fp : Nat) (tp : segy) (e : SuErr)
    (hs : g.oldinfoptr = some g.outsegylist.length) (h : initStream E g fp tp = .err e s) :
    ∃ a, cores s = cores g ++ [{ outfp := fp, itr := 0, nsfirst := a, bytesper := 0 }] := by
  unfold initStream at h
  simp only [hs, List.take_length] at h
  by_cases hd : E.filestat fp = .DIRECTORY
  · rw [if_pos hd] at h
    simp only [Res.err.injEq] at h
    rw [← h.2]
    exact ⟨0, by simp [cores, core]⟩
  · rw [if_neg hd] at h
    by_cases ht : E.filestat fp = .TTY
    · rw [if_pos ht] at h
      simp only [Res.err.injEq] at h
      rw [← h.2]
      exact ⟨0, by simp [cores, core]⟩
    · rw [if_neg ht] at h
      by_cases hc : tp.ns > E.SU_NFLTS
      · simp only [hc, if_true, Res.err.injEq] at h
        rw [← h.2]
        refine ⟨tp.ns, ?_⟩
        simp only [setNode, cores, xdr_modify_append_length]
        simp [core]
      · simp [hc] at h

theorem xdr_fputtr_internal_unadvanced (E : Env) (g : Globals) (s : Globals × segy) (fp : Nat)
    (tp : segy) (fixed_length : Bool) (e : SuErr) (hInv : Inv g) (hfp : fp ≠ NULL)
    (h : fputtr_internal E g fp tp fixed_length = .err e s) :
    NoXDR.Unadvanced (cores g) (cores s.1) fp := by
  have hfr := xdr_resolve_frame g fp
  rcases xdr_node_cases g fp with ⟨i, c, hi, hout⟩ | hnew
  · have hp := xdr_resolve_existing g fp i c hInv hfp hi hout
    have hc0 : cores (if fp ≠ g.lastfp then searchlist g fp else g) = cores g := by
      unfold cores; rw [hfr.1]
    unfold fputtr_internal at h
    generalize (if fp ≠ g.lastfp then searchlist g fp else g) = g0 at h hp hc0
    simp only [hp] at h
    exact Or.inl ((xdr_writeTrace_err_state E g0 s tp fixed_length e h).trans hc0)
  · obtain ⟨h0, hp, ho⟩ := xdr_resolve_new g fp hInv hfp hnew
    unfold fputtr_internal at h
    rw [h0] at h
    simp only [hp] at h
    have ho2 : (searchlist g fp).oldinfoptr = some (searchlist g fp).outsegylist.length := ho
    have hl : cores (searchlist g fp) = cores g := rfl
    cases hi : initStream E (searchlist g fp) fp tp with
    | ok g1 =>
      simp only [hi] at h
      have h1 := (xdr_initStream_ok E (searchlist g fp) g1 fp tp ho2 hi).2.2.2.1
      refine Or.inr ⟨hnew, tp.ns, bytesperOf E tp.trid, ?_⟩
      rw [xdr_writeTrace_err_state E g1 s tp fixed_length e h, h1, hl]
    | err e1 s1 =>
      simp only [hi, Res.err.injEq] at h
      obtain ⟨a, ha⟩ := xdr_initStream_err_state E (searchlist g fp) s1 fp tp e1 ho2 hi
      refine Or.inr ⟨hnew, a, 0, ?_⟩
      rw [← h.2]
      exact ha.trans (by rw [hl])
    | fault s1 => simp [hi] at h

end SUXDR

end SU

namespace SU

namespace NoXDR

/-! ### The nodes and the streams written to -/

theorem stepped_sources (l l1 : List outsegyinfo) (pre : List Call) (c : Call) (ns b : Nat)
    (hsrc : ∀ n ∈ l, ∃ d ∈ pre, d.fp = n.outfp) (hs : Stepped l l1 c.fp ns b) :
    ∀ n ∈ l1, ∃ d ∈ pre ++ [c], d.fp = n.outfp := by
  intro n hn
  rcases hs with ⟨i, info, _, _, h1⟩ | ⟨_, h1⟩
  · subst h1
    have hm : n.outfp ∈ l.map (fun n => n.outfp) := by
      rw [← map_outfp_modify (fun n => { n with itr := n.itr + 1 }) (fun _ => rfl) l i]
      exact List.mem_map_of_mem _ hn
    obtain ⟨m, hm1, hm2⟩ := List.mem_map.1 hm
    obtain ⟨d, hd, hdm⟩ := hsrc m hm1
    exact ⟨d, List.mem_append_left _ hd, hdm.trans hm2⟩
  · subst h1
    rcases List.mem_append.1 hn with h | h
    · obtain ⟨d, hd, hdm⟩ := hsrc n h
      exact ⟨d, List.mem_append_left _ hd, hdm⟩
    · rw [List.mem_singleton.1 h]
      exact ⟨c, List.mem_append_right _ (List.mem_singleton_self _), rfl⟩

theorem sources_run (E : Env) (suf : List Call) :
    ∀ (g g1 : Globals) (pre : List Call), Inv g →
      (∀ n ∈ g.outsegylist, ∃ d ∈ pre, d.fp = n.outfp) →
      (∀ c ∈ suf, c.fp ≠ NULL) → run E g suf = .ok g1 →
      ∀ n ∈ g1.outsegylist, ∃ d ∈ pre ++ suf, d.fp = n.outfp := by
  induction suf with
  | nil =>
    intro g g1 pre _ hsrc _ h
    simp only [run, Res.ok.injEq] at h
    subst h
    rw [List.append_nil]
    exact hsrc
  | cons c cs ih =>
    intro g g1 pre hInv hsrc hcs h
    have hfp : c.fp ≠ NULL := hcs c (List.mem_cons_self _ _)
    cases hres : fputtr_internal E g c.fp c.tp c.fixed_length with
    | ok g2 =>
      simp only [run, hres] at h
      have hst := fputtr_internal_stepped E g g2 c.fp c.tp c.fixed_length hInv hfp hres
      have := ih g2 g1 (pre ++ [c])
        (Inv_step E g g2 c.fp c.tp c.fixed_length hInv hfp hres)
        (stepped_sources _ _ pre c _ _ hsrc hst)
        (fun d hd => hcs d (List.mem_cons_of_mem _ hd)) h
      rw [List.append_assoc] at this
      exact this
    | err e s => simp [run, hres] at h
    | fault s => simp [run, hres] at h

theorem nodes_count (l : List outsegyinfo) (cs : List Call)
    (hnd : (l.map (fun n => n.outfp)).Nodup)
    (h1 : ∀ n ∈ l, ∃ d ∈ cs, d.fp = n.outfp) (h2 : ∀ d ∈ cs, ∃ n ∈ l, n.outfp = d.fp) :
    l.length = ((cs.map (fun c => c.fp)).dedup).length := by
  have hp : (l.map (fun n => n.outfp)).Perm ((cs.map (fun c => c.fp)).dedup) := by
    rw [List.perm_ext_iff_of_nodup hnd (List.nodup_dedup _)]
    intro x
    rw [List.mem_dedup, List.mem_map, List.mem_map]
    constructor
    · rintro ⟨n, hn, rfl⟩
      obtain ⟨d, hd, hdn⟩ := h1 n hn
      exact ⟨d, hd, hdn⟩
    · rintro ⟨d, hd, rfl⟩
      obtain ⟨n, hn, hnd⟩ := h2 d hd
      exact ⟨n, hn, hnd⟩
  rw [← hp.length_eq, List.length_map]

end NoXDR

/-- C17. A call of `fputtr` or `fvputtr` on a stream `fp` that returns leaves the nodes in
the relation `Stepped`: the node of `fp` has its counter raised by exactly one (a node made by
the call has counter 1), and every node of another stream holds the counter, `nsfirst` and
`bytesper` it held before.  A call that ends in an error leaves every node as it was, or has
added a node of `fp` with counter 0.  After calls from program start that all return, the
counter of every node is the number of calls that named its stream, and every stream named has
a node.  All this holds in the build without XDR and, on the fields both builds have, in the
build with XDR. -/
theorem trace_counter_frame (E : Env) (g : NoXDR.Globals) (gx : SUXDR.Globals) (fp : Nat)
    (tp : segy) (fixed_length : Bool) (cs : List Call) (hInv : NoXDR.Inv g)
    (hInvx : SUXDR.Inv gx) (hfp : fp ≠ NULL) (hcs : ∀ c ∈ cs, c.fp ≠ NULL) :
    (∀ g1, NoXDR.fputtr_internal E g fp tp fixed_length = .ok g1 →
      NoXDR.Stepped g.outsegylist g1.outsegylist fp tp.ns (NoXDR.bytesperOf E tp.trid) ∧
      ∀ (j : Nat) (n : NoXDR.outsegyinfo), g.outsegylist[j]? = some n →
        (n.outfp ≠ fp → g1.outsegylist[j]? = some n) ∧
        (n.outfp = fp → g1.outsegylist[j]? = some { n with itr := n.itr + 1 })) ∧
    (∀ e s, NoXDR.fputtr_internal E g fp tp fixed_length = .err e s →
      NoXDR.Unadvanced g.outsegylist s.outsegylist fp) ∧
    (∀ g1 tp1, SUXDR.fputtr_internal E gx fp tp fixed_length = .ok (g1, tp1) →
      NoXDR.Stepped (SUXDR.cores gx) (SUXDR.cores g1) fp tp.ns (SUXDR.bytesperOf E tp.trid) ∧
      ∀ (j : Nat) (n : NoXDR.outsegyinfo), (SUXDR.cores gx)[j]? = some n →
        (n.outfp ≠ fp → (SUXDR.cores g1)[j]? = some n) ∧
        (n.outfp = fp → (SUXDR.cores g1)[j]? = some { n with itr := n.itr + 1 })) ∧
    (∀ e s, SUXDR.fputtr_internal E gx fp tp fixed_length = .err e s →
      NoXDR.Unadvanced (SUXDR.cores gx) (SUXDR.cores s.1) fp) ∧
    (∀ g1, NoXDR.run E NoXDR.Globals.init cs = .ok g1 →
      (∀ n ∈ g1.outsegylist, n.itr = countTo cs n.outfp) ∧
      (∀ d ∈ cs, ∃ n ∈ g1.outsegylist, n.outfp = d.fp)) ∧
    (∀ g1, SUXDR.run E SUXDR.Globals.init cs = .ok g1 →
      (∀ n ∈ SUXDR.cores g1, n.itr = countTo cs n.outfp) ∧
      (∀ d ∈ cs, ∃ n ∈ SUXDR.cores g1, n.outfp = d.fp)) := by
  refine ⟨?_, ?_, ?_, ?_, ?_, ?_⟩
  · intro g1 h
    have hs := NoXDR.fputtr_internal_stepped E g g1 fp tp fixed_length hInv hfp h
    exact ⟨hs, fun j n hj => NoXDR.stepped_getElem _ _ _ _ _ hInv.1 hs j n hj⟩
  · intro e s h
    exact NoXDR.fputtr_internal_unadvanced E g s fp tp fixed_length e hInv hfp h
  · intro g1 tp1 h
    have hs := SUXDR.xdr_fputtr_internal_stepped E gx g1 fp tp tp1 fixed_length hInvx hfp h
    exact ⟨hs, fun j n hj => NoXDR.stepped_getElem _ _ _ _ _ hInvx.1 hs j n hj⟩
  · intro e s h
    exact SUXDR.xdr_fputtr_internal_unadvanced E gx s fp tp fixed_length e hInvx hfp h
  · intro g1 h
    have := NoXDR.counts_run E cs NoXDR.Globals.init g1 [] NoXDR.Inv_init
      (fun n hn => absurd hn (List.not_mem_nil n))
      (fun d hd => absurd hd (List.not_mem_nil d)) hcs h
    rw [List.nil_append] at this
    exact this.2
  · intro g1 h
    have := SUXDR.xdr_counts_run E cs SUXDR.Globals.init g1 [] SUXDR.xdr_Inv_init
      (fun n hn => absurd hn (List.not_mem_nil n))
      (fun d hd => absurd hd (List.not_mem_nil d)) hcs h
    rw [List.nil_append] at this
    exact this.2

set_option maxRecDepth 10000 in
/-- C17, witness: the calls `isolationCalls` from program start, two traces to stream 1 and
one to stream 4, in both builds; and a first trace of 40000 samples, more than `SU_NFLTS`, whose
call ends in an error and leaves a node with counter 0. -/
theorem trace_counter_frame_witness :
    (NoXDR.run exampleEnv NoXDR.Globals.init isolationCalls).isOk = true ∧
    (NoXDR.run exampleEnv NoXDR.Globals.init isolationCalls).state.outsegylist.map
      (fun n => (n.outfp, n.itr)) = [(1, 2), (4, 1)] ∧
    (SUXDR.run exampleEnv SUXDR.Globals.init isolationCalls).isOk = true ∧
    (NoXDR.fputtr_internal exampleEnv NoXDR.Globals.init 1 (exampleTrace 40000 1) true).isOk
      = false ∧
    (∀ g1, NoXDR.run exampleEnv NoXDR.Globals.init isolationCalls = .ok g1 →
      (∀ n ∈ g1.outsegylist, n.itr = countTo isolationCalls n.outfp) ∧
      (∀ d ∈ isolationCalls, ∃ n ∈ g1.outsegylist, n.outfp = d.fp)) ∧
    (∀ e s, NoXDR.fputtr_internal exampleEnv NoXDR.Globals.init 1 (exampleTrace 40000 1) true
        = .err e s →
      NoXDR.Unadvanced NoXDR.Globals.init.outsegylist s.outsegylist 1) :=
  have h := trace_counter_frame exampleEnv NoXDR.Globals.init SUXDR.Globals.init 1
    (exampleTrace 40000 1) true isolationCalls NoXDR.Inv_init SUXDR.xdr_Inv_init (by decide)
    (by decide)
  ⟨by decide!, by decide!, by decide!, by decide!, h.2.2.2.2.1, h.2.1⟩

/-- C19. Build without XDR, a state with a consistent registry and a stream `fp` other than
`NULL`.  The lookup at the head of `fputtr_internal` keeps the cached node exactly when `fp` is
`lastfp` and scans the list otherwise; either way `infoptr` ends on the node whose `outfp` is
`fp` when there is one, and on `NULL` when there is none.  A call that returns has raised the
counter of that node, or has added a node for `fp` when no node had it, and leaves the registry
consistent.  After calls from program start that all return, no two nodes have the same stream,
the streams of the nodes are the streams the calls named, and there are as many nodes as
distinct streams named. -/
theorem registry_resolution (E : Env) (g : NoXDR.Globals) (fp : Nat) (tp : segy)
    (fixed_length : Bool) (cs : List Call) (hInv : NoXDR.Inv g) (hfp : fp ≠ NULL)
    (hcs : ∀ c ∈ cs, c.fp ≠ NULL) :
    (fp = g.lastfp → (if fp ≠ g.lastfp then NoXDR.searchlist g fp else g) = g) ∧
    (fp ≠ g.lastfp →
      (if fp ≠ g.lastfp then NoXDR.searchlist g fp else g) = NoXDR.searchlist g fp) ∧
    (∀ i info, g.outsegylist[i]? = some info → info.outfp = fp →
      (if fp ≠ g.lastfp then NoXDR.searchlist g fp else g).infoptr = some i) ∧
    ((∀ n ∈ g.outsegylist, n.outfp ≠ fp) →
      (if fp ≠ g.lastfp then NoXDR.searchlist g fp else g).infoptr = none ∧
      (if fp ≠ g.lastfp then NoXDR.searchlist g fp else g).oldinfoptr
        = some g.outsegylist.length) ∧
    (∀ g1, NoXDR.fputtr_internal E g fp tp fixed_length = .ok g1 →
      NoXDR.Stepped g.outsegylist g1.outsegylist fp tp.ns (NoXDR.bytesperOf E tp.trid) ∧
      NoXDR.Inv g1) ∧
    (∀ g1, NoXDR.run E NoXDR.Globals.init cs = .ok g1 →
      (g1.outsegylist.map (fun n => n.outfp)).Nodup ∧
      (∀ x, x ∈ g1.outsegylist.map (fun n => n.outfp) ↔ x ∈ cs.map (fun c => c.fp)) ∧
      g1.outsegylist.length = ((cs.map (fun c => c.fp)).dedup).length) := by
  refine ⟨?_, ?_, ?_, ?_, ?_, ?_⟩
  · intro h
    rw [if_neg (not_not.2 h)]
  · intro h
    rw [if_pos h]
  · intro i info hi hout
    exact NoXDR.resolve_existing g fp i info hInv hfp hi hout
  · intro hnew
    obtain ⟨h0, hp, ho⟩ := NoXDR.resolve_new g fp hInv hfp hnew
    rw [h0]
    exact ⟨hp, ho⟩
  · intro g1 h
    exact ⟨NoXDR.fputtr_internal_stepped E g g1 fp tp fixed_length hInv hfp h,
      NoXDR.Inv_step E g g1 fp tp fixed_length hInv hfp h⟩
  · intro g1 h
    have hc := NoXDR.counts_run E cs NoXDR.Globals.init g1 [] NoXDR.Inv_init
      (fun n hn => absurd hn (List.not_mem_nil n))
      (fun d hd => absurd hd (List.not_mem_nil d)) hcs h
    have hsrc := NoXDR.sources_run E cs NoXDR.Globals.init g1 [] NoXDR.Inv_init
      (fun n hn => absurd hn (List.not_mem_nil n)) hcs h
    rw [List.nil_append] at hc hsrc
    refine ⟨hc.1.1, ?_, NoXDR.nodes_count _ cs hc.1.1 hsrc hc.2.2⟩
    intro x
    rw [List.mem_map, List.mem_map]
    constructor
    · rintro ⟨n, hn, rfl⟩
      obtain ⟨d, hd, hdn⟩ := hsrc n hn
      exact ⟨d, hd, hdn⟩
    · rintro ⟨d, hd, rfl⟩
      obtain ⟨n, hn, hnd⟩ := hc.2.2 d hd
      exact ⟨n, hn, hnd⟩

set_option maxRecDepth 10000 in
/-- C19, witness: the interleaved calls `isolationCalls` from program start, to the streams 1,
4 and again 1: the run returns and the registry holds the two nodes of the streams 1 and 4. -/
theorem registry_resolution_witness :
    (NoXDR.run exampleEnv NoXDR.Globals.init isolationCalls).isOk = true ∧
    (NoXDR.run exampleEnv NoXDR.Globals.init isolationCalls).state.outsegylist.map
      (fun n => n.outfp) = [1, 4] ∧
    ((isolationCalls.map (fun c => c.fp)).dedup).length = 2 ∧
    (∀ g1, NoXDR.run exampleEnv NoXDR.Globals.init isolationCalls = .ok g1 →
      (g1.outsegylist.map (fun n => n.outfp)).Nodup ∧
      (∀ x, x ∈ g1.outsegylist.map (fun n => n.outfp) ↔
        x ∈ isolationCalls.map (fun c => c.fp)) ∧
      g1.outsegylist.length = ((isolationCalls.map (fun c => c.fp)).dedup).length) :=
  have h := registry_resolution exampleEnv NoXDR.Globals.init 1 (exampleTrace 100 1) true
    isolationCalls NoXDR.Inv_init (by decide) (by decide)
  ⟨by decide!, by decide!, by decide, h.2.2.2.2.2⟩

end SU

namespace SU

namespace NoXDR

/-! ### The bound on `nsfirst` -/

theorem stepped_nsfirst (l l1 : List outsegyinfo) (fp ns b cap : Nat)
    (hcap : ∀ n ∈ l, n.nsfirst ≤ cap) (hs : Stepped l l1 fp ns b)
    (hns : (∀ n ∈ l, n.outfp ≠ fp) → ns ≤ cap) : ∀ n ∈ l1, n.nsfirst ≤ cap := by
  intro n hn
  rcases hs with ⟨i, info, _, _, h1⟩ | ⟨hnew, h1⟩
  · subst h1
    rcases mem_modify _ _ _ _ hn with h | ⟨m, hm, hfm⟩
    · exact hcap n h
    · rw [hfm]; exact hcap m hm
  · subst h1
    rcases List.mem_append.1 hn with h | h
    · exact hcap n h
    · rw [List.mem_singleton.1 h]; exact hns hnew

theorem nsfirst_step (E : Env) (g g1 : Globals) (fp : Nat) (tp : segy) (fixed_length : Bool)
    (hInv : Inv g) (hfp : fp ≠ NULL) (hcap : ∀ n ∈ g.outsegylist, n.nsfirst ≤ E.SU_NFLTS)
    (h : fputtr_internal E g fp tp fixed_length = .ok g1) :
    ∀ n ∈ g1.outsegylist, n.nsfirst ≤ E.SU_NFLTS :=
  stepped_nsfirst _ _ fp tp.ns (bytesperOf E tp.trid) _ hcap
    (fputtr_internal_stepped E g g1 fp tp fixed_length hInv hfp h)
    (fun hnew => (fputtr_internal_new_ok E g g1 fp tp fixed_length hInv hfp hnew h).1)

theorem nsfirst_run (E : Env) (cs : List Call) :
    ∀ (g g1 : Globals), Inv g → (∀ n ∈ g.outsegylist, n.nsfirst ≤ E.SU_NFLTS) →
      (∀ c ∈ cs, c.fp ≠ NULL) → run E g cs = .ok g1 →
      ∀ n ∈ g1.outsegylist, n.nsfirst ≤ E.SU_NFLTS := by
  induction cs with
  | nil =>
    intro g g1 _ hcap _ h
    simp only [run, Res.ok.injEq] at h
    subst h
    exact hcap
  | cons c cs ih =>
    intro g g1 hInv hcap hcs h
    have hfp : c.fp ≠ NULL := hcs c (List.mem_cons_self _ _)
    cases hres : fputtr_internal E g c.fp c.tp c.fixed_length with
    | ok g2 =>
      simp only [run, hres] at h
      exact ih g2 g1 (Inv_step E g g2 c.fp c.tp c.fixed_length hInv hfp hres)
        (nsfirst_step E g g2 c.fp c.tp c.fixed_length hInv hfp hcap hres)
        (fun d hd => hcs d (List.mem_cons_of_mem _ hd)) h
    | err e s => simp [run, hres] at h
    | fault s => simp [run, hres] at h

/-! ### A stream that takes no byte -/

theorem efwrite_refused (E : Env) (g : Globals) (src : List Nat) (n fp : Nat)
    (hz : ∀ len m, E.fwriteCount fp len m = 0) (hn : n ≤ src.length) :
    ∃ g1, efwrite E g src n fp = some (g1, 0) ∧ g1.files = g.files ∧
      g1.outsegylist = g.outsegylist ∧ g1.infoptr = g.infoptr := by
  unfold efwrite
  rw [if_pos ((readable_iff _ _).2 hn), hz, Nat.min_zero]
  refine ⟨_, rfl, ?_, rfl, rfl⟩
  funext x
  by_cases hx : x = fp
  · subst hx; simp
  · simp [hx]

theorem writeTrace_refused (E : Env) (g : Globals) (tp : segy) (fixed_length : Bool) (i : Nat)
    (info : outsegyinfo) (hp : g.infoptr = some i) (hi : g.outsegylist[i]? = some info)
    (hns : tp.ns = info.nsfirst ∨ fixed_length = false)
    (hz : ∀ len m, E.fwriteCount info.outfp len m = 0)
    (hh : E.HDRBYTES ≤ (tp.hdr ++ tp.data).length)
    (hlen : info.bytesper * (if fixed_length = true then info.nsfirst else tp.ns)
      ≤ tp.data.length)
    (hpos : 0 < info.bytesper * (if fixed_length = true then info.nsfirst else tp.ns)) :
    ∃ g1, writeTrace E g tp fixed_length =
        .err (.shortWrite (info.itr + 1)
          (info.bytesper * (if fixed_length = true then info.nsfirst else tp.ns)) 0) g1 ∧
      g1.files = g.files ∧ g1.outsegylist = g.outsegylist := by
  have hc : ¬ (tp.ns ≠ info.nsfirst ∧ fixed_length = true) := by
    rcases hns with h | h <;> simp [h]
  obtain ⟨g2, hw, hf2, hl2, hp2⟩ :=
    efwrite_refused E g (tp.hdr ++ tp.data) E.HDRBYTES info.outfp hz hh
  have hi2 : g2.outsegylist[i]? = some info := by rw [hl2]; exact hi
  generalize hdb : info.bytesper * (if fixed_length = true then info.nsfirst else tp.ns) = db
    at hlen hpos ⊢
  obtain ⟨g3, hw3, hf3, hl3, hp3⟩ := efwrite_refused E g2 tp.data db info.outfp hz hlen
  have hcur : g3.infoptr.bind (fun j => g3.outsegylist[j]?) = some info := by
    rw [hp3, hp2, hp, hl3]
    exact hi2
  have hne : (0 : Nat) ≠ db := by omega
  refine ⟨g3, ?_, by rw [hf3, hf2], by rw [hl3, hl2]⟩
  unfold writeTrace
  simp only [hp, hi, if_neg hc, hw]
  unfold datawrite
  simp only [hi2, hdb, hw3, hne, ne_eq, not_false_eq_true, if_true, hcur]

theorem fputtr_internal_new_refused (E : Env) (g : Globals) (fp : Nat) (tp : segy)
    (fixed_length : Bool) (hInv : Inv g) (hfp : fp ≠ NULL)
    (hnew : ∀ n ∈ g.outsegylist, n.outfp ≠ fp) (hz : ∀ len m, E.fwriteCount fp len m = 0)
    (hp : E.getparint_lheader.getD 0 = 0) (hns : tp.ns ≤ E.SU_NFLTS)
    (hh : E.HDRBYTES ≤ (tp.hdr ++ tp.data).length)
    (hlen : bytesperOf E tp.trid * tp.ns ≤ tp.data.length)
    (hpos : 0 < bytesperOf E tp.trid * tp.ns) :
    ∃ g1, fputtr_internal E g fp tp fixed_length =
        .err (.shortWrite 1 (bytesperOf E tp.trid * tp.ns) 0) g1 ∧ g1.files = g.files := by
  obtain ⟨hr, hpn, ho⟩ := resolve_new g fp hInv hfp hnew
  have ho2 : (searchlist g fp).oldinfoptr = some (searchlist g fp).outsegylist.length := ho
  obtain ⟨g2, hi⟩ := initStream_accepts E (searchlist g fp) fp tp ho2 hns hp
  have h2 := initStream_ok E (searchlist g fp) g2 fp tp ho2 hi
  have hl : g2.outsegylist[g.outsegylist.length]? =
      some { outfp := fp, itr := 0, nsfirst := tp.ns, bytesper := bytesperOf E tp.trid } := by
    rw [h2.2.1]
    show (g.outsegylist ++ _)[g.outsegylist.length]? = _
    simp
  obtain ⟨g3, hw, hf, _⟩ := writeTrace_refused E g2 tp fixed_length g.outsegylist.length
    { outfp := fp, itr := 0, nsfirst := tp.ns, bytesper := bytesperOf E tp.trid }
    h2.2.2.2.1 hl (Or.inl rfl) hz hh (by simpa using hlen) (by simpa using hpos)
  simp only [ite_self, Nat.zero_add] at hw
  refine ⟨g3, ?_, ?_⟩
  · unfold fputtr_internal
    simp only [hr, hpn, hi, hw]
  · rw [hf, h2.2.2.2.2.2 hp]
    rfl

end NoXDR

namespace SUXDR

theorem xdr_nsfirst_step (E : Env) (g g1 : Globals) (fp : Nat) (tp tp1 : segy)
    (fixed_length : Bool) (hInv : Inv g) (hfp : fp ≠ NULL)
    (hcap : ∀ n ∈ cores g, n.nsfirst ≤ E.SU_NFLTS)
    (h : fputtr_internal E g fp tp fixed_length = .ok (g1, tp1)) :
    ∀ n ∈ cores g1, n.nsfirst ≤ E.SU_NFLTS :=
  NoXDR.stepped_nsfirst _ _ fp tp.ns (bytesperOf E tp.trid) _ hcap
    (xdr_fputtr_internal_stepped E g g1 fp tp tp1 fixed_length hInv hfp h)
    (fun hnew => (xdr_fputtr_internal_new_ok E g g1 fp tp tp1 fixed_length hInv hfp hnew h).1)

theorem xdr_nsfirst_run (E : Env) (cs : List Call) :
    ∀ (g g1 : Globals), Inv g → (∀ n ∈ cores g, n.nsfirst ≤ E.SU_NFLTS) →
      (∀ c ∈ cs, c.fp ≠ NULL) → run E g cs = .ok g1 →
      ∀ n ∈ cores g1, n.nsfirst ≤ E.SU_NFLTS := by
  induction cs with
  | nil =>
    intro g g1 _ hcap _ h
    simp only [run, Res.ok.injEq] at h
    subst h
    exact hcap
  | cons c cs ih =>
    intro g g1 hInv hcap hcs h
    have hfp : c.fp ≠ NULL := hcs c (List.mem_cons_self _ _)
    cases hres : fputtr_internal E g c.fp c.tp c.fixed_length with
    | ok r =>
      obtain ⟨g2, tp2⟩ := r
      simp only [run, hres] at h
      exact ih g2 g1 (xdr_Inv_step E g g2 c.fp c.tp tp2 c.fixed_length hInv hfp hres)
        (xdr_nsfirst_step E g g2 c.fp c.tp tp2 c.fixed_length hInv hfp hcap hres)
        (fun d hd => hcs d (List.mem_cons_of_mem _ hd)) h
    | err e r =>
      obtain ⟨g2, tp2⟩ := r
      simp [run, hres] at h
    | fault r =>
      obtain ⟨g2, tp2⟩ := r
      simp [run, hres] at h

end SUXDR

/-- C5 (as amended). The sample count is compared with `SU_NFLTS` when a stream gets its
node, and only then.  A trace with `ns > SU_NFLTS` written in either mode to a stream without a
node ends in the "unable to handle" error, of kind `CapacityExceeded`, with no byte written: in
the build without XDR always, in the build with XDR when `filestat` reports neither a directory
nor a terminal.  In the build without XDR, while every node has `nsfirst ≤ SU_NFLTS`, such a
trace written by `fputtr` to a stream that has a node ends in the "number of samples differs"
error, of kind `SchemaViolation`, with no byte written.  Hence a call that returns normally had
`ns ≤ SU_NFLTS` when it wrote the first trace of its stream (both builds) or was a call of
`fputtr` (build without XDR); and in both builds every node has `nsfirst ≤ SU_NFLTS` after a
call that returns normally if every node had before it, so after every run from program start
whose calls all return. -/
theorem capacity_checked_on_first_trace (E : Env) (g : NoXDR.Globals) (gx : SUXDR.Globals)
    (fp : Nat) (tp : segy) (fixed_length : Bool) (cs : List Call) (hInv : NoXDR.Inv g)
    (hInvx : SUXDR.Inv gx) (hfp : fp ≠ NULL) (hcs : ∀ c ∈ cs, c.fp ≠ NULL)
    (hcap : ∀ n ∈ g.outsegylist, n.nsfirst ≤ E.SU_NFLTS)
    (hcapx : ∀ n ∈ SUXDR.cores gx, n.nsfirst ≤ E.SU_NFLTS) :
    ((∀ n ∈ g.outsegylist, n.outfp ≠ fp) → tp.ns > E.SU_NFLTS →
      ∃ g1, NoXDR.fputtr_internal E g fp tp fixed_length =
          .err (.tooManySamples tp.ns E.SU_NFLTS) g1 ∧
        (SuErr.tooManySamples tp.ns E.SU_NFLTS).kind = .CapacityExceeded ∧
        g1.files = g.files) ∧
    ((∀ n ∈ SUXDR.cores gx, n.outfp ≠ fp) → E.filestat fp ≠ .DIRECTORY →
      E.filestat fp ≠ .TTY → tp.ns > E.SU_NFLTS →
      ∃ g1, SUXDR.fputtr_internal E gx fp tp fixed_length =
          .err (.tooManySamples tp.ns E.SU_NFLTS) (g1, tp) ∧ g1.files = gx.files) ∧
    (∀ (i : Nat) (info : NoXDR.outsegyinfo), g.outsegylist[i]? = some info →
      info.outfp = fp → tp.ns > E.SU_NFLTS →
      ∃ g1, NoXDR.fputtr_internal E g fp tp true =
          .err (.nsDiffers (info.itr + 1) tp.ns info.nsfirst) g1 ∧
        (SuErr.nsDiffers (info.itr + 1) tp.ns info.nsfirst).kind = .SchemaViolation ∧
        g1.files = g.files) ∧
    (∀ g1, NoXDR.fputtr_internal E g fp tp fixed_length = .ok g1 →
      (((∀ n ∈ g.outsegylist, n.outfp ≠ fp) ∨ fixed_length = true) → tp.ns ≤ E.SU_NFLTS) ∧
      ∀ n ∈ g1.outsegylist, n.nsfirst ≤ E.SU_NFLTS) ∧
    (∀ g1 tp1, SUXDR.fputtr_internal E gx fp tp fixed_length = .ok (g1, tp1) →
      ((∀ n ∈ SUXDR.cores gx, n.outfp ≠ fp) → tp.ns ≤ E.SU_NFLTS) ∧
      ∀ n ∈ SUXDR.cores g1, n.nsfirst ≤ E.SU_NFLTS) ∧
    (∀ g1, NoXDR.run E NoXDR.Globals.init cs = .ok g1 →
      ∀ n ∈ g1.outsegylist, n.nsfirst ≤ E.SU_NFLTS) ∧
    (∀ g1, SUXDR.run E SUXDR.Globals.init cs = .ok g1 →
      ∀ n ∈ SUXDR.cores g1, n.nsfirst ≤ E.SU_NFLTS) := by
  refine ⟨?_, ?_, ?_, ?_, ?_, ?_, ?_⟩
  · intro hnew hns
    obtain ⟨g1, h1, h2⟩ :=
      NoXDR.fputtr_internal_new_capacity E g fp tp fixed_length hInv hfp hnew hns
    exact ⟨g1, h1, rfl, h2⟩
  · intro hnew hd ht hns
    exact SUXDR.xdr_fputtr_internal_new_capacity E gx fp tp fixed_length hInvx hfp hnew hd ht
      hns
  · intro i info hi hout hns
    have hne : tp.ns ≠ info.nsfirst := by
      have := hcap info (List.getElem?_mem hi)
      omega
    obtain ⟨g1, h1, h2, _⟩ := NoXDR.fputtr_internal_old_mismatch E g fp i info tp hInv hfp hi
      hout hne
    exact ⟨g1, h1, rfl, h2⟩
  · intro g1 hok
    refine ⟨?_, NoXDR.nsfirst_step E g g1 fp tp fixed_length hInv hfp hcap hok⟩
    rcases NoXDR.node_cases g fp with ⟨i, info, hi, hout⟩ | hnew
    · have hk := NoXDR.fputtr_internal_old_ok E g g1 fp i info tp fixed_length hInv hfp hi hout
        hok
      have hmem : info ∈ g.outsegylist := List.getElem?_mem hi
      rintro (hnew | hfx)
      · exact absurd hout (hnew info hmem)
      · rcases hk.1 with h | h
        · rw [h]; exact hcap info hmem
        · rw [hfx] at h; exact absurd h (by decide)
    · exact fun _ =>
        (NoXDR.fputtr_internal_new_ok E g g1 fp tp fixed_length hInv hfp hnew hok).1
  · intro g1 tp1 hok
    exact ⟨fun hnew =>
        (SUXDR.xdr_fputtr_internal_new_ok E gx g1 fp tp tp1 fixed_length hInvx hfp hnew hok).1,
      SUXDR.xdr_nsfirst_step E gx g1 fp tp tp1 fixed_length hInvx hfp hcapx hok⟩
  · intro g1 h
    exact NoXDR.nsfirst_run E cs NoXDR.Globals.init g1 NoXDR.Inv_init
      (fun n hn => absurd hn (List.not_mem_nil n)) hcs h
  · intro g1 h
    exact SUXDR.xdr_nsfirst_run E cs SUXDR.Globals.init g1 SUXDR.xdr_Inv_init
      (fun n hn => absurd hn (List.not_mem_nil n)) hcs h

set_option maxRecDepth 10000 in
/-- C5, witness: a trace with `ns = 32769 = SU_NFLTS + 1`.  Written by `fvputtr` to stream 4,
which has no node, it ends in the "unable to handle" error in both builds; written by `fputtr`
to stream 1, whose node in `shortsStateNoXDR` holds `nsfirst = 2` and one trace written, it ends
in the "number of samples differs" error.  The calls `isolationCalls` from program start all
return in both builds, and the nodes they leave hold `nsfirst ≤ SU_NFLTS`. -/
theorem capacity_checked_on_first_trace_witness :
    (NoXDR.run exampleEnv NoXDR.Globals.init isolationCalls).isOk = true ∧
    (SUXDR.run exampleEnv SUXDR.Globals.init isolationCalls).isOk = true ∧
    (∀ g1, NoXDR.run exampleEnv NoXDR.Globals.init isolationCalls = .ok g1 →
      ∀ n ∈ g1.outsegylist, n.nsfirst ≤ exampleEnv.SU_NFLTS) ∧
    (∀ g1, SUXDR.run exampleEnv SUXDR.Globals.init isolationCalls = .ok g1 →
      ∀ n ∈ SUXDR.cores g1, n.nsfirst ≤ exampleEnv.SU_NFLTS) ∧
    (exampleTrace 32769 1).ns > exampleEnv.SU_NFLTS ∧
    (∃ g1, NoXDR.fputtr_internal exampleEnv shortsStateNoXDR 4 (exampleTrace 32769 1) false =
        .err (.tooManySamples 32769 32768) g1 ∧
      (SuErr.tooManySamples 32769 32768).kind = .CapacityExceeded ∧
      g1.files = shortsStateNoXDR.files) ∧
    (∃ g1, SUXDR.fputtr_internal exampleEnv SUXDR.Globals.init 4 (exampleTrace 32769 1) false =
        .err (.tooManySamples 32769 32768) (g1, exampleTrace 32769 1) ∧
      g1.files = SUXDR.Globals.init.files) ∧
    (∃ g1, NoXDR.fputtr_internal exampleEnv shortsStateNoXDR 1 (exampleTrace 32769 1) true =
        .err (.nsDiffers 2 32769 2) g1 ∧
      (SuErr.nsDiffers 2 32769 2).kind = .SchemaViolation ∧
      g1.files = shortsStateNoXDR.files) :=
  have hcap : ∀ n ∈ shortsStateNoXDR.outsegylist, n.nsfirst ≤ exampleEnv.SU_NFLTS := by
    intro n hn
    rw [List.mem_singleton.1 hn]
    decide
  have h4 := capacity_checked_on_first_trace exampleEnv shortsStateNoXDR SUXDR.Globals.init 4
    (exampleTrace 32769 1) false isolationCalls (by decide) SUXDR.xdr_Inv_init (by decide)
    (by decide) hcap (fun n hn => absurd hn (List.not_mem_nil n))
  have h1 := capacity_checked_on_first_trace exampleEnv shortsStateNoXDR SUXDR.Globals.init 1
    (exampleTrace 32769 1) true [] (by decide) SUXDR.xdr_Inv_init (by decide)
    (fun c hc => absurd hc (List.not_mem_nil c)) hcap
    (fun n hn => absurd hn (List.not_mem_nil n))
  ⟨by decide!, by decide!, h4.2.2.2.2.2.1, h4.2.2.2.2.2.2, by decide,
    h4.1 (by intro n hn; rw [List.mem_singleton.1 hn]; decide) (by decide),
    h4.2.1 (fun n hn => absurd hn (List.not_mem_nil n)) (by decide) (by decide) (by decide),
    h1.2.2.1 0 { outfp := 1, itr := 1, nsfirst := 2, bytesper := 2 } rfl rfl (by decide)⟩

set_option maxRecDepth 10000 in
/-- C5, counterexample to the claim as stated, build without XDR with `SU_NFLTS = 32768`: after
a first trace of 100 byte samples on stream 1, a trace with `ns = 40000 > SU_NFLTS` written by
`fputtr` ends in the "number of samples differs" error, whose kind is not `CapacityExceeded`, and
written by `fvputtr` it is accepted. -/
theorem later_trace_capacity_counterexample :
    (exampleTrace 40000 201).ns > exampleEnv.SU_NFLTS ∧
    (NoXDR.fputtr exampleEnv
      (NoXDR.fputtr exampleEnv NoXDR.Globals.init 1 (exampleTrace 100 201)).state 1
      (exampleTrace 40000 201)).error? = some (SuErr.nsDiffers 2 40000 100) ∧
    (SuErr.nsDiffers 2 40000 100).kind ≠ ErrorKind.CapacityExceeded ∧
    (NoXDR.fvputtr exampleEnv
      (NoXDR.fputtr exampleEnv NoXDR.Globals.init 1 (exampleTrace 100 201)).state 1
      (exampleTrace 40000 201)).isOk = true := by
  refine ⟨by decide, by decide!, by decide, ?_⟩
  obtain ⟨g1, hok, hInv, hl⟩ := NoXDR.first_example 100 201 true (by decide)
  have hi : g1.outsegylist[0]? =
      some { outfp := 1, itr := 1, nsfirst := 100, bytesper := 1 } := by rw [hl]; rfl
  have hlen : (1 : Nat) * (if false = true then 100 else (exampleTrace 40000 201).ns)
      ≤ (exampleTrace 40000 201).data.length := by
    rw [NoXDR.exampleTrace_data_length]; decide
  obtain ⟨g2, hok2, _⟩ := NoXDR.fputtr_internal_old_accepts exampleEnv g1 1 0
    { outfp := 1, itr := 1, nsfirst := 100, bytesper := 1 } (exampleTrace 40000 201) false hInv
    (by decide) hi rfl (Or.inr rfl) NoXDR.exampleEnv_acceptsAll
    (NoXDR.exampleTrace_hdr_length 40000 201) hlen
  unfold NoXDR.fvputtr NoXDR.fputtr
  rw [hok, Res.state, hok2]
  rfl

end SU

namespace SU

theorem dirEnv_refuses (len m : Nat) : dirEnv.fwriteCount 3 len m = 0 := rfl

namespace SUXDR

theorem xdr_initStream_err_capacity (E : Env) (g s : Globals) (fp : Nat) (tp : segy)
    (a b : Nat) (h : initStream E g fp tp = .err (.tooManySamples a b) s) :
    tp.ns > E.SU_NFLTS := by
  unfold initStream at h
  cases ho : g.oldinfoptr with
  | none => simp [ho] at h
  | some slot =>
    simp only [ho] at h
    by_cases hd : E.filestat fp = .DIRECTORY
    · simp [hd] at h
    · rw [if_neg hd] at h
      by_cases ht : E.filestat fp = .TTY
      · simp [ht] at h
      · rw [if_neg ht] at h
        by_cases hc : tp.ns > E.SU_NFLTS
        · exact hc
        · simp [hc] at h

theorem xdr_fputtr_internal_err_capacity (E : Env) (g : Globals) (s : Globals × segy)
    (fp : Nat) (tp : segy) (fixed_length : Bool) (a b : Nat)
    (h : fputtr_internal E g fp tp fixed_length = .err (.tooManySamples a b) s) :
    tp.ns > E.SU_NFLTS := by
  unfold fputtr_internal at h
  generalize (if fp ≠ g.lastfp then searchlist g fp else g) = g0 at h
  have hw : ∀ g1, writeTrace E g1 tp fixed_length = .err (.tooManySamples a b) s → False := by
    intro g1 h1
    rcases xdr_writeTrace_err E g1 s tp fixed_length _ h1 with ⟨x, h2⟩ | ⟨x, y, z, h2⟩ <;>
      simp at h2
  cases hp : g0.infoptr with
  | none =>
    simp only [hp] at h
    cases hi : initStream E g0 fp tp with
    | ok g1 =>
      simp only [hi] at h
      exact (hw g1 h).elim
    | err e1 s1 =>
      simp only [hi, Res.err.injEq] at h
      rw [h.1] at hi
      exact xdr_initStream_err_capacity E g0 s1 fp tp a b hi
    | fault s1 => simp [hi] at h
  | some i =>
    simp only [hp] at h
    exact (hw g0 h).elim

end SUXDR

/-- C9 (as amended). In the build with XDR the first call on a stream that `filestat`
reports as a directory or as a terminal ends in an error of kind `ConfigurationError` with no
byte written to any stream; on a stream it reports as anything else no call ends in an error of
that kind, and the first call with `ns ≤ SU_NFLTS` can only end in an error of kind
`WriteIntegrityError`.  In the build without XDR `filestat` is not consulted: the result of a call
does not depend on it, and no call ends in an error of kind `ConfigurationError`.  There the
first call on a stream is carried out whatever the stream is (no `lheader` parameter,
`ns ≤ SU_NFLTS`): when the streams take every byte it returns normally and the stream has
received the header and the data bytes of the trace; when the stream takes no byte and the trace
has data bytes, it ends in the "tried to write" error, of kind `WriteIntegrityError`, with no byte
written. -/
theorem destination_validation (E : Env) (g : NoXDR.Globals) (gx : SUXDR.Globals) (fp : Nat)
    (tp : segy) (fixed_length : Bool) (hInvx : SUXDR.Inv gx) (hfp : fp ≠ NULL)
    (hnewx : ∀ n ∈ SUXDR.cores gx, n.outfp ≠ fp) :
    (E.filestat fp = .DIRECTORY ∨ E.filestat fp = .TTY →
      ∃ e g1, SUXDR.fputtr_internal E gx fp tp fixed_length = .err e (g1, tp) ∧
        e.kind = .ConfigurationError ∧ g1.files = gx.files) ∧
    (E.filestat fp ≠ .DIRECTORY → E.filestat fp ≠ .TTY →
      ∀ e s, SUXDR.fputtr_internal E gx fp tp fixed_length = .err e s →
        e.kind ≠ .ConfigurationError ∧ (tp.ns ≤ E.SU_NFLTS → e.kind = .WriteIntegrityError)) ∧
    (∀ f : Nat → FileType,
      NoXDR.fputtr_internal { E with filestat := f } g fp tp fixed_length =
        NoXDR.fputtr_internal E g fp tp fixed_length) ∧
    (∀ e s, NoXDR.fputtr_internal E g fp tp fixed_length = .err e s →
      e.kind ≠ .ConfigurationError) ∧
    (NoXDR.Inv g → (∀ n ∈ g.outsegylist, n.outfp ≠ fp) → E.acceptsAll →
      E.getparint_lheader.getD 0 = 0 → tp.ns ≤ E.SU_NFLTS → tp.hdr.length = E.HDRBYTES →
      NoXDR.bytesperOf E tp.trid * tp.ns ≤ tp.data.length →
      ∃ g1, NoXDR.fputtr_internal E g fp tp fixed_length = .ok g1 ∧
        g1.files fp = g.files fp ++ tp.hdr ++
          tp.data.take (NoXDR.bytesperOf E tp.trid * tp.ns)) ∧
    (NoXDR.Inv g → (∀ n ∈ g.outsegylist, n.outfp ≠ fp) →
      (∀ len m, E.fwriteCount fp len m = 0) →
      E.getparint_lheader.getD 0 = 0 → tp.ns ≤ E.SU_NFLTS → tp.hdr.length = E.HDRBYTES →
      NoXDR.bytesperOf E tp.trid * tp.ns ≤ tp.data.length →
      0 < NoXDR.bytesperOf E tp.trid * tp.ns →
      ∃ g1, NoXDR.fputtr_internal E g fp tp fixed_length =
          .err (.shortWrite 1 (NoXDR.bytesperOf E tp.trid * tp.ns) 0) g1 ∧
        (SuErr.shortWrite 1 (NoXDR.bytesperOf E tp.trid * tp.ns) 0).kind
          = .WriteIntegrityError ∧
        g1.files = g.files) := by
  refine ⟨?_, ?_, fun f => rfl, ?_, ?_, ?_⟩
  · have hc := SUXDR.xdr_fputtr_internal_new_config E gx fp tp fixed_length hInvx hfp hnewx
    rintro (hd | ht)
    · obtain ⟨g1, h1, h2⟩ := hc.1 hd
      exact ⟨_, g1, h1, rfl, h2⟩
    · obtain ⟨g1, h1, h2⟩ := hc.2 ht
      exact ⟨_, g1, h1, rfl, h2⟩
  · intro hd ht e s h
    rcases SUXDR.xdr_fputtr_internal_err E gx s fp tp fixed_length e h with
      h1 | h1 | h1 | ⟨a, h1⟩ | ⟨a, b, c, h1⟩
    · exact absurd h1.2 hd
    · exact absurd h1.2 ht
    · subst h1
      refine ⟨by simp [SuErr.kind], fun hns => ?_⟩
      exact absurd hns (Nat.not_le.2
        (SUXDR.xdr_fputtr_internal_err_capacity E gx s fp tp fixed_length _ _ h))
    · rw [h1]; exact ⟨by simp [SuErr.kind], fun _ => rfl⟩
    · rw [h1]; exact ⟨by simp [SuErr.kind], fun _ => rfl⟩
  · intro e s h
    rcases NoXDR.fputtr_internal_err E g s fp tp fixed_length e h with
      h1 | ⟨a, b, c, h1⟩ | ⟨a, b, c, h1⟩ <;> rw [h1] <;> simp [SuErr.kind]
  · intro hInv hnew hE hp hns hh hlen
    exact NoXDR.fputtr_internal_new_accepts E g fp tp fixed_length hInv hfp hnew hE hp hns hh
      hlen
  · intro hInv hnew hz hp hns hh hlen hpos
    obtain ⟨g1, h1, h2⟩ := NoXDR.fputtr_internal_new_refused E g fp tp fixed_length hInv hfp
      hnew hz hp hns (by rw [List.length_append, hh]; exact Nat.le_add_right _ _) hlen hpos
    exact ⟨g1, h1, rfl, h2⟩

/-- C9, witness: the first call on stream 3 of `dirEnv`, which `filestat` reports as a
directory and which takes no byte, at program start, with a trace of two float samples: in the
build with XDR it ends in an error of kind `ConfigurationError`, in the build without XDR in the
"tried to write 8 bytes, wrote 0 bytes" error.  The same call on stream 2 of `exampleEnv`, which
`filestat` reports as a terminal and which takes every byte, returns normally in the build
without XDR. -/
theorem destination_validation_witness :
    dirEnv.filestat 3 = FileType.DIRECTORY ∧
    (∃ e g1, SUXDR.fputtr_internal dirEnv SUXDR.Globals.init 3 (exampleTrace 2 1) true
        = .err e (g1, exampleTrace 2 1) ∧
      e.kind = .ConfigurationError ∧ g1.files = SUXDR.Globals.init.files) ∧
    (∃ g1, NoXDR.fputtr_internal dirEnv NoXDR.Globals.init 3 (exampleTrace 2 1) true
        = .err (.shortWrite 1 (NoXDR.bytesperOf dirEnv (exampleTrace 2 1).trid
            * (exampleTrace 2 1).ns) 0) g1 ∧
      (SuErr.shortWrite 1 (NoXDR.bytesperOf dirEnv (exampleTrace 2 1).trid
            * (exampleTrace 2 1).ns) 0).kind = .WriteIntegrityError ∧
      g1.files = NoXDR.Globals.init.files) ∧
    NoXDR.bytesperOf dirEnv (exampleTrace 2 1).trid * (exampleTrace 2 1).ns = 8 ∧
    exampleEnv.filestat 2 = FileType.TTY ∧
    (∃ g1, NoXDR.fputtr_internal exampleEnv NoXDR.Globals.init 2 (exampleTrace 2 1) true
        = .ok g1 ∧
      g1.files 2 = NoXDR.Globals.init.files 2 ++ (exampleTrace 2 1).hdr ++
        (exampleTrace 2 1).data.take
          (NoXDR.bytesperOf exampleEnv (exampleTrace 2 1).trid * (exampleTrace 2 1).ns)) :=
  have hd := destination_validation dirEnv NoXDR.Globals.init SUXDR.Globals.init 3
    (exampleTrace 2 1) true SUXDR.xdr_Inv_init (by decide)
    (fun n hn => absurd hn (List.not_mem_nil n))
  have ht := destination_validation exampleEnv NoXDR.Globals.init SUXDR.Globals.init 2
    (exampleTrace 2 1) true SUXDR.xdr_Inv_init (by decide)
    (fun n hn => absurd hn (List.not_mem_nil n))
  have hlen : (8 : Nat) ≤ (exampleTrace 2 1).data.length := by
    rw [NoXDR.exampleTrace_data_length]; decide
  ⟨by decide, hd.1 (Or.inl (by decide)),
    hd.2.2.2.2.2 NoXDR.Inv_init (fun n hn => absurd hn (List.not_mem_nil n)) dirEnv_refuses
      rfl (by decide) (NoXDR.exampleTrace_hdr_length 2 1) hlen (by decide),
    by decide, by decide,
    ht.2.2.2.2.1 NoXDR.Inv_init (fun n hn => absurd hn (List.not_mem_nil n))
      NoXDR.exampleEnv_acceptsAll rfl (by decide) (NoXDR.exampleTrace_hdr_length 2 1) hlen⟩

set_option maxRecDepth 10000 in
/-- C9, counterexample to the claim as stated: in the build without XDR the first call on
stream 2, which `filestat` reports as a terminal, returns normally, and the stream has received
the 240 header bytes and the 8 data bytes of the trace; the first call on stream 3 of `dirEnv`,
which `filestat` reports as a directory, ends in the "tried to write" error, whose kind is not
`ConfigurationError`. -/
theorem noxdr_tty_accepted_counterexample :
    exampleEnv.filestat 2 = FileType.TTY ∧
    (NoXDR.fputtr exampleEnv NoXDR.Globals.init 2 (exampleTrace 2 1)).isOk = true ∧
    ((NoXDR.fputtr exampleEnv NoXDR.Globals.init 2 (exampleTrace 2 1)).state.files 2).length
      = 240 + 8 ∧
    dirEnv.filestat 3 = FileType.DIRECTORY ∧
    (NoXDR.fputtr dirEnv NoXDR.Globals.init 3 (exampleTrace 2 1)).error?
      = some (SuErr.shortWrite 1 8 0) ∧
    (SuErr.shortWrite 1 8 0).kind ≠ ErrorKind.ConfigurationError := by
  refine ⟨by decide, by decide!, by decide!, by decide, by decide!, by decide⟩

end SU
